import Mathlib

/-!
# BigInteger.h: a shallow embedding

Arbitrary-precision signed integers stored as a little-endian vector of
base-`10^8` digits together with a sign flag (`true` = non-negative).
The definitions below follow `src/BigInteger.h` function by function.

Conventions of the embedding.
* `digit_t = int64_t` values are modelled by `Int`.  The C++ operators `/`
  and `%` truncate toward zero, so they are `Int.tdiv` and `Int.tmod`.
  Conversions to a narrower machine type are written `wrap32`, and the
  64-bit arithmetic of the scalar division is written with `wrap64`.
* `std::vector<digit_t>` is `List Int`, index `0` first.
* A thrown exception is `Except.error`; recursion that the source does
  not bound is driven by a fuel argument, and `Err.outOfFuel` stands for
  "no result yet" (not for a C++ exception).
* The floating-point FFT kernels are not embedded; see `FFT`.
-/

namespace BigInteger

/-! ## Constants -/

/-- Source: `constexpr digit_t BASE = 1e8`. -/
def BASE : Int := 100000000
/-- Source: `constexpr int WIDTH = 8`. -/
def WIDTH : Nat := 8
/-- Source: `constexpr int FFT_LIMIT = 8`. -/
def FFT_LIMIT : Int := 8
/-- Source: `constexpr int NEWTON_DIV_MIN_LEVEL = 8`. -/
def NEWTON_DIV_MIN_LEVEL : Int := 8
/-- Source: `constexpr int NEWTON_DIV_LIMIT = 32`. -/
def NEWTON_DIV_LIMIT : Int := 32
/-- Source: `constexpr int NEWTON_SQRT_LIMIT = 48`. -/
def NEWTON_SQRT_LIMIT : Int := 48
/-- Source: `constexpr int NEWTON_SQRT_MIN_LEVEL = 6`. -/
def NEWTON_SQRT_MIN_LEVEL : Int := 6

/-- Conversion of an integer to `int32_t` (two's complement wrap-around). -/
def wrap32 (z : Int) : Int := (z + 2147483648) % 4294967296 - 2147483648
/-- Conversion of an integer to `int64_t` (two's complement wrap-around). -/
def wrap64 (z : Int) : Int :=
  (z + 9223372036854775808) % 18446744073709551616 - 9223372036854775808

/-- The three exception classes of the header, and the fuel marker. -/
inductive Err where
  | zeroDivision
  | fftLimitExceeded
  | negativeRadicand
  | outOfFuel
deriving DecidableEq, Repr

end BigInteger

/-- The class `BigInteger`: `digits` (little-endian, base `10^8`) and `flag`
(`true` when the value is not negative). -/
structure BigInteger where
  digits : List Int
  flag : Bool
deriving DecidableEq, Repr

/-- Stand-in for the two floating-point FFT routines.  `mul a b` is the
digit vector `res` that `fft_mul` builds from the digit vectors of its
operands, `sq a` the vector `res` built by the FFT branch of `square`. -/
structure FFT where
  mul : List Int → List Int → List Int
  sq : List Int → List Int

namespace BigInteger

/-! ## Digit vector and sign -/

/-- The loop of `trim`, on the vector read from its back: pop zeros while
more than one digit is left. -/
def trimRev : List Int → List Int
  | [] => []
  | [d] => [d]
  | d :: e :: ds => if d = 0 then trimRev (e :: ds) else d :: e :: ds

/-- Source: `trim()` on the digit vector. -/
def trimDigits (l : List Int) : List Int := (trimRev l.reverse).reverse

/-- Source: `BigInteger& trim()`. -/
def trim (a : BigInteger) : BigInteger := ⟨trimDigits a.digits, a.flag⟩

/-- The protected constructor `BigInteger(const std::vector<digit_t>&)`. -/
def ofVec (v : List Int) : BigInteger := ⟨trimDigits v, true⟩

/-- The default constructor `BigInteger()`. -/
def zeroBig : BigInteger := ⟨[0], true⟩

/-- Source: `digit_t operator[] (int x) const`. -/
def get (a : BigInteger) (i : Nat) : Int := a.digits.getD i 0

/-- Source: `int _digit_len() const`, that is `digits.size()`. -/
def _digit_len (a : BigInteger) : Nat := a.digits.length

/-- Source: `digits.back()`. -/
def back (a : BigInteger) : Int := a.digits.getLastD 0

/-- The `do { digits.emplace_back(n % BASE), n /= BASE; } while (n);` loop of
`operator=(const int64_t&)`; three rounds exhaust any 64-bit value. -/
def int64Digits : Nat → Int → List Int
  | 0, _ => []
  | k + 1, n =>
    (n.tmod BASE) :: (if n.tdiv BASE = 0 then [] else int64Digits k (n.tdiv BASE))

/-- Source: `BigInteger& operator= (const int64_t&)`; `LLONG_MIN` goes through the
string `"-9223372036854775808"`, whose digit groups are written out. -/
def ofInt64 (x : Int) : BigInteger :=
  if x = -9223372036854775808 then ⟨[54775808, 33720368, 922], false⟩
  else if x = 0 then ⟨[0], decide (x ≥ 0)⟩
  else ⟨int64Digits 3 x.natAbs, decide (x ≥ 0)⟩

/-- Source: `bool zero() const`. -/
def zero (a : BigInteger) : Bool := a.digits.length == 1 && a.get 0 == 0
/-- Source: `bool negative() const`. -/
def negative (a : BigInteger) : Bool := !a.flag
/-- Source: `bool positive() const`. -/
def positive (a : BigInteger) : Bool := a.flag && !a.zero
/-- Source: `bool mod2() const`: `digits[0] & 1`. -/
def mod2 (a : BigInteger) : Bool := a.get 0 % 2 == 1

/-- Source: `BigInteger _move_l(int) const`. -/
def _move_l (a : BigInteger) (x : Int) : BigInteger :=
  ofVec (List.replicate x.toNat 0 ++ a.digits)
/-- Source: `BigInteger _move_r(int) const`. -/
def _move_r (a : BigInteger) (x : Int) : BigInteger :=
  ofVec (a.digits.drop x.toNat)

/-- The digit loop of `compare`, from the highest index down, on the two
reversed vectors (which have the same length there). -/
def cmpRev (sgn : Int) : List Int → List Int → Int
  | d :: ds, e :: es =>
    if d > e then sgn else if d < e then -sgn else cmpRev sgn ds es
  | _, _ => 0

/-- Source: `int compare(const BigInteger&) const`. -/
def compare (a x : BigInteger) : Int :=
  if a.flag && !x.flag then 1
  else if !a.flag && x.flag then -1
  else
    let sgn : Int := if a.flag && x.flag then 1 else -1
    let n := a.digits.length
    let m := x.digits.length
    if n > m then sgn
    else if n < m then -sgn
    else cmpRev sgn a.digits.reverse x.digits.reverse

/-- Source: `operator==`. -/
def beq (a x : BigInteger) : Bool := decide (a.compare x = 0)
/-- Source: `operator<`. -/
def lt (a x : BigInteger) : Bool := decide (a.compare x < 0)
/-- Source: `operator>`. -/
def gt (a x : BigInteger) : Bool := decide (a.compare x > 0)
/-- Source: `operator<=`. -/
def le (a x : BigInteger) : Bool := decide (a.compare x ≤ 0)
/-- Source: `operator>=`. -/
def ge (a x : BigInteger) : Bool := decide (a.compare x ≥ 0)

/-- Unary `operator-`: `res.flag ^= 1`. -/
def neg (a : BigInteger) : BigInteger := ⟨a.digits, !a.flag⟩
/-- Source: `BigInteger abs() const`. -/
def abs (a : BigInteger) : BigInteger := ⟨a.digits, true⟩

/-! ## Addition and subtraction -/

/-- The carry loop of `operator+=(const BigInteger&)`: `k` rounds remain,
`ds` and `xs` are the digits of `*this` and of `x` from the current index
on (a missing digit reads as `0`, as `emplace_back(0)` and `x[i]` do). -/
def addLoop : Nat → List Int → List Int → Int → List Int
  | 0, ds, _, _ => ds
  | k + 1, ds, xs, carry =>
    let d := ds.headD 0 + (xs.headD 0 + carry)
    if d ≥ BASE then (d - BASE) :: addLoop k ds.tail xs.tail 1
    else d :: addLoop k ds.tail xs.tail 0

/-- The borrow loop of `operator-=(const BigInteger&)`; `f` is the value
`flag = (*this >= x)` computed before the loop. -/
def subLoop (f : Bool) : Nat → List Int → List Int → Int → List Int
  | 0, ds, _, _ => ds
  | k + 1, ds, xs, carry =>
    let d := if f then ds.headD 0 - xs.headD 0 - carry else xs.headD 0 - ds.headD 0 - carry
    if d < 0 then (d + BASE) :: subLoop f k ds.tail xs.tail 1
    else d :: subLoop f k ds.tail xs.tail 0

/-- The body of `operator+=(const BigInteger&)` after its two early
returns: `(flag ^= x.flag) ^= 1`, the carry loop, `trim()`. -/
def addMain (a x : BigInteger) : BigInteger :=
  ⟨trimDigits (addLoop (max a.digits.length x.digits.length + 1) a.digits x.digits 0),
    !(xor a.flag x.flag)⟩

/-- The body of `operator-=(const BigInteger&)` after its two early
returns: `flag = (*this >= x)`, the borrow loop, `trim()`. -/
def subMain (a x : BigInteger) : BigInteger :=
  let f := a.ge x
  ⟨trimDigits (subLoop f (max a.digits.length x.digits.length) a.digits x.digits 0), f⟩

/-- Source: `*this += x` entered with `x.negative()` false.  The early return
`*this = x - this->abs()` runs `operator-=` on two values whose flags are
set, that is `subMain`. -/
def addNonneg (a x : BigInteger) : BigInteger :=
  if a.negative then subMain x a.abs else addMain a x

/-- Source: `*this -= x` entered with `x.negative()` false.  The early return
`*this = -(x + this->abs())` runs `operator+=` on two values whose flags
are set, that is `addMain`. -/
def subNonneg (a x : BigInteger) : BigInteger :=
  if a.negative then neg (addMain x a.abs) else subMain a x

/-- Source: `operator+=(const BigInteger&)` / `operator+(const BigInteger&)`.  The
source is mutually recursive with `operator-=`; each early return calls the
other operator with `x.abs()` or `this->abs()`, so the recursion is at most
three calls deep and is written out here. -/
def add (a x : BigInteger) : BigInteger :=
  if x.negative then subNonneg a x.abs else addNonneg a x

/-- Source: `operator-=(const BigInteger&)` / `operator-(const BigInteger&)`. -/
def sub (a x : BigInteger) : BigInteger :=
  if x.negative then addNonneg a x.abs else subNonneg a x

/-! ## Multiplication -/

/-- The inner `j` loop of the schoolbook product for one digit `di` of
`*this`; `rs` is `res` from index `i + j` on:
`res[i+j] += di * x[j]; res[i+j+1] += res[i+j] / BASE; res[i+j] %= BASE`. -/
def mulInner (di : Int) : List Int → List Int → List Int
  | xj :: xs, r0 :: r1 :: rs =>
    let v := r0 + di * xj
    (v.tmod BASE) :: mulInner di xs ((r1 + v.tdiv BASE) :: rs)
  | _, rs => rs

/-- The outer `i` loop of the schoolbook product; `rs` is `res` from index
`i` on (row `i` never touches an index below `i`). -/
def mulOuter : List Int → List Int → List Int → List Int
  | [], _, rs => rs
  | di :: ds, xs, rs =>
    match mulInner di xs rs with
    | [] => []
    | r0 :: rest => r0 :: mulOuter ds xs rest

/-- The vector `res` of the schoolbook branch: `n + m + 1` zeros, then the
two nested loops. -/
def schoolbook (a x : List Int) : List Int :=
  mulOuter a x (List.replicate (a.length + x.length + 1) 0)

/-- Source: `BigInteger operator* (const BigInteger&) const`. -/
def mul (F : FFT) (a x : BigInteger) : BigInteger :=
  if a.zero || x.zero then zeroBig
  else if (a.digits.length : Int) * x.digits.length ≥ FFT_LIMIT then
    ⟨(ofVec (F.mul a.digits x.digits)).digits, !(xor a.flag x.flag)⟩
  else ⟨(ofVec (schoolbook a.digits x.digits)).digits, !(xor a.flag x.flag)⟩

/-- Source: `BigInteger square() const`. -/
def square (F : FFT) (a : BigInteger) : BigInteger :=
  if a.zero then zeroBig
  else if (a.digits.length : Int) * a.digits.length < FFT_LIMIT then
    ofVec (schoolbook a.digits a.digits)
  else ofVec (F.sq a.digits)

/-! ## Scalar operations -/

/-- The carry loop of `operator+=(const int32_t&)` from index `1` on:
`if (i >= size) emplace_back(0); if (++digits[i] < BASE) break;
digits[i] -= BASE, i++`. -/
def incLoop : List Int → List Int
  | [] => [1]
  | d :: ds => if d + 1 < BASE then (d + 1) :: ds else (d + 1 - BASE) :: incLoop ds

/-- The borrow loop of `operator-=(const int32_t&)` from index `1` on:
`if (--digits[i] >= 0) break; digits[i] += BASE, i++`. -/
def decLoop : List Int → List Int
  | [] => []
  | d :: ds => if d - 1 ≥ 0 then (d - 1) :: ds else (d - 1 + BASE) :: decLoop ds

/-- The body of `operator+=(const int32_t&)` after its three early returns. -/
def addSmallMain (a : BigInteger) (x : Int) : BigInteger :=
  let d0 := a.get 0 + x
  if d0 < BASE then ⟨d0 :: a.digits.tail, a.flag⟩
  else ⟨trimDigits ((d0 - BASE) :: incLoop a.digits.tail), a.flag⟩

/-- The body of `operator-=(const int32_t&)` after its four early returns. -/
def subSmallMain (a : BigInteger) (x : Int) : BigInteger :=
  let d0 := a.get 0 - x
  if d0 ≥ 0 then ⟨d0 :: a.digits.tail, a.flag⟩
  else ⟨trimDigits ((d0 + BASE) :: decLoop a.digits.tail), a.flag⟩

/-- The mutually recursive pair `operator+=(const int32_t&)` (selector
`true`) and `operator-=(const int32_t&)` (selector `false`); one unit of
fuel per call.  For `x < 0` the argument `std::abs(x)` is `wrap32 (-x)`; the
early return for a negative `*this` is `*this = -(*this - x)`, respectively
`*this = -(*this + x)`, on the unchanged (still negative) `*this`. -/
def addSubInt32 : Nat → Bool → BigInteger → Int → Except Err BigInteger
  | 0, _, _, _ => .error .outOfFuel
  | f + 1, true, a, x =>
    if x = 0 then .ok a
    else if x < 0 then addSubInt32 f false a (wrap32 (-x))
    else if a.negative then (addSubInt32 f false a x).map neg
    else .ok (addSmallMain a x)
  | f + 1, false, a, x =>
    if x = 0 then .ok a
    else if x < 0 then addSubInt32 f true a (wrap32 (-x))
    else if a.negative then (addSubInt32 f true a x).map neg
    else if a.digits.length ≤ 2 then .ok (sub a (ofInt64 x))
    else .ok (subSmallMain a x)

/-- Source: `operator+=(const int32_t&)` / `operator+(const int32_t&)`. -/
def addInt32 (fuel : Nat) (a : BigInteger) (x : Int) : Except Err BigInteger :=
  addSubInt32 fuel true a x

/-- Source: `operator-=(const int32_t&)` / `operator-(const int32_t&)`. -/
def subInt32 (fuel : Nat) (a : BigInteger) (x : Int) : Except Err BigInteger :=
  addSubInt32 fuel false a x

/-- The rounds of the loop of `operator*=(int32_t)` past the last digit,
which run while `carry != 0`; the carry shrinks in every round. -/
def mulCarryTail : Nat → Int → List Int
  | 0, _ => []
  | k + 1, carry =>
    if carry = 0 then [] else (carry.tmod BASE) :: mulCarryTail k (carry.tdiv BASE)

/-- The loop of `operator*=(int32_t)`:
`digits[i] = digits[i] * x + carry; carry = digits[i] / BASE; digits[i] %= BASE`. -/
def mulLoop (x : Int) : List Int → Int → List Int
  | [], carry => mulCarryTail carry.natAbs carry
  | d :: ds, carry => ((d * x + carry).tmod BASE) :: mulLoop x ds ((d * x + carry).tdiv BASE)

/-- Source: `operator*=(int32_t)` / `operator*(const int32_t&)`. -/
def mulInt32 (a : BigInteger) (x : Int) : BigInteger :=
  if x = 0 || a.zero then ofInt64 0
  else
    ⟨trimDigits (mulLoop (if x < 0 then wrap32 (-x) else x) a.digits 0),
      if x < 0 then !a.flag else a.flag⟩

/-- The loop of `half()`, from the highest digit down (on the reversed
vector); `extra` is the `BASE` added to this digit by the round before:
`if ((res[i] & 1) && i > 0) res.digits[i - 1] += BASE; res.digits[i] >>= 1`. -/
def halfRev : List Int → Int → List Int
  | [], _ => []
  | d :: rest, extra => ((d + extra) / 2) :: halfRev rest (if (d + extra) % 2 = 1 then BASE else 0)

/-- Source: `BigInteger half() const`. -/
def half (a : BigInteger) : BigInteger :=
  ⟨trimDigits (halfRev a.digits.reverse 0).reverse, a.flag⟩

/-- The loop of `operator/=(int64_t)`, from the highest digit down (on the
reversed vector), in 64-bit arithmetic:
`cur = cur * BASE + digits[i]; digits[i] = flag ? (cur / x) : (-cur / -x); cur %= x`. -/
def divLoop (fl : Bool) (x : Int) : List Int → Int → List Int
  | [], _ => []
  | d :: rest, cur =>
    (if fl then wrap64 ((wrap64 (cur * BASE + d)).tdiv x)
      else wrap64 ((wrap64 (-(wrap64 (cur * BASE + d)))).tdiv (wrap64 (-x)))) ::
      divLoop fl x rest ((wrap64 (cur * BASE + d)).tmod x)

/-- Source: `operator/=(int64_t)` / `operator/(const int64_t&)`. -/
def divInt64 (a : BigInteger) (x : Int) : Except Err BigInteger :=
  if x = 0 then .error .zeroDivision
  else if a.zero then .ok a
  else
    .ok ⟨trimDigits
        (divLoop (if x < 0 then !a.flag else a.flag) (if x < 0 then wrap64 (-x) else x)
          a.digits.reverse 0).reverse,
      if x < 0 then !a.flag else a.flag⟩

/-! ## Division -/

/-- Source: `while (r.negative()) r += b, d--;` in the schoolbook branch of `divmod`. -/
def fixLoop (b : BigInteger) : Nat → BigInteger → Int → Except Err (BigInteger × Int)
  | 0, r, d => if r.negative then .error .outOfFuel else .ok (r, d)
  | f + 1, r, d => if r.negative then fixLoop b f (add r b) (d - 1) else .ok (r, d)

/-- The digit loop of the schoolbook branch of `divmod`, over the digits of
the scaled dividend from the highest down; returns the quotient digits in
that order and the last `r`.  `m` is the size of the scaled divisor `b`. -/
def knuthLoop (fuel : Nat) (b : BigInteger) (m : Nat) :
    List Int → BigInteger → Except Err (List Int × BigInteger)
  | [], r => .ok ([], r)
  | ai :: rest, r => do
    let r1 ← addInt32 fuel (mulInt32 r (wrap32 BASE)) (wrap32 ai)
    let d := (r1.get m * BASE + r1.get (m - 1)).tdiv b.back
    let rd ← fixLoop b fuel (sub r1 (mulInt32 b (wrap32 d))) d
    let qr ← knuthLoop fuel b m rest rd.1
    pure (rd.2 :: qr.1, qr.2)

/-- Source: `while (r >= b) q += 1, r -= b;` in the Newton branch of `divmod`. -/
def corrLoop (fuel : Nat) (b : BigInteger) :
    Nat → BigInteger → BigInteger → Except Err (BigInteger × BigInteger)
  | 0, q, r => if r.ge b then .error .outOfFuel else .ok (q, r)
  | f + 1, q, r =>
    if r.ge b then do
      let q1 ← addInt32 fuel q 1
      corrLoop fuel b f q1 (sub r b)
    else .ok (q, r)

/-- Source: `BigInteger newton_inv(int n) const`; `dm` is `divmod`. -/
def newton_inv (F : FFT) (dm : BigInteger → BigInteger → Except Err (BigInteger × BigInteger)) :
    Nat → BigInteger → Int → Except Err BigInteger
  | 0, _, _ => .error .outOfFuel
  | f + 1, self, n =>
    if self.zero then .error .zeroDivision
    else if min (self.digits.length : Int) (n - self.digits.length) ≤ NEWTON_DIV_MIN_LEVEL then do
      let qr ← dm (ofVec (List.replicate n.toNat 0 ++ [1])) self
      pure qr.1
    else do
      let sz : Int := self.digits.length
      let k : Int := (n - sz + 2) / 2
      let k2 : Int := if k > sz then 0 else sz - k
      let x := self._move_r k2
      let n2 : Int := k + x.digits.length
      let y ← newton_inv F dm f x n2
      let a := add y y
      let b := mul F (mul F self y) y
      subInt32 f (sub (a._move_l (n - n2 - k2)) (b._move_r (2 * (n2 + k2) - n))) 1

/-- The first three statements of `divmod`: the zero test on the divisor
and the early return for `|a| < |b|`; `body` is the rest of the function. -/
def divmodWith (body : BigInteger → BigInteger → Except Err (BigInteger × BigInteger))
    (self x : BigInteger) : Except Err (BigInteger × BigInteger) :=
  if x.abs.beq (ofInt64 0) then .error .zeroDivision
  else if self.abs.lt x.abs then .ok (ofInt64 0, if self.flag then self.abs else neg self.abs)
  else body self x

/-- The rest of `divmod`: the Newton branch, taken when
`min(n, n - m) > NEWTON_DIV_LIMIT`, and the schoolbook branch. -/
def divmodBody (F : FFT) : Nat → BigInteger → BigInteger → Except Err (BigInteger × BigInteger)
  | 0, _, _ => .error .outOfFuel
  | f + 1, self, x =>
    let a := self.abs
    let b := x.abs
    let n : Int := a.digits.length
    let m : Int := b.digits.length
    if min n (n - m) > NEWTON_DIV_LIMIT then do
      let k : Int := n - m + 2
      let k2 : Int := max 0 (m - k)
      let b2 ← if k2 ≠ 0 then addInt32 f (b._move_r k2) 1 else pure (b._move_r k2)
      let n2 : Int := k + b2.digits.length
      let inv ← newton_inv F (divmodWith (divmodBody F f)) f b2 n2
      let u := mul F a inv
      let q := u._move_r (n2 + k2)
      let r := sub self (mul F q b)
      let qr ← corrLoop f b f q r
      pure (⟨qr.1.digits, !(xor self.flag x.flag)⟩, ⟨qr.2.digits, self.flag⟩)
    else do
      let t : Int := wrap32 (BASE.tdiv (x.back + 1))
      let a1 := mulInt32 a t
      let b1 := mulInt32 b t
      let qr ← knuthLoop f b1 b1.digits.length a1.digits.reverse (ofInt64 0)
      let rt ← divInt64 ⟨qr.2.digits, self.flag⟩ t
      pure (⟨trimDigits qr.1.reverse, !(xor self.flag x.flag)⟩, rt)

/-- Source: `std::pair<BigInteger, BigInteger> divmod(const BigInteger&) const`. -/
def divmod (F : FFT) (fuel : Nat) (self x : BigInteger) : Except Err (BigInteger × BigInteger) :=
  divmodWith (divmodBody F fuel) self x

/-- Source: `operator/(const BigInteger&)`. -/
def div (F : FFT) (fuel : Nat) (self x : BigInteger) : Except Err BigInteger :=
  (divmod F fuel self x).map Prod.fst

/-- Source: `operator%(const BigInteger&)`. -/
def mod (F : FFT) (fuel : Nat) (self x : BigInteger) : Except Err BigInteger :=
  (divmod F fuel self x).map Prod.snd

/-! ## Powers -/

/-- The loop of `pow(int64_t)`: `for (; b; b >>= 1) { if (b & 1) res *= a;
a = a.square(); }`. -/
def powLoop (F : FFT) : Nat → Int → BigInteger → BigInteger → Except Err BigInteger
  | 0, b, _, res => if b = 0 then .ok res else .error .outOfFuel
  | f + 1, b, a, res =>
    if b = 0 then .ok res
    else powLoop F f (b / 2) (square F a) (if b % 2 = 1 then mul F res a else res)

/-- Source: `BigInteger pow(int64_t) const`.  A 64-bit exponent that is not negative
is exhausted by 63 shifts; a negative one never becomes zero. -/
def pow (F : FFT) (self : BigInteger) (b : Int) : Except Err BigInteger :=
  powLoop F 64 b self (ofInt64 1)

/-! ## Square root -/

/-- The loop of `sqrt_normal`: `while (x < x0) std::swap(x, x0),
x = (x0 + *this / x0).half();` followed by `return x0`. -/
def heronLoop (F : FFT) (fuel : Nat) (self : BigInteger) :
    Nat → BigInteger → BigInteger → Except Err BigInteger
  | 0, x, x0 => if x.lt x0 then .error .outOfFuel else .ok x0
  | f + 1, x, x0 =>
    if x.lt x0 then do
      let q ← div F fuel self x
      heronLoop F fuel self f (half (add x q)) x
    else .ok x0

/-- Source: `BigInteger sqrt_normal() const`. -/
def sqrt_normal (F : FFT) (fuel : Nat) (self : BigInteger) : Except Err BigInteger := do
  let x0 := (ofInt64 BASE)._move_l (((self.digits.length : Int) + 2) / 2)
  let q ← div F fuel self x0
  heronLoop F fuel self fuel (half (add x0 q)) x0

/-- The loop `for (; rx.negative(); delta += delta)` of `newton_invsqrt`;
the state is `(x2, rx, delta)`. -/
def invsqrtDown (F : FFT) (self : BigInteger) :
    Nat → BigInteger → BigInteger → BigInteger → Except Err (BigInteger × BigInteger × BigInteger)
  | 0, x2, rx, delta => if rx.negative then .error .outOfFuel else .ok (x2, rx, delta)
  | f + 1, x2, rx, delta =>
    if rx.negative then
      invsqrtDown F self f (sub x2 delta)
        (add rx (mul F (add (sub (add x2 x2) delta) (square F delta)) self)) (add delta delta)
    else .ok (x2, rx, delta)

/-- The loop `while (true)` of `newton_invsqrt`, left when `t > rx`. -/
def invsqrtUp (F : FFT) (self : BigInteger) :
    Nat → BigInteger → BigInteger → BigInteger → Except Err (BigInteger × BigInteger × BigInteger)
  | 0, _, _, _ => .error .outOfFuel
  | f + 1, x2, rx, delta =>
    if (mul F (mul F (add (add x2 x2) delta) delta) self).gt rx then .ok (x2, rx, delta)
    else
      invsqrtUp F self f (add x2 delta)
        (sub rx (mul F (mul F (add (add x2 x2) delta) delta) self)) (add delta delta)

/-- The loop `for (; delta.positive(); delta = delta.half())` of
`newton_invsqrt`; returns `x2`. -/
def invsqrtFine (F : FFT) (self : BigInteger) :
    Nat → BigInteger → BigInteger → BigInteger → Except Err BigInteger
  | 0, x2, _, delta => if delta.positive then .error .outOfFuel else .ok x2
  | f + 1, x2, rx, delta =>
    if delta.positive then
      if (mul F (mul F (add (add x2 x2) delta) delta) self).le rx then
        invsqrtFine F self f (add x2 delta)
          (sub rx (mul F (mul F (add (add x2 x2) delta) delta) self)) (half delta)
      else invsqrtFine F self f x2 rx (half delta)
    else .ok x2

/-- Source: `BigInteger newton_invsqrt() const`. -/
def newton_invsqrt (F : FFT) (fuel : Nat) : Nat → BigInteger → Except Err BigInteger
  | 0, _ => .error .outOfFuel
  | f + 1, self =>
    let n : Int := self.digits.length
    let n2 : Int := n + n % 2
    let k2 : Int := (n2 + 2).tdiv 4 * 2
    if n ≤ NEWTON_SQRT_MIN_LEVEL then do
      let s ← sqrt_normal F fuel (self._move_l (n2 * 2))
      div F fuel ((ofInt64 1)._move_l (n2 * 2)) s
    else do
      let x2k := ofVec (self.digits.drop (n2 - k2).toNat)
      let s0 ← newton_invsqrt F fuel f x2k
      let s := s0._move_l ((n2 - k2).tdiv 2)
      let x2 := sub (half (add (add s s) s)) ((half (mul F (mul F (mul F s s) s) self))._move_r (n2 * 2))
      let rx := sub ((ofInt64 1)._move_l (n2 * 2)) (mul F self (square F x2))
      let st ← if rx.negative then invsqrtDown F self fuel x2 rx (ofInt64 1)
        else invsqrtUp F self fuel x2 rx (ofInt64 1)
      invsqrtFine F self fuel st.1 st.2.1 st.2.2

/-- The loop `while (true)` of `sqrt`, left when `dr > r`; the state is
`(res, r, delta)`. -/
def sqrtUp (F : FFT) :
    Nat → BigInteger → BigInteger → BigInteger → Except Err (BigInteger × BigInteger × BigInteger)
  | 0, _, _, _ => .error .outOfFuel
  | f + 1, res, r, delta =>
    if (mul F (add (add res res) delta) delta).gt r then .ok (res, r, delta)
    else
      sqrtUp F f (add res delta) (sub r (mul F (add (add res res) delta) delta)) (add delta delta)

/-- The loop `for (; delta > 0; delta = delta.half())` of `sqrt`; returns
`res`. -/
def sqrtFine (F : FFT) :
    Nat → BigInteger → BigInteger → BigInteger → Except Err BigInteger
  | 0, res, _, delta => if delta.gt (ofInt64 0) then .error .outOfFuel else .ok res
  | f + 1, res, r, delta =>
    if delta.gt (ofInt64 0) then
      if (mul F (add (add res res) delta) delta).le r then
        sqrtFine F f (add res delta) (sub r (mul F (add (add res res) delta) delta)) (half delta)
      else sqrtFine F f res r (half delta)
    else .ok res

/-- Source: `BigInteger sqrt() const`. -/
def sqrt (F : FFT) (fuel : Nat) (self : BigInteger) : Except Err BigInteger :=
  if self.negative then .error .negativeRadicand
  else if (self.digits.length : Int) ≤ NEWTON_SQRT_LIMIT then sqrt_normal F fuel self
  else do
    let n : Int := self.digits.length
    let n2 : Int := if n % 2 = 1 then n + 1 else n
    let inv ← newton_invsqrt F fuel fuel self
    let res := (mul F self inv)._move_r n2
    let r := sub self (square F res)
    let st ← sqrtUp F fuel res r (ofInt64 1)
    sqrtFine F fuel st.1 st.2.1 st.2.2

/-! ## Integer roots -/

/-- The binary search used three times by `root`:
`while (l < r) { mid = (l + r + 1) >> 1; if (p(mid)) l = mid; else r = mid - 1; }`;
returns the last `l`. -/
def bsearch (p : Int → Except Err Bool) : Nat → Int → Int → Except Err Int
  | 0, l, r => if l < r then .error .outOfFuel else .ok l
  | f + 1, l, r =>
    if l < r then do
      let ok ← p ((l + r + 1) / 2)
      if ok then bsearch p f ((l + r + 1) / 2) r else bsearch p f l ((l + r + 1) / 2 - 1)
    else .ok l

/-- The test `c.pow(m) <= *this` of the binary searches of `root`. -/
def powLe (F : FFT) (self : BigInteger) (m : Int) (c : BigInteger) : Except Err Bool :=
  (pow F c m).map fun p => p.le self

/-- The first statement of `root`: the test that throws
`NegativeRadicandError`; `body` is the rest of the function. -/
def rootWith (body : BigInteger → Int → Except Err BigInteger) (self : BigInteger) (m : Int) :
    Except Err BigInteger :=
  if m ≤ 0 || (m.tmod 2 == 0 && self.negative) then .error .negativeRadicand
  else body self m

/-- The rest of `root`. -/
def rootBody (F : FFT) : Nat → BigInteger → Int → Except Err BigInteger
  | 0, _, _ => .error .outOfFuel
  | f + 1, self, m =>
    if m = 1 || self.zero then .ok self
    else if m = 2 then sqrt F f self
    else
      let n : Int := self.digits.length
      if n ≤ m then do
        let l ← bsearch (fun mid => powLe F self m (ofInt64 mid)) f 0 (BASE - 1)
        pure (ofInt64 l)
      else if n ≤ m * 2 then do
        let hi ← bsearch (fun mid => powLe F self m ⟨[0, mid], true⟩) f 0 (BASE - 1)
        let lo ← bsearch (fun mid => powLe F self m ⟨[mid, hi], true⟩) f 0 (BASE - 1)
        pure (trim ⟨[lo, hi], true⟩)
      else do
        let t : Int := (n.tdiv m).tdiv 2
        let r0 ← rootWith (rootBody F f) (self._move_r (t * m)) m
        let r1 ← addInt32 f r0 1
        let s := r1._move_l t
        let sp ← pow F s (m - 1)
        let q ← div F f self sp
        let res ← divInt64 (add (mulInt32 s (wrap32 (m - 1))) q) m
        let l ← bsearch (fun mid => powLe F self m ⟨mid :: res.digits.tail, res.flag⟩) f
          (max (res.get 0 - 100) 0) (min (res.get 0 + 100) (BASE - 1))
        pure (trim ⟨l :: res.digits.tail, res.flag⟩)

/-- Source: `BigInteger root(const int64_t&) const`. -/
def root (F : FFT) (fuel : Nat) (self : BigInteger) (m : Int) : Except Err BigInteger :=
  rootWith (rootBody F fuel) self m

/-! ## Modular power and greatest common divisor -/

/-- The loop of `pow(int64_t, const BigInteger&)`: `for (; b; b >>= 1) {
if (b & 1) res = res * a % p; a = a.square() % p; }`. -/
def powModLoop (F : FFT) (fuel : Nat) (p : BigInteger) :
    Nat → Int → BigInteger → BigInteger → Except Err BigInteger
  | 0, b, _, res => if b = 0 then .ok res else .error .outOfFuel
  | f + 1, b, a, res =>
    if b = 0 then .ok res
    else do
      let res1 ← if b % 2 = 1 then mod F fuel (mul F res a) p else pure res
      let a1 ← mod F fuel (square F a) p
      powModLoop F fuel p f (b / 2) a1 res1

/-- Source: `BigInteger pow(int64_t, const BigInteger&) const`. -/
def powMod (F : FFT) (fuel : Nat) (self : BigInteger) (b : Int) (p : BigInteger) :
    Except Err BigInteger := do
  let a ← mod F fuel self p
  powModLoop F fuel p 64 b a (ofInt64 1)

/-- The first loop of `gcd`: `while (!a.mod2() && !b.mod2()) a = a.half(),
b = b.half(), t++;`; the state is `(a, b, t)`. -/
def gcdStrip : Nat → BigInteger → BigInteger → Int → Except Err (BigInteger × BigInteger × Int)
  | 0, a, b, t => if !a.mod2 && !b.mod2 then .error .outOfFuel else .ok (a, b, t)
  | f + 1, a, b, t =>
    if !a.mod2 && !b.mod2 then gcdStrip f (half a) (half b) (t + 1) else .ok (a, b, t)

/-- One round of the main loop of `gcd` before the swap:
`if (!a.mod2()) a = a.half(); else if (!b.mod2()) b = b.half(); else a -= b;`. -/
def gcdStep (a b : BigInteger) : BigInteger × BigInteger :=
  if !a.mod2 then (half a, b) else if !b.mod2 then (a, half b) else (sub a b, b)

/-- The main loop of `gcd`: `while (b.positive()) { ...; if (a < b)
std::swap(a, b); }`; returns the last `a`. -/
def gcdLoop : Nat → BigInteger → BigInteger → Except Err BigInteger
  | 0, a, b => if b.positive then .error .outOfFuel else .ok a
  | f + 1, a, b =>
    if b.positive then
      if (gcdStep a b).1.lt (gcdStep a b).2 then gcdLoop f (gcdStep a b).2 (gcdStep a b).1
      else gcdLoop f (gcdStep a b).1 (gcdStep a b).2
    else .ok a

/-- Source: `BigInteger gcd(BigInteger) const`. -/
def gcd (F : FFT) (fuel : Nat) (self b : BigInteger) : Except Err BigInteger :=
  let a0 := if self.lt b then b else self
  let b0 := if self.lt b then self else b
  if b0.beq (ofInt64 0) then .ok a0
  else do
    let st ← gcdStrip fuel a0 b0 0
    let a ← gcdLoop fuel st.1 st.2.1
    let p ← pow F (ofInt64 2) st.2.2
    pure (mul F a p)

/-! ## Conversions -/

/-- The decimal numeral of a natural number as `operator<<` writes it, most
significant digit first; 20 rounds exhaust any 64-bit value. -/
def showNatAux : Nat → Nat → List Char → List Char
  | 0, _, acc => acc
  | f + 1, n, acc =>
    if n / 10 = 0 then Nat.digitChar (n % 10) :: acc
    else showNatAux f (n / 10) (Nat.digitChar (n % 10) :: acc)

/-- The text written by `out << d` for a `digit_t` value. -/
def showInt (d : Int) : List Char :=
  if d < 0 then '-' :: showNatAux 20 d.natAbs [] else showNatAux 20 d.natAbs []

/-- The text written by `out << std::setw(WIDTH) << std::setfill('0') << d`:
the numeral, filled on the left with `'0'` up to `WIDTH` characters. -/
def showPadded (d : Int) : List Char :=
  List.replicate (WIDTH - (showInt d).length) '0' ++ showInt d

/-- Source: `friend std::ostream& operator<<` and `to_string()`: the sign, the
highest digit bare, every lower digit padded to `WIDTH` characters. -/
def to_string (a : BigInteger) : List Char :=
  (if !a.flag then ['-'] else []) ++
    match a.digits.reverse with
    | [] => []
    | top :: rest => showInt top ++ (rest.map showPadded).flatten

/-- The digit loop of `std::stoll` on a string of decimal digits; `none` on
any other character. -/
def stollAux : List Char → Nat → Option Nat
  | [], v => some v
  | c :: cs, v => if c.isDigit then stollAux cs (v * 10 + (c.toNat - 48)) else none

/-- The call `std::stoll(s.substr(start, len))` on a non-empty string of
decimal digits.  The result `none` stands for every other argument (signs,
blanks, letters, the empty string), which this embedding does not model. -/
def stoll (l : List Char) : Option Int :=
  if l = [] then none else (stollAux l 0).map fun v => (v : Int)

/-- The loop `while (i < n && s[i] == '-') flag ^= 1, i++;` of the string
assignment; returns the flag and the rest of the string. -/
def dropDashes : List Char → Bool → Bool × List Char
  | c :: cs, fl => if c = '-' then dropDashes cs (!fl) else (fl, c :: cs)
  | [], fl => (fl, [])

/-- The loop `for (j = s.size() - 1; j >= i; j -= WIDTH)` of the string
assignment on the part of the string from index `i` on: the groups of
`WIDTH` characters counted from the right, the last group first. -/
def chunks : Nat → List Char → List (List Char)
  | 0, _ => []
  | f + 1, l =>
    if l = [] then []
    else l.drop (l.length - WIDTH) :: chunks f (l.take (l.length - WIDTH))

/-- All the elements of a list of optional values, if none is missing. -/
def allSome : List (Option Int) → Option (List Int)
  | [] => some []
  | none :: _ => none
  | some v :: rest => (allSome rest).map fun vs => v :: vs

/-- Source: `BigInteger& operator= (const std::string&)`. -/
def parse (s : List Char) : Option BigInteger :=
  if s = [] ∨ s = ['-'] then some (ofInt64 0)
  else
    (allSome ((chunks (dropDashes s true).2.length (dropDashes s true).2).map stoll)).map
      fun ds => ⟨trimDigits ds, (dropDashes s true).1⟩

/-- Source: `int64_t to_int64() const`: `res = res * BASE + digits[i]` from the
highest digit down, in 64-bit arithmetic. -/
def to_int64 (a : BigInteger) : Int :=
  a.digits.reverse.foldl (fun res d => wrap64 (res * BASE + d)) 0

/-- Source: `BigInteger operator~ () const`: `-(*this) - 1`. -/
def bitnot (fuel : Nat) (a : BigInteger) : Except Err BigInteger :=
  subInt32 fuel (neg a) 1

/-- The loops `for (x = ...; !x.zero(); x = x.half())
res.emplace_back(x.mod2() ^ flip)` of `to_binary`; returns the bits in the
order they are appended. -/
def bitsLoop (flip : Bool) : Nat → BigInteger → Except Err (List Bool)
  | 0, x => if x.zero then .ok [] else .error .outOfFuel
  | f + 1, x =>
    if x.zero then .ok [] else (bitsLoop flip f (half x)).map fun l => (xor x.mod2 flip) :: l

/-- Source: `std::vector<bool> to_binary() const`. -/
def to_binary (fuel : Nat) (a : BigInteger) : Except Err (List Bool) :=
  if a.zero then .ok [false]
  else if a.flag then (bitsLoop false fuel a).map fun l => (l ++ [false]).reverse
  else do
    let x ← bitnot fuel a
    let l ← bitsLoop true fuel x
    pure (l ++ [true]).reverse

/-- The loop of `build_binary` on the reversed bit vector:
`for (i = v.size() - 1; i >= 0; i--, k += k) if (v[i]) *this += k;`. -/
def buildLoop : List Bool → BigInteger → BigInteger → BigInteger
  | [], acc, _ => acc
  | b :: rest, acc, k => buildLoop rest (if b then add acc k else acc) (add k k)

/-- Source: `BigInteger& build_binary(const std::vector<bool>&)`. -/
def build_binary (self : BigInteger) (v : List Bool) : BigInteger :=
  buildLoop v.reverse self (ofInt64 1)

/-- Source: `BigInteger& operator= (const std::vector<bool>&)`. -/
def ofBinary (fuel : Nat) (v : List Bool) : Except Err BigInteger :=
  if v = [] then .ok (ofInt64 0)
  else if !(v.headD false) then .ok (build_binary (ofInt64 0) v)
  else bitnot fuel (build_binary (ofInt64 0) (v.map fun b => xor b true))

/-- The loop of `__helper`: `res[i] = op(i < n ? a[i] : 0, i < m ? b[i] : 0)`
for `i` below `lim = max(n, m)`. -/
def zipBits (op : Bool → Bool → Bool) (a b : List Bool) : List Bool :=
  (List.range (max a.length b.length)).map fun i => op (a.getD i false) (b.getD i false)

/-- Source: `BigInteger __helper(x, y, op)`. -/
def __helper (fuel : Nat) (x y : BigInteger) (op : Bool → Bool → Bool) :
    Except Err BigInteger := do
  let a ← to_binary fuel x
  let b ← to_binary fuel y
  ofBinary fuel (zipBits op a b)

/-- Source: `operator&`. -/
def band (fuel : Nat) (x y : BigInteger) : Except Err BigInteger :=
  __helper fuel x y fun a b => a && b
/-- Source: `operator|`. -/
def bor (fuel : Nat) (x y : BigInteger) : Except Err BigInteger :=
  __helper fuel x y fun a b => a || b
/-- Source: `operator^`. -/
def bxor (fuel : Nat) (x y : BigInteger) : Except Err BigInteger :=
  __helper fuel x y fun a b => xor a b

/-! ## Factorial -/

/-- The loop `for (int32_t i = 2; i <= n; i++) res *= i;` of `factorial`; the
counter is a 32-bit value. -/
def factorialLoop : Nat → Int → Int → BigInteger → Except Err BigInteger
  | 0, i, n, res => if i ≤ n then .error .outOfFuel else .ok res
  | f + 1, i, n, res =>
    if i ≤ n then factorialLoop f (wrap32 (i + 1)) n (mulInt32 res i) else .ok res

/-- Source: `BigInteger factorial(int32_t n)`. -/
def factorial (fuel : Nat) (n : Int) : Except Err BigInteger :=
  factorialLoop fuel 2 n (ofInt64 1)

/-! ## FFT dispatch and transform length -/

/-- The sizes that have a `case` label in the `switch` of `dft` and of
`idft`: `1<<2` up to `1<<21`. -/
def fftSizes : List Int :=
  [4, 8, 16, 32, 64, 128, 256, 512, 1024, 2048, 4096, 8192, 16384, 32768, 65536, 131072,
    262144, 524288, 1048576, 2097152]

/-- Source: `inline void dft(complex* a, int n)` in `__FFT`.  The array is kept
abstract; `fft n a` is the array after the call `fft<n>(a)`.  The statement
`throw FFTLimitExceededError()` stands after the `break` of the last `case`
and carries no label, so no path leads to it: for a size without a `case`
label the `switch` is left at once and the function returns. -/
def dft {α : Type} (fft : Int → α → α) (a : α) (n : Int) : Except Err α :=
  if n ≤ 1 then .ok a
  else if n ∈ fftSizes then .ok (fft n a)
  else .ok a

/-- Source: `inline void idft(complex* a, int n)` in `__FFT`, which has the same
shape as `dft` with `ifft<n>` in place of `fft<n>`. -/
def idft {α : Type} (ifft : Int → α → α) (a : α) (n : Int) : Except Err α :=
  if n ≤ 1 then .ok a
  else if n ∈ fftSizes then .ok (ifft n a)
  else .ok a

/-- The loop `while (lim < least) lim <<= 1;` of `fft_mul` and `square`; `lim`
is an `int`, which 31 doublings of `1` exhaust. -/
def limLoop : Nat → Int → Int → Int
  | 0, lim, _ => lim
  | f + 1, lim, least => if lim < least then limLoop f (lim * 2) least else lim

/-- The transform length of `fft_mul(a, b)` for operands of `n` and `m`
digits: `least = (n + m) << 1, lim = 1; while (lim < least) lim <<= 1;`, the
length of the array `new __FFT::complex[lim]`. -/
def fftMulLim (n m : Int) : Int := limLoop 31 1 ((n + m) * 2)

/-- The highest index read by the loop `for (i = 0; i <= n + m; i++)` of
`fft_mul`, which reads `arr[i << 1]` and `arr[i << 1 | 1]`. -/
def fftMulTopIndex (n m : Int) : Int := (n + m) * 2 + 1

/-- The transform length of the FFT branch of `square()` for an operand of
`n` digits: `least = n << 2`. -/
def fftSquareLim (n : Int) : Int := limLoop 31 1 (n * 4)

/-- The highest index read by the loop `for (i = 0; i <= (n << 1); i++)` of
`square()`. -/
def fftSquareTopIndex (n : Int) : Int := (n * 2) * 2 + 1

/-! ## Auxiliary definitions for stating results -/

/-- An `FFT` whose two routines return the exact product, as `fft_mul` and
the FFT branch of `square` do whenever their rounding is exact: the
`n + m + 1` base-`10^8` digits of the product of the two magnitudes. -/
def exactFFT : FFT := ⟨schoolbook, fun a => schoolbook a a⟩

instance instDecidableEqExcept {ε α : Type} [DecidableEq ε] [DecidableEq α] :
    DecidableEq (Except ε α)
  | .ok a, .ok b => if h : a = b then isTrue (by rw [h]) else isFalse (fun hc => h (by cases hc; rfl))
  | .error a, .error b =>
    if h : a = b then isTrue (by rw [h]) else isFalse (fun hc => h (by cases hc; rfl))
  | .ok _, .error _ => isFalse (fun hc => by cases hc)
  | .error _, .ok _ => isFalse (fun hc => by cases hc)

/-- The result `r` is not the exception `e`. -/
def Avoids {α : Type} (e : Err) (r : Except Err α) : Prop := r ≠ .error e

/-! ## Value and representation invariants -/

/-- Value of a little-endian digit vector: `Σ mag[i] · B^i`. -/
def mag : List Int → Int
  | [] => 0
  | d :: ds => d + BASE * mag ds

/-- The integer denoted by a `BigInteger`. -/
def val (a : BigInteger) : Int := if a.flag then mag a.digits else -mag a.digits

/-- Invariants 1 and 2 of the data model: the vector is not empty, every
digit is in `[0, BASE)`, and the last digit is zero only in `[0]`. -/
def DigitsOk (l : List Int) : Prop :=
  l ≠ [] ∧ (∀ d ∈ l, 0 ≤ d ∧ d < BASE) ∧ (1 < l.length → l.getLast? ≠ some 0)

/-- Canonical form: invariants 1 to 3 (zero is `[0]` with the flag set). -/
def Canonical (a : BigInteger) : Prop :=
  DigitsOk a.digits ∧ (a.digits = [0] → a.flag = true)

instance (l : List Int) : Decidable (DigitsOk l) := by
  unfold DigitsOk; infer_instance

instance (a : BigInteger) : Decidable (Canonical a) := by
  unfold Canonical; infer_instance

/-- Every product computed by `operator*` is exact: on canonical operands
the result is canonical and its value is the product of the values. -/
def MulExact (F : FFT) : Prop :=
  ∀ x y : BigInteger, Canonical x → Canonical y →
    Canonical (mul F x y) ∧ val (mul F x y) = val x * val y

/-- Every square computed by `square()` is exact. -/
def SquareExact (F : FFT) : Prop :=
  ∀ x : BigInteger, Canonical x → Canonical (square F x) ∧ val (square F x) = val x * val x

/-- A divisor in canonical shape that is not zero (the flag is free). -/
def Good (x : BigInteger) : Prop := DigitsOk x.digits ∧ x.zero = false

end BigInteger

namespace BigInteger

/-! ## Basic facts about `mag`, `trim` and digit ranges -/

/-- Every digit lies in `[0, BASE)`. -/
def InRange (l : List Int) : Prop := ∀ d ∈ l, 0 ≤ d ∧ d < BASE

theorem BASE_pos : (0 : Int) < BASE := by decide

theorem mag_nil : mag [] = 0 := rfl

theorem mag_cons (d : Int) (ds : List Int) : mag (d :: ds) = d + BASE * mag ds := rfl

theorem mag_append (p q : List Int) : mag (p ++ q) = mag p + BASE ^ p.length * mag q := by
  induction p with
  | nil => simp [mag]
  | cons d ds ih =>
    simp only [List.cons_append, mag_cons, ih, List.length_cons, pow_succ]
    ring

theorem mag_replicate_zero (k : Nat) : mag (List.replicate k 0) = 0 := by
  induction k with
  | zero => rfl
  | succ k ih => simp [List.replicate_succ, mag_cons, ih]

theorem mag_nonneg (l : List Int) (h : ∀ d ∈ l, 0 ≤ d) : 0 ≤ mag l := by
  induction l with
  | nil => simp [mag]
  | cons d ds ih =>
    have h1 : 0 ≤ d := h d (List.mem_cons_self _ _)
    have h2 : 0 ≤ mag ds := ih (fun e he => h e (List.mem_cons_of_mem _ he))
    have h3 : 0 ≤ BASE * mag ds := mul_nonneg (le_of_lt BASE_pos) h2
    rw [mag_cons]; omega

theorem mag_lt_pow (l : List Int) (h : InRange l) : mag l < BASE ^ l.length := by
  induction l with
  | nil => simp [mag]
  | cons d ds ih =>
    have h1 := h d (List.mem_cons_self _ _)
    have h2 : mag ds < BASE ^ ds.length := ih (fun e he => h e (List.mem_cons_of_mem _ he))
    have h3 : BASE * (mag ds + 1) ≤ BASE * BASE ^ ds.length :=
      mul_le_mul_of_nonneg_left (by omega) (le_of_lt BASE_pos)
    rw [mag_cons, List.length_cons, pow_succ]
    nlinarith

theorem InRange.nonneg {l : List Int} (h : InRange l) : ∀ d ∈ l, 0 ≤ d :=
  fun d hd => (h d hd).1

end BigInteger

namespace BigInteger

/-! ### `trim` -/

theorem trimRev_spec (r : List Int) : ∃ k, r = List.replicate k 0 ++ trimRev r := by
  induction r with
  | nil => exact ⟨0, rfl⟩
  | cons d ds ih =>
    cases ds with
    | nil => exact ⟨0, rfl⟩
    | cons e es =>
      by_cases hd : d = 0
      · obtain ⟨k, hk⟩ := ih
        refine ⟨k + 1, ?_⟩
        simp only [trimRev, hd, if_true, List.replicate_succ, List.cons_append]
        rw [← hk]
      · exact ⟨0, by simp [trimRev, hd]⟩

theorem trimRev_ne_nil (r : List Int) (h : r ≠ []) : trimRev r ≠ [] := by
  induction r with
  | nil => exact absurd rfl h
  | cons d ds ih =>
    cases ds with
    | nil => simp [trimRev]
    | cons e es =>
      by_cases hd : d = 0
      · simp only [trimRev, hd, if_true]; exact ih (by simp)
      · simp [trimRev, hd]

theorem trimRev_head (r : List Int) (h : 1 < (trimRev r).length) :
    (trimRev r).head? ≠ some 0 := by
  induction r with
  | nil => simp [trimRev] at h
  | cons d ds ih =>
    cases ds with
    | nil => simp [trimRev] at h
    | cons e es =>
      by_cases hd : d = 0
      · simp only [trimRev, hd, if_true] at h ⊢; exact ih h
      · simp [trimRev, hd]

theorem trimDigits_spec (l : List Int) : ∃ k, l = trimDigits l ++ List.replicate k 0 := by
  obtain ⟨k, hk⟩ := trimRev_spec l.reverse
  refine ⟨k, ?_⟩
  have h := congrArg List.reverse hk
  simp only [List.reverse_reverse, List.reverse_append, List.reverse_replicate] at h
  exact h

theorem mag_trimDigits (l : List Int) : mag (trimDigits l) = mag l := by
  obtain ⟨k, hk⟩ := trimDigits_spec l
  conv_rhs => rw [hk]
  rw [mag_append, mag_replicate_zero]; ring

theorem mem_trimDigits {l : List Int} {d : Int} (h : d ∈ trimDigits l) : d ∈ l := by
  obtain ⟨k, hk⟩ := trimDigits_spec l
  rw [hk]; exact List.mem_append_left _ h

theorem trimDigits_ne_nil (l : List Int) (h : l ≠ []) : trimDigits l ≠ [] := by
  unfold trimDigits
  intro hc
  have : trimRev l.reverse = [] := by simpa using hc
  exact trimRev_ne_nil l.reverse (by simpa using h) this

theorem trimDigits_last (l : List Int) (h : 1 < (trimDigits l).length) :
    (trimDigits l).getLast? ≠ some 0 := by
  unfold trimDigits at h ⊢
  rw [List.getLast?_reverse]
  exact trimRev_head _ (by simpa using h)

theorem digitsOk_trimDigits (l : List Int) (hne : l ≠ []) (hr : InRange l) :
    DigitsOk (trimDigits l) :=
  ⟨trimDigits_ne_nil l hne, fun d hd => hr d (mem_trimDigits hd), trimDigits_last l⟩

/-- A vector that already satisfies the invariants is left alone by `trim`. -/
theorem trimRev_id (r : List Int) (h : 1 < r.length → r.head? ≠ some 0) : trimRev r = r := by
  cases r with
  | nil => rfl
  | cons d ds =>
    cases ds with
    | nil => rfl
    | cons e es =>
      have : d ≠ 0 := by
        intro hd; apply h (by simp); simp [hd]
      simp [trimRev, this]

theorem trimDigits_id (l : List Int) (h : 1 < l.length → l.getLast? ≠ some 0) :
    trimDigits l = l := by
  unfold trimDigits
  rw [trimRev_id, List.reverse_reverse]
  intro hl
  rw [List.head?_reverse]
  exact h (by simpa using hl)

theorem DigitsOk.inRange {l : List Int} (h : DigitsOk l) : InRange l := h.2.1

/-- A vector in canonical shape whose value is zero is `[0]`. -/
theorem mag_pos_of_last {l : List Int} (hr : InRange l) {t : Int} (hl : l.getLast? = some t)
    (ht : t ≠ 0) : BASE ^ (l.length - 1) ≤ mag l := by
  induction l with
  | nil => simp at hl
  | cons d ds ih =>
    cases ds with
    | nil =>
      simp only [List.getLast?_singleton, Option.some.injEq] at hl
      have := hr d (List.mem_cons_self _ _)
      simp only [mag_cons, mag_nil, List.length_singleton]
      subst hl
      simp
      omega
    | cons e es =>
      have hl2 : (e :: es).getLast? = some t := by
        rw [List.getLast?_cons_cons] at hl; exact hl
      have h1 := ih (fun x hx => hr x (List.mem_cons_of_mem _ hx)) hl2
      have h0 := hr d (List.mem_cons_self _ _)
      rw [mag_cons]
      simp only [List.length_cons, Nat.add_sub_cancel] at h1 ⊢
      rw [pow_succ]
      have := mul_le_mul_of_nonneg_left h1 (le_of_lt BASE_pos)
      nlinarith

theorem digitsOk_mag_zero {l : List Int} (h : DigitsOk l) (hz : mag l = 0) : l = [0] := by
  obtain ⟨hne, hr, hlast⟩ := h
  cases l with
  | nil => exact absurd rfl hne
  | cons d ds =>
    cases ds with
    | nil =>
      simp only [mag_cons, mag_nil] at hz
      simp at hz; rw [hz]
    | cons e es =>
      exfalso
      have hl := hlast (by simp)
      cases hg : (d :: e :: es).getLast? with
      | none => simp at hg
      | some t =>
        have ht : t ≠ 0 := by
          intro h0; rw [hg, h0] at hl; exact hl rfl
        have := mag_pos_of_last hr hg ht
        have hp : (0 : Int) < BASE ^ ((d :: e :: es).length - 1) := pow_pos BASE_pos _
        omega

theorem digitsOk_lower {l : List Int} (h : DigitsOk l) (hl : 1 < l.length) :
    BASE ^ (l.length - 1) ≤ mag l := by
  obtain ⟨hne, hr, hlast⟩ := h
  cases hg : l.getLast? with
  | none =>
    rw [List.getLast?_eq_none_iff] at hg
    exact absurd hg hne
  | some t =>
    have ht : t ≠ 0 := by
      intro h0; rw [hg, h0] at hlast; exact hlast hl rfl
    exact mag_pos_of_last hr hg ht

end BigInteger

namespace BigInteger

/-! ### `compare` -/

theorem cmpRev_append (sgn : Int) (hs : sgn ≠ 0) (d e : Int) :
    ∀ p q : List Int, p.length = q.length →
      cmpRev sgn (p ++ [d]) (q ++ [e]) =
        if cmpRev sgn p q = 0 then (if d > e then sgn else if d < e then -sgn else 0)
        else cmpRev sgn p q := by
  intro p
  induction p with
  | nil =>
    intro q hq
    cases q with
    | nil => simp [cmpRev]
    | cons y ys => simp at hq
  | cons x xs ih =>
    intro q hq
    cases q with
    | nil => simp at hq
    | cons y ys =>
      have hlen : xs.length = ys.length := by simpa using hq
      simp only [List.cons_append, cmpRev]
      by_cases h1 : x > y
      · simp [h1, hs]
      · by_cases h2 : x < y
        · simp [h1, h2, hs]
        · simp only [h1, h2, if_false]
          exact ih ys hlen

/-- The digit loop of `compare` decides the order of the two magnitudes. -/
theorem cmpRev_spec (sgn : Int) (hs : sgn = 1 ∨ sgn = -1) :
    ∀ ds es : List Int, ds.length = es.length → InRange ds → InRange es →
      cmpRev sgn ds.reverse es.reverse = sgn * Int.sign (mag ds - mag es) := by
  have hs0 : sgn ≠ 0 := by rcases hs with h | h <;> omega
  intro ds
  induction ds with
  | nil =>
    intro es hlen _ _
    cases es with
    | nil => simp [cmpRev, mag]
    | cons y ys => simp at hlen
  | cons d ds ih =>
    intro es hlen hd he
    cases es with
    | nil => simp at hlen
    | cons e es =>
      have hlen2 : ds.length = es.length := by simpa using hlen
      have hd0 := hd d (List.mem_cons_self _ _)
      have he0 := he e (List.mem_cons_self _ _)
      have h := ih es hlen2 (fun x hx => hd x (List.mem_cons_of_mem _ hx))
        (fun x hx => he x (List.mem_cons_of_mem _ hx))
      simp only [List.reverse_cons]
      rw [cmpRev_append sgn hs0 d e _ _ (by simpa using hlen2), h, mag_cons, mag_cons]
      have hB : BASE = 100000000 := rfl
      rcases lt_trichotomy (mag ds - mag es) 0 with hlt | heq | hgt
      · have h1 : d + BASE * mag ds - (e + BASE * mag es) < 0 := by
          have hd1 : d < 100000000 := hd0.2
          have he1 : e < 100000000 := he0.2
          rw [hB]; omega
        rw [Int.sign_eq_neg_one_of_neg hlt, Int.sign_eq_neg_one_of_neg h1]
        rcases hs with h | h <;> simp [h]
      · have h1 : d + BASE * mag ds - (e + BASE * mag es) = d - e := by
          have : mag ds = mag es := by omega
          rw [this]; ring
        rw [heq, h1]
        simp only [Int.sign_zero, mul_zero, if_true]
        rcases lt_trichotomy d e with h2 | h2 | h2
        · have h3 : ¬ d > e := by omega
          rw [if_neg h3, if_pos h2, Int.sign_eq_neg_one_of_neg (by omega)]; ring
        · have h3 : ¬ d > e := by omega
          have h4 : ¬ d < e := by omega
          rw [if_neg h3, if_neg h4, h2]; simp
        · rw [if_pos h2, Int.sign_eq_one_of_pos (by omega)]; ring
      · have h1 : 0 < d + BASE * mag ds - (e + BASE * mag es) := by
          have hd1 : d < 100000000 := hd0.2
          have he1 : e < 100000000 := he0.2
          rw [hB]; omega
        rw [Int.sign_eq_one_of_pos hgt, Int.sign_eq_one_of_pos h1]
        rcases hs with h | h <;> simp [h]

/-- On two vectors in canonical shape, the length test and the digit loop of
`compare` together decide the order of the magnitudes. -/
theorem cmpMag_spec (sgn : Int) (hs : sgn = 1 ∨ sgn = -1) (ds es : List Int)
    (hd : DigitsOk ds) (he : DigitsOk es) :
    (if ds.length > es.length then sgn
      else if ds.length < es.length then -sgn
      else cmpRev sgn ds.reverse es.reverse) = sgn * Int.sign (mag ds - mag es) := by
  by_cases h1 : ds.length > es.length
  · rw [if_pos h1]
    have hlow := digitsOk_lower hd (by have := List.length_pos.mpr he.1; omega)
    have hup := mag_lt_pow es he.inRange
    have hpow : BASE ^ es.length ≤ BASE ^ (ds.length - 1) :=
      pow_le_pow_right₀ (by decide) (by omega)
    rw [Int.sign_eq_one_of_pos (by omega)]; ring
  · rw [if_neg h1]
    by_cases h2 : ds.length < es.length
    · rw [if_pos h2]
      have hlow := digitsOk_lower he (by have := List.length_pos.mpr hd.1; omega)
      have hup := mag_lt_pow ds hd.inRange
      have hpow : BASE ^ ds.length ≤ BASE ^ (es.length - 1) :=
        pow_le_pow_right₀ (by decide) (by omega)
      rw [Int.sign_eq_neg_one_of_neg (by omega)]; ring
    · rw [if_neg h2]
      exact cmpRev_spec sgn hs ds es (by omega) hd.inRange he.inRange

theorem canonical_neg_mag_pos {a : BigInteger} (h : Canonical a) (hf : a.flag = false) :
    0 < mag a.digits := by
  have h0 := mag_nonneg a.digits h.1.inRange.nonneg
  rcases lt_or_eq_of_le h0 with h1 | h1
  · exact h1
  · have := h.2 (digitsOk_mag_zero h.1 h1.symm)
    rw [hf] at this; exact absurd this (by decide)

/-- The function `compare` returns the sign of the difference of the two values. -/
theorem compare_eq_sign (a b : BigInteger) (ha : Canonical a) (hb : Canonical b) :
    a.compare b = Int.sign (val a - val b) := by
  have hma := mag_nonneg a.digits ha.1.inRange.nonneg
  have hmb := mag_nonneg b.digits hb.1.inRange.nonneg
  unfold compare val
  cases hfa : a.flag <;> cases hfb : b.flag
  · -- both negative
    have := cmpMag_spec (-1) (Or.inr rfl) a.digits b.digits ha.1 hb.1
    simp only [Bool.false_and, Bool.not_false, Bool.and_false, Bool.and_true, if_false,
      Bool.false_eq_true]
    simp only [gt_iff_lt] at this ⊢
    rw [this]
    have h2 : -mag a.digits - -mag b.digits = -(mag a.digits - mag b.digits) := by ring
    rw [h2, Int.sign_neg]; ring
  · have := canonical_neg_mag_pos ha hfa
    simp only [Bool.false_and, Bool.not_true, Bool.and_false, Bool.not_false, Bool.true_and,
      if_false, if_true, Bool.false_eq_true]
    rw [Int.sign_eq_neg_one_of_neg (by omega)]
  · have := canonical_neg_mag_pos hb hfb
    simp
    rw [Int.sign_eq_one_of_pos (by omega)]
  · have := cmpMag_spec 1 (Or.inl rfl) a.digits b.digits ha.1 hb.1
    simp only [Bool.true_and, Bool.not_true, Bool.and_false, Bool.false_and, if_false, if_true,
      Bool.false_eq_true, Bool.and_self]
    simp only [gt_iff_lt] at this ⊢
    rw [this]; ring

end BigInteger

namespace BigInteger

theorem inRange_mag_inj : ∀ ds es : List Int, ds.length = es.length → InRange ds → InRange es →
    mag ds = mag es → ds = es := by
  intro ds
  induction ds with
  | nil =>
    intro es hlen _ _ _
    cases es with
    | nil => rfl
    | cons y ys => simp at hlen
  | cons d ds ih =>
    intro es hlen hd he hm
    cases es with
    | nil => simp at hlen
    | cons e es =>
      have hd0 := hd d (List.mem_cons_self _ _)
      have he0 := he e (List.mem_cons_self _ _)
      have hd1 : d < 100000000 := hd0.2
      have he1 : e < 100000000 := he0.2
      rw [mag_cons, mag_cons] at hm
      have hB : BASE = 100000000 := rfl
      rw [hB] at hm
      have h1 : mag ds = mag es := by omega
      have h2 : d = e := by omega
      rw [h2, ih es (by simpa using hlen) (fun x hx => hd x (List.mem_cons_of_mem _ hx))
        (fun x hx => he x (List.mem_cons_of_mem _ hx)) h1]

theorem digitsOk_mag_inj {ds es : List Int} (hd : DigitsOk ds) (he : DigitsOk es)
    (hm : mag ds = mag es) : ds = es := by
  have h := cmpMag_spec 1 (Or.inl rfl) ds es hd he
  rw [hm, sub_self, Int.sign_zero, mul_zero] at h
  have hlen : ds.length = es.length := by
    by_contra hne
    by_cases h1 : ds.length > es.length
    · rw [if_pos h1] at h; exact absurd h (by decide)
    · rw [if_neg h1, if_pos (by omega)] at h; exact absurd h (by decide)
  exact inRange_mag_inj ds es hlen hd.inRange he.inRange hm

/-- Invariant 4: on canonical values, equal integers have equal representations. -/
theorem canonical_val_inj {a b : BigInteger} (ha : Canonical a) (hb : Canonical b)
    (h : val a = val b) : a = b := by
  have hma := mag_nonneg a.digits ha.1.inRange.nonneg
  have hmb := mag_nonneg b.digits hb.1.inRange.nonneg
  obtain ⟨da, fa⟩ := a
  obtain ⟨db, fb⟩ := b
  unfold val at h
  simp only at h hma hmb
  cases fa <;> cases fb
  · simp only [Bool.false_eq_true, if_false] at h
    have := digitsOk_mag_inj ha.1 hb.1 (by simpa using h)
    simp only at this; rw [this]
  · have := canonical_neg_mag_pos ha rfl
    simp only [Bool.false_eq_true, if_false, if_true] at h this
    omega
  · have := canonical_neg_mag_pos hb rfl
    simp only [Bool.false_eq_true, if_false, if_true] at h this
    omega
  · simp only [if_true] at h
    have := digitsOk_mag_inj ha.1 hb.1 h
    simp only at this; rw [this]

theorem sign_trichotomy (z : Int) : Int.sign z = -1 ∨ Int.sign z = 0 ∨ Int.sign z = 1 := by
  rcases lt_trichotomy z 0 with h | h | h
  · exact Or.inl (Int.sign_eq_neg_one_of_neg h)
  · exact Or.inr (Or.inl (by rw [h]; rfl))
  · exact Or.inr (Or.inr (Int.sign_eq_one_of_pos h))

/-- C5: on canonical values `compare` returns -1, 0 or +1, namely the sign of
`val a - val b`; it returns 0 exactly when the two values are equal (which is
exactly when the two representations are equal), and swapping the operands
negates the result. -/
theorem compare_total_order (a b : BigInteger) (ha : Canonical a) (hb : Canonical b) :
    (a.compare b = -1 ∨ a.compare b = 0 ∨ a.compare b = 1) ∧
    a.compare b = Int.sign (val a - val b) ∧
    (a.compare b = 0 ↔ val a = val b) ∧
    (a.compare b = 0 ↔ a = b) ∧
    a.compare b = -b.compare a := by
  have h1 := compare_eq_sign a b ha hb
  have h2 := compare_eq_sign b a hb ha
  have h3 : a.compare b = 0 ↔ val a = val b := by
    rw [h1, Int.sign_eq_zero_iff_zero]; omega
  refine ⟨h1 ▸ sign_trichotomy _, h1, h3, ?_, ?_⟩
  · rw [h3]
    exact ⟨canonical_val_inj ha hb, fun h => by rw [h]⟩
  · rw [h1, h2, ← Int.sign_neg]; congr 1; ring

theorem compare_total_order_witness :
    Canonical ⟨[5, 7], false⟩ ∧ Canonical ⟨[9, 7], false⟩ ∧
    ((BigInteger.mk [5, 7] false).compare ⟨[9, 7], false⟩ = -1 ∨
      (BigInteger.mk [5, 7] false).compare ⟨[9, 7], false⟩ = 0 ∨
      (BigInteger.mk [5, 7] false).compare ⟨[9, 7], false⟩ = 1) ∧
    (BigInteger.mk [5, 7] false).compare ⟨[9, 7], false⟩ =
      Int.sign (val ⟨[5, 7], false⟩ - val ⟨[9, 7], false⟩) ∧
    ((BigInteger.mk [5, 7] false).compare ⟨[9, 7], false⟩ = 0 ↔
      val ⟨[5, 7], false⟩ = val ⟨[9, 7], false⟩) ∧
    ((BigInteger.mk [5, 7] false).compare ⟨[9, 7], false⟩ = 0 ↔
      BigInteger.mk [5, 7] false = ⟨[9, 7], false⟩) ∧
    (BigInteger.mk [5, 7] false).compare ⟨[9, 7], false⟩ =
      -(BigInteger.mk [9, 7] false).compare ⟨[5, 7], false⟩ :=
  ⟨by decide, by decide, compare_total_order ⟨[5, 7], false⟩ ⟨[9, 7], false⟩ (by decide) (by decide)⟩

end BigInteger

namespace BigInteger

/-! ### The carry and borrow loops -/

theorem inRange_tail {l : List Int} (h : InRange l) : InRange l.tail :=
  fun d hd => h d (List.mem_of_mem_tail hd)

theorem headD_range {l : List Int} (h : InRange l) : 0 ≤ l.headD 0 ∧ l.headD 0 < BASE := by
  cases l with
  | nil => exact ⟨le_refl _, BASE_pos⟩
  | cons d ds => exact h d (List.mem_cons_self _ _)

theorem mag_head_tail (l : List Int) : mag l = l.headD 0 + BASE * mag l.tail := by
  cases l with
  | nil => simp [mag]
  | cons d ds => rfl

/-- The carry loop adds the two magnitudes, provided one spare round is left
for the last carry. -/
theorem addLoop_spec : ∀ (k : Nat) (ds xs : List Int) (c : Int), InRange ds → InRange xs →
    (c = 0 ∨ c = 1) →
    ((ds.length < k ∧ xs.length < k) ∨ (ds = [] ∧ xs = [] ∧ c = 0)) →
    mag (addLoop k ds xs c) = mag ds + mag xs + c ∧ InRange (addLoop k ds xs c) := by
  intro k
  induction k with
  | zero =>
    intro ds xs c hd _ _ hlen
    rcases hlen with ⟨h1, _⟩ | ⟨h1, h2, h3⟩
    · omega
    · subst h1 h2 h3
      exact ⟨by simp [addLoop, mag], hd⟩
  | succ k ih =>
    intro ds xs c hd hx hc hlen
    have h1 := headD_range hd
    have h2 := headD_range hx
    have hB : BASE = 100000000 := rfl
    have hm1 := mag_head_tail ds
    have hm2 := mag_head_tail xs
    have htl : ∀ l : List Int, l.length < k + 1 → k ≠ 0 → l.tail.length < k := by
      intro l hl hk
      rw [List.length_tail]; omega
    simp only [addLoop]
    by_cases hge : ds.headD 0 + (xs.headD 0 + c) ≥ BASE
    · rw [if_pos hge]
      have hk : k ≠ 0 ∧ ds.length < k + 1 ∧ xs.length < k + 1 := by
        rcases hlen with ⟨ha, hb⟩ | ⟨ha, hb, hc0⟩
        · refine ⟨?_, ha, hb⟩
          intro hk
          have e1 : ds = [] := List.length_eq_zero.mp (by omega)
          have e2 : xs = [] := List.length_eq_zero.mp (by omega)
          subst e1 e2
          simp only [List.headD_nil] at hge
          rw [hB] at hge
          rcases hc with h | h <;> omega
        · subst ha hb hc0
          simp only [List.headD_nil] at hge
          rw [hB] at hge; omega
      obtain ⟨e1, e2⟩ := ih ds.tail xs.tail 1 (inRange_tail hd) (inRange_tail hx) (Or.inr rfl)
        (Or.inl ⟨htl ds hk.2.1 hk.1, htl xs hk.2.2 hk.1⟩)
      refine ⟨?_, ?_⟩
      · rw [mag_cons, e1, hm1, hm2]; ring
      · intro e he
        rcases List.mem_cons.mp he with h | h
        · subst h
          have n1 : ds.headD 0 < 100000000 := h1.2
          have n2 : xs.headD 0 < 100000000 := h2.2
          have n3 : ds.headD 0 + (xs.headD 0 + c) ≥ 100000000 := hge
          have n4 := h1.1
          have n5 := h2.1
          show 0 ≤ _ - (100000000 : Int) ∧ _ - (100000000 : Int) < 100000000
          rcases hc with h | h <;> omega
        · exact e2 e h
    · rw [if_neg hge]
      have hcond : (ds.tail.length < k ∧ xs.tail.length < k) ∨
          (ds.tail = [] ∧ xs.tail = [] ∧ (0 : Int) = 0) := by
        rcases hlen with ⟨ha, hb⟩ | ⟨ha, hb, _⟩
        · by_cases hk : k = 0
          · right
            have e1 : ds = [] := List.length_eq_zero.mp (by omega)
            have e2 : xs = [] := List.length_eq_zero.mp (by omega)
            subst e1 e2
            exact ⟨rfl, rfl, rfl⟩
          · exact Or.inl ⟨htl ds ha hk, htl xs hb hk⟩
        · subst ha hb
          exact Or.inr ⟨rfl, rfl, rfl⟩
      obtain ⟨e1, e2⟩ := ih ds.tail xs.tail 0 (inRange_tail hd) (inRange_tail hx) (Or.inl rfl)
        hcond
      refine ⟨?_, ?_⟩
      · rw [mag_cons, e1, hm1, hm2]; ring
      · intro e he
        rcases List.mem_cons.mp he with h | h
        · subst h
          have n3 : ¬ ds.headD 0 + (xs.headD 0 + c) ≥ 100000000 := hge
          have n4 := h1.1
          have n5 := h2.1
          show 0 ≤ _ ∧ _ < (100000000 : Int)
          rcases hc with h | h <;> omega
        · exact e2 e h

end BigInteger

namespace BigInteger

/-- The borrow loop subtracts the two magnitudes modulo `BASE ^ k`; `b` is the
borrow that is dropped after the last round. -/
theorem subLoop_spec (f : Bool) : ∀ (k : Nat) (ds xs : List Int) (c : Int), InRange ds →
    InRange xs → (c = 0 ∨ c = 1) → ds.length ≤ k → xs.length ≤ k →
    ∃ b : Int, (b = 0 ∨ b = 1) ∧
      mag (subLoop f k ds xs c) =
        (if f then mag ds - mag xs else mag xs - mag ds) - c + BASE ^ k * b ∧
      InRange (subLoop f k ds xs c) ∧ (subLoop f k ds xs c).length = k := by
  intro k
  induction k with
  | zero =>
    intro ds xs c hd _ hc h1 h2
    have e1 : ds = [] := List.length_eq_zero.mp (by omega)
    have e2 : xs = [] := List.length_eq_zero.mp (by omega)
    subst e1 e2
    refine ⟨c, hc, ?_, hd, rfl⟩
    simp [subLoop, mag]
  | succ k ih =>
    intro ds xs c hd hx hc hl1 hl2
    have h1 := headD_range hd
    have h2 := headD_range hx
    have n1 : ds.headD 0 < 100000000 := h1.2
    have n2 : xs.headD 0 < 100000000 := h2.2
    have n3 := h1.1
    have n4 := h2.1
    have hm1 := mag_head_tail ds
    have hm2 := mag_head_tail xs
    have hB : BASE = 100000000 := rfl
    have htl : ∀ l : List Int, l.length ≤ k + 1 → l.tail.length ≤ k := by
      intro l hl
      rw [List.length_tail]; omega
    simp only [subLoop]
    by_cases hlt : (if f then ds.headD 0 - xs.headD 0 - c else xs.headD 0 - ds.headD 0 - c) < 0
    · rw [if_pos hlt]
      obtain ⟨b, hb, e1, e2, e3⟩ := ih ds.tail xs.tail 1 (inRange_tail hd) (inRange_tail hx)
        (Or.inr rfl) (htl ds hl1) (htl xs hl2)
      refine ⟨b, hb, ?_, ?_, by simp [e3]⟩
      · rw [mag_cons, e1, hm1, hm2, pow_succ]
        cases f <;> simp only [if_true, if_false, Bool.false_eq_true] <;> ring
      · intro e he
        rcases List.mem_cons.mp he with h | h
        · subst h
          show 0 ≤ _ + (100000000 : Int) ∧ _ + (100000000 : Int) < 100000000
          cases f <;> simp only [if_true, if_false, Bool.false_eq_true] at hlt ⊢ <;>
            rcases hc with h | h <;> omega
        · exact e2 e h
    · rw [if_neg hlt]
      obtain ⟨b, hb, e1, e2, e3⟩ := ih ds.tail xs.tail 0 (inRange_tail hd) (inRange_tail hx)
        (Or.inl rfl) (htl ds hl1) (htl xs hl2)
      refine ⟨b, hb, ?_, ?_, by simp [e3]⟩
      · rw [mag_cons, e1, hm1, hm2, pow_succ]
        cases f <;> simp only [if_true, if_false, Bool.false_eq_true] <;> ring
      · intro e he
        rcases List.mem_cons.mp he with h | h
        · subst h
          show 0 ≤ _ ∧ _ < (100000000 : Int)
          cases f <;> simp only [if_true, if_false, Bool.false_eq_true] at hlt ⊢ <;>
            rcases hc with h | h <;> omega
        · exact e2 e h

theorem length_pos_of_digitsOk {l : List Int} (h : DigitsOk l) : 0 < l.length :=
  List.length_pos.mpr h.1

/-- The function `addMain` on two magnitudes: the sum, in canonical shape. -/
theorem addMain_spec (a x : BigInteger) (ha : DigitsOk a.digits) (hx : DigitsOk x.digits) :
    DigitsOk (addMain a x).digits ∧
      mag (addMain a x).digits = mag a.digits + mag x.digits := by
  have h := addLoop_spec (max a.digits.length x.digits.length + 1) a.digits x.digits 0
    ha.inRange hx.inRange (Or.inl rfl) (Or.inl ⟨by omega, by omega⟩)
  have hne : addLoop (max a.digits.length x.digits.length + 1) a.digits x.digits 0 ≠ [] := by
    simp only [addLoop]
    split <;> simp
  refine ⟨digitsOk_trimDigits _ hne h.2, ?_⟩
  show mag (trimDigits _) = _
  rw [mag_trimDigits, h.1]; ring

/-- The test `*this >= x` of `operator-=` on two non-negative values. -/
theorem ge_iff_mag (a x : BigInteger) (ha : DigitsOk a.digits) (hx : DigitsOk x.digits)
    (hfa : a.flag = true) (hfx : x.flag = true) :
    a.ge x = true ↔ mag x.digits ≤ mag a.digits := by
  have h := compare_eq_sign a x ⟨ha, fun _ => hfa⟩ ⟨hx, fun _ => hfx⟩
  unfold ge
  rw [decide_eq_true_iff, h]
  unfold val
  rw [hfa, hfx]
  simp only [if_true]
  rcases lt_trichotomy (mag a.digits - mag x.digits) 0 with h1 | h1 | h1
  · rw [Int.sign_eq_neg_one_of_neg h1]; constructor <;> intro <;> omega
  · rw [h1]; simp; omega
  · rw [Int.sign_eq_one_of_pos h1]; constructor <;> intro <;> omega

theorem subLoop_trim (f : Bool) (ds xs : List Int) (hd : DigitsOk ds) (hx : DigitsOk xs)
    (hf : f = true ↔ mag xs ≤ mag ds) :
    DigitsOk (trimDigits (subLoop f (max ds.length xs.length) ds xs 0)) ∧
      mag (trimDigits (subLoop f (max ds.length xs.length) ds xs 0)) =
        (if f then mag ds - mag xs else mag xs - mag ds) := by
  obtain ⟨b, hb, e1, e2, e3⟩ := subLoop_spec f (max ds.length xs.length)
    ds xs 0 hd.inRange hx.inRange (Or.inl rfl) (by omega) (by omega)
  have hlt := mag_lt_pow _ e2
  rw [e3] at hlt
  have hnn := mag_nonneg _ e2.nonneg
  have hne : subLoop f (max ds.length xs.length) ds xs 0 ≠ [] := by
    intro hc
    have := length_pos_of_digitsOk hd
    rw [hc] at e3; simp at e3; omega
  refine ⟨digitsOk_trimDigits _ hne e2, ?_⟩
  have hdiff : 0 ≤ (if f then mag ds - mag xs else mag xs - mag ds) := by
    cases f
    · simp only [Bool.false_eq_true, if_false]
      have : ¬ mag xs ≤ mag ds := fun h => absurd (hf.mpr h) (by decide)
      omega
    · simp only [if_true]; have := hf.mp rfl; omega
  have hb0 : b = 0 := by
    rcases hb with h | h
    · exact h
    · subst h; exfalso; rw [mul_one] at e1; omega
  subst hb0
  rw [mag_trimDigits, e1]; ring

/-- The function `subMain` on two magnitudes: the absolute difference, in canonical shape,
with the flag telling which operand was the larger. -/
theorem subMain_spec (a x : BigInteger) (ha : DigitsOk a.digits) (hx : DigitsOk x.digits)
    (hfa : a.flag = true) (hfx : x.flag = true) :
    Canonical (subMain a x) ∧ val (subMain a x) = mag a.digits - mag x.digits ∧
      ((subMain a x).flag = true ↔ mag x.digits ≤ mag a.digits) := by
  have hge := ge_iff_mag a x ha hx hfa hfx
  obtain ⟨hok, hmag⟩ := subLoop_trim (a.ge x) a.digits x.digits ha hx hge
  have hd : (subMain a x).digits =
      trimDigits (subLoop (a.ge x) (max a.digits.length x.digits.length) a.digits x.digits 0) :=
    rfl
  have hfl : (subMain a x).flag = a.ge x := rfl
  rw [← hd] at hok hmag
  refine ⟨⟨hok, ?_⟩, ?_, by rw [hfl]; exact hge⟩
  · intro hz
    rw [hfl]
    have : mag (subMain a x).digits = 0 := by rw [hz]; rfl
    rw [this] at hmag
    by_contra hc
    have hc' : a.ge x = false := by simpa using hc
    rw [hc'] at hmag hge
    simp only [Bool.false_eq_true, if_false, false_iff] at hmag hge
    omega
  · unfold val
    rw [hfl, hmag]
    cases a.ge x <;> simp

end BigInteger

namespace BigInteger

theorem canonical_flag_iff {r : BigInteger} (h : Canonical r) : r.flag = true ↔ 0 ≤ val r := by
  have hnn := mag_nonneg r.digits h.1.inRange.nonneg
  unfold val
  cases hf : r.flag
  · have := canonical_neg_mag_pos h hf
    simp only [Bool.false_eq_true, if_false, false_iff]; omega
  · simp only [if_true, true_iff]; exact hnn

/-- Sum of two magnitudes with the flag set. -/
theorem addMain_pos (a x : BigInteger) (ha : DigitsOk a.digits) (hx : DigitsOk x.digits)
    (hfa : a.flag = true) (hfx : x.flag = true) :
    Canonical (addMain a x) ∧ val (addMain a x) = mag a.digits + mag x.digits := by
  obtain ⟨h1, h2⟩ := addMain_spec a x ha hx
  have hfl : (addMain a x).flag = true := by
    show (!(xor a.flag x.flag)) = true
    rw [hfa, hfx]; rfl
  refine ⟨⟨h1, fun _ => hfl⟩, ?_⟩
  unfold val; rw [hfl, h2]; simp

/-- Negated sum of two magnitudes of which one is not zero. -/
theorem neg_addMain (a x : BigInteger) (ha : DigitsOk a.digits) (hx : DigitsOk x.digits)
    (hfa : a.flag = true) (hfx : x.flag = true) (hpos : 0 < mag x.digits) :
    Canonical (neg (addMain a x)) ∧ val (neg (addMain a x)) = -(mag a.digits + mag x.digits) := by
  obtain ⟨h1, h2⟩ := addMain_spec a x ha hx
  have hnn := mag_nonneg a.digits ha.inRange.nonneg
  have hfl : (neg (addMain a x)).flag = false := by
    show (!(!(xor a.flag x.flag))) = false
    rw [hfa, hfx]; rfl
  have hd : (neg (addMain a x)).digits = (addMain a x).digits := rfl
  refine ⟨⟨hd ▸ h1, ?_⟩, ?_⟩
  · intro hz
    rw [hd] at hz
    have : mag (addMain a x).digits = 0 := by rw [hz]; rfl
    omega
  · unfold val; rw [hfl, hd, h2]; simp

/-- C3: the sum of two canonical values is canonical (digits in `[0, 10^8)`,
no trailing zero digit, zero only as `[0]` with the flag set), its value is
`val a + val b`, and its flag is the sign of that sum. -/
theorem add_spec (a b : BigInteger) (ha : Canonical a) (hb : Canonical b) :
    Canonical (add a b) ∧ val (add a b) = val a + val b ∧
      ((add a b).flag = true ↔ 0 ≤ val a + val b) := by
  have key : Canonical (add a b) ∧ val (add a b) = val a + val b := by
    have hpa := fun h => canonical_neg_mag_pos ha h
    have hpb := fun h => canonical_neg_mag_pos hb h
    obtain ⟨da, fa⟩ := a
    obtain ⟨db, fb⟩ := b
    cases fa <;> cases fb
    · -- (-|a|) + (-|b|) = -(|b| + |a|)
      have := neg_addMain ⟨db, true⟩ ⟨da, true⟩ hb.1 ha.1 rfl rfl (hpa rfl)
      simp only [val] at this ⊢
      simp only [Bool.false_eq_true, if_false] at this ⊢
      refine ⟨this.1, ?_⟩
      have h2 := this.2
      simp only [add, negative, subNonneg, abs, Bool.not_false, if_true] at h2 ⊢
      rw [h2]; ring
    · -- (-|a|) + |b| = |b| - |a|
      have := subMain_spec ⟨db, true⟩ ⟨da, true⟩ hb.1 ha.1 rfl rfl
      refine ⟨this.1, ?_⟩
      have h2 := this.2.1
      simp only [add, negative, addNonneg, abs, Bool.not_false, Bool.not_true, if_true, if_false,
        Bool.false_eq_true] at h2 ⊢
      rw [h2]; simp only [val, if_true, if_false, Bool.false_eq_true]; ring
    · -- |a| + (-|b|) = |a| - |b|
      have := subMain_spec ⟨da, true⟩ ⟨db, true⟩ ha.1 hb.1 rfl rfl
      refine ⟨this.1, ?_⟩
      have h2 := this.2.1
      simp only [add, negative, subNonneg, abs, Bool.not_false, Bool.not_true, if_true, if_false,
        Bool.false_eq_true] at h2 ⊢
      rw [h2]; simp only [val, if_true, if_false, Bool.false_eq_true]; ring
    · have := addMain_pos ⟨da, true⟩ ⟨db, true⟩ ha.1 hb.1 rfl rfl
      refine ⟨this.1, ?_⟩
      have h2 := this.2
      simp only [add, negative, addNonneg, abs, Bool.not_false, Bool.not_true, if_true, if_false,
        Bool.false_eq_true] at h2 ⊢
      rw [h2]; simp only [val, if_true]
  refine ⟨key.1, key.2, ?_⟩
  rw [canonical_flag_iff key.1, key.2]

theorem add_spec_witness :
    Canonical ⟨[99999999, 99999999], true⟩ ∧ Canonical ⟨[1], true⟩ ∧
    Canonical (add ⟨[99999999, 99999999], true⟩ ⟨[1], true⟩) ∧
    val (add ⟨[99999999, 99999999], true⟩ ⟨[1], true⟩) =
      val ⟨[99999999, 99999999], true⟩ + val ⟨[1], true⟩ ∧
    ((add ⟨[99999999, 99999999], true⟩ ⟨[1], true⟩).flag = true ↔
      0 ≤ val ⟨[99999999, 99999999], true⟩ + val ⟨[1], true⟩) :=
  ⟨by decide, by decide, add_spec ⟨[99999999, 99999999], true⟩ ⟨[1], true⟩ (by decide) (by decide)⟩

end BigInteger

namespace BigInteger

theorem sub_val (a b : BigInteger) (ha : Canonical a) (hb : Canonical b) :
    Canonical (sub a b) ∧ val (sub a b) = val a - val b := by
  have hpa := fun h => canonical_neg_mag_pos ha h
  have hpb := fun h => canonical_neg_mag_pos hb h
  obtain ⟨da, fa⟩ := a
  obtain ⟨db, fb⟩ := b
  cases fa <;> cases fb
  · -- (-|a|) - (-|b|) = |b| - |a|
    have := subMain_spec ⟨db, true⟩ ⟨da, true⟩ hb.1 ha.1 rfl rfl
    refine ⟨this.1, ?_⟩
    have h2 := this.2.1
    simp only [sub, negative, addNonneg, abs, Bool.not_false, Bool.not_true, if_true, if_false,
      Bool.false_eq_true] at h2 ⊢
    rw [h2]; simp only [val, if_true, if_false, Bool.false_eq_true]; ring
  · -- (-|a|) - |b| = -(|b| + |a|)
    have := neg_addMain ⟨db, true⟩ ⟨da, true⟩ hb.1 ha.1 rfl rfl (hpa rfl)
    refine ⟨this.1, ?_⟩
    have h2 := this.2
    simp only [sub, negative, subNonneg, abs, Bool.not_false, Bool.not_true, if_true, if_false,
      Bool.false_eq_true] at h2 ⊢
    rw [h2]; simp only [val, if_true, if_false, Bool.false_eq_true]; ring
  · -- |a| - (-|b|) = |a| + |b|
    have := addMain_pos ⟨da, true⟩ ⟨db, true⟩ ha.1 hb.1 rfl rfl
    refine ⟨this.1, ?_⟩
    have h2 := this.2
    simp only [sub, negative, addNonneg, abs, Bool.not_false, Bool.not_true, if_true, if_false,
      Bool.false_eq_true] at h2 ⊢
    rw [h2]; simp only [val, if_true, if_false, Bool.false_eq_true]; ring
  · have := subMain_spec ⟨da, true⟩ ⟨db, true⟩ ha.1 hb.1 rfl rfl
    refine ⟨this.1, ?_⟩
    have h2 := this.2.1
    simp only [sub, negative, subNonneg, abs, Bool.not_false, Bool.not_true, if_true, if_false,
      Bool.false_eq_true] at h2 ⊢
    rw [h2]; simp only [val, if_true]

theorem canonical_zeroBig : Canonical zeroBig := by decide

/-- C4, as amended: the difference of two canonical values is canonical
(so the leading zeros left by the borrow are trimmed) and its value is
`val a - val b`.  For operands of equal sign the flag of the result is the
flag of `a` when `|a| > |b|`, the opposite flag when `|a| < |b|`, and the
result is the canonical zero `([0], true)` when `|a| = |b|`. -/
theorem sub_spec (a b : BigInteger) (ha : Canonical a) (hb : Canonical b) :
    Canonical (sub a b) ∧ val (sub a b) = val a - val b ∧
      (a.flag = b.flag →
        (mag b.digits < mag a.digits → (sub a b).flag = a.flag) ∧
        (mag a.digits < mag b.digits → (sub a b).flag = !a.flag) ∧
        (mag a.digits = mag b.digits → sub a b = ⟨[0], true⟩)) := by
  obtain ⟨hc, hv⟩ := sub_val a b ha hb
  refine ⟨hc, hv, ?_⟩
  intro hfl
  have hflag := canonical_flag_iff hc
  rw [hv] at hflag
  have hva : val a = if a.flag then mag a.digits else -mag a.digits := rfl
  have hvb : val b = if a.flag then mag b.digits else -mag b.digits := by rw [hfl]; rfl
  refine ⟨?_, ?_, ?_⟩
  · intro h
    cases hf : a.flag
    · rw [hva, hvb, hf] at hflag
      simp only [Bool.false_eq_true, if_false] at hflag
      cases hs : (sub a b).flag
      · rfl
      · have := hflag.mp hs; omega
    · rw [hva, hvb, hf] at hflag
      simp only [if_true] at hflag
      exact hflag.mpr (by omega)
  · intro h
    cases hf : a.flag
    · rw [hva, hvb, hf] at hflag
      simp only [Bool.false_eq_true, if_false] at hflag
      exact hflag.mpr (by omega)
    · rw [hva, hvb, hf] at hflag
      simp only [if_true] at hflag
      cases hs : (sub a b).flag
      · rfl
      · have := hflag.mp hs; omega
  · intro h
    apply canonical_val_inj hc canonical_zeroBig
    rw [hv, hva, hvb, h]
    show _ = (0 : Int)
    ring

theorem sub_spec_witness :
    Canonical ⟨[0, 0, 1], true⟩ ∧ Canonical ⟨[1], true⟩ ∧
    Canonical (sub ⟨[0, 0, 1], true⟩ ⟨[1], true⟩) ∧
    val (sub ⟨[0, 0, 1], true⟩ ⟨[1], true⟩) = val ⟨[0, 0, 1], true⟩ - val ⟨[1], true⟩ ∧
    ((BigInteger.mk [0, 0, 1] true).flag = (BigInteger.mk [1] true).flag →
      (mag (BigInteger.mk [1] true).digits < mag (BigInteger.mk [0, 0, 1] true).digits →
        (sub ⟨[0, 0, 1], true⟩ ⟨[1], true⟩).flag = (BigInteger.mk [0, 0, 1] true).flag) ∧
      (mag (BigInteger.mk [0, 0, 1] true).digits < mag (BigInteger.mk [1] true).digits →
        (sub ⟨[0, 0, 1], true⟩ ⟨[1], true⟩).flag = !(BigInteger.mk [0, 0, 1] true).flag) ∧
      (mag (BigInteger.mk [0, 0, 1] true).digits = mag (BigInteger.mk [1] true).digits →
        sub ⟨[0, 0, 1], true⟩ ⟨[1], true⟩ = ⟨[0], true⟩)) :=
  ⟨by decide, by decide, sub_spec ⟨[0, 0, 1], true⟩ ⟨[1], true⟩ (by decide) (by decide)⟩

/-- C4 as stated fails: the flag of `a - b` is not "the flag of `a` when
`|a| ≥ |b|`, flipped otherwise" for all canonical operands.  `3 - (-5) = 8`
keeps the flag of `a` although `|a| < |b|`, and `(-5) - (-5)` is the canonical
zero, whose flag is set, although `|a| ≥ |b|` and `a` is negative. -/
theorem sub_sign_counterexample :
    Canonical ⟨[3], true⟩ ∧ Canonical ⟨[5], false⟩ ∧
    mag (BigInteger.mk [3] true).digits < mag (BigInteger.mk [5] false).digits ∧
    (sub ⟨[3], true⟩ ⟨[5], false⟩).flag ≠ !(BigInteger.mk [3] true).flag ∧
    mag (BigInteger.mk [5] false).digits ≥ mag (BigInteger.mk [5] false).digits ∧
    (sub ⟨[5], false⟩ ⟨[5], false⟩).flag ≠ (BigInteger.mk [5] false).flag ∧
    ¬ (∀ a b : BigInteger, Canonical a → Canonical b →
        (sub a b).flag = if mag a.digits ≥ mag b.digits then a.flag else !a.flag) := by
  refine ⟨by decide, by decide, by decide, by decide, by decide, by decide, ?_⟩
  intro h
  exact absurd (h ⟨[3], true⟩ ⟨[5], false⟩ (by decide) (by decide)) (by decide)

end BigInteger

namespace BigInteger

/-! ### Schoolbook multiplication -/

theorem mulInner_nil (di : Int) (rs : List Int) : mulInner di [] rs = rs := by
  cases rs <;> rfl

theorem mulInner_cons (di xj r0 r1 : Int) (xs rs : List Int) :
    mulInner di (xj :: xs) (r0 :: r1 :: rs) =
      ((r0 + di * xj).tmod BASE) :: mulInner di xs ((r1 + (r0 + di * xj).tdiv BASE) :: rs) := rfl

/-- One row of the schoolbook product adds `di * x` to the value of `res`,
leaves the first `m` digits it touched in `[0, BASE)` and nothing negative. -/
theorem mulInner_spec (di : Int) (hdi : 0 ≤ di) : ∀ (xs rs : List Int), InRange xs →
    (∀ r ∈ rs, 0 ≤ r) → xs.length < rs.length →
    mag (mulInner di xs rs) = mag rs + di * mag xs ∧
      (∀ r ∈ mulInner di xs rs, 0 ≤ r) ∧ (mulInner di xs rs).length = rs.length ∧
      InRange ((mulInner di xs rs).take xs.length) := by
  intro xs
  induction xs with
  | nil =>
    intro rs _ hr _
    rw [mulInner_nil]
    refine ⟨by simp [mag], hr, rfl, ?_⟩
    intro d hd; simp at hd
  | cons xj xs ih =>
    intro rs hx hr hlen
    match rs, hr, hlen with
    | [], _, hlen => simp at hlen
    | [_], _, hlen => simp at hlen
    | r0 :: r1 :: rs, hr, hlen =>
      have hxj := hx xj (List.mem_cons_self _ _)
      have hr0 : 0 ≤ r0 := hr r0 (List.mem_cons_self _ _)
      have hr1 : 0 ≤ r1 := hr r1 (List.mem_cons_of_mem _ (List.mem_cons_self _ _))
      have hv : 0 ≤ r0 + di * xj := add_nonneg hr0 (mul_nonneg hdi hxj.1)
      have hB0 : (0 : Int) ≤ BASE := le_of_lt BASE_pos
      have hmod : (r0 + di * xj).tmod BASE = (r0 + di * xj) % BASE := Int.tmod_eq_emod hv hB0
      have hdiv : (r0 + di * xj).tdiv BASE = (r0 + di * xj) / BASE := Int.tdiv_eq_ediv hv hB0
      have hq : 0 ≤ (r0 + di * xj) / BASE := Int.ediv_nonneg hv hB0
      have hm0 : 0 ≤ (r0 + di * xj) % BASE := Int.emod_nonneg _ (ne_of_gt BASE_pos)
      have hm1 : (r0 + di * xj) % BASE < BASE := Int.emod_lt_of_pos _ BASE_pos
      have hsplit : (r0 + di * xj) % BASE + BASE * ((r0 + di * xj) / BASE) = r0 + di * xj :=
        Int.emod_add_ediv _ _
      have hr' : ∀ r ∈ (r1 + (r0 + di * xj) / BASE) :: rs, 0 ≤ r := by
        intro r hmem
        rcases List.mem_cons.mp hmem with h | h
        · rw [h]; omega
        · exact hr r (List.mem_cons_of_mem _ (List.mem_cons_of_mem _ h))
      obtain ⟨e1, e2, e3, e4⟩ := ih ((r1 + (r0 + di * xj) / BASE) :: rs)
        (fun d hd => hx d (List.mem_cons_of_mem _ hd)) hr' (by simp at hlen ⊢; omega)
      rw [mulInner_cons, hmod, hdiv]
      refine ⟨?_, ?_, ?_, ?_⟩
      · rw [mag_cons, e1]
        simp only [mag_cons]
        linear_combination hsplit
      · intro r hmem
        rcases List.mem_cons.mp hmem with h | h
        · rw [h]; exact hm0
        · exact e2 r h
      · simp [e3]
      · intro d hd
        simp only [List.length_cons, List.take_succ_cons] at hd
        rcases List.mem_cons.mp hd with h | h
        · rw [h]; exact ⟨hm0, hm1⟩
        · exact e4 d h

theorem inRange_nil : InRange [] := fun d hd => by simp at hd

/-- The row loop adds `a * x` to the value of `res`; afterwards only the two
highest digits may still be outside `[0, BASE)`. -/
theorem mulOuter_spec (xs : List Int) (hx : InRange xs) (hxne : xs ≠ []) :
    ∀ (ds rs : List Int), InRange ds → (∀ r ∈ rs, 0 ≤ r) → ds.length + xs.length < rs.length →
    InRange (rs.take (xs.length - 1)) →
    mag (mulOuter ds xs rs) = mag rs + mag ds * mag xs ∧
      (∀ r ∈ mulOuter ds xs rs, 0 ≤ r) ∧ (mulOuter ds xs rs).length = rs.length ∧
      InRange ((mulOuter ds xs rs).take (ds.length + xs.length - 1)) := by
  have hxl : 0 < xs.length := List.length_pos.mpr hxne
  intro ds
  induction ds with
  | nil =>
    intro rs _ hr _ htake
    refine ⟨by simp [mulOuter, mag], hr, rfl, ?_⟩
    simpa [mulOuter] using htake
  | cons di ds ih =>
    intro rs hd hr hlen _
    have hdi := hd di (List.mem_cons_self _ _)
    obtain ⟨e1, e2, e3, e4⟩ := mulInner_spec di hdi.1 xs rs hx hr (by simp at hlen; omega)
    simp only [mulOuter]
    cases hres : mulInner di xs rs with
    | nil =>
      rw [hres] at e3
      simp at hlen e3
      omega
    | cons r0 rest =>
      rw [hres] at e1 e2 e3 e4
      have hr0 : 0 ≤ r0 ∧ r0 < BASE := by
        apply e4 r0
        obtain ⟨n, hn⟩ := Nat.exists_eq_succ_of_ne_zero (Nat.pos_iff_ne_zero.mp hxl)
        rw [hn, List.take_succ_cons]
        exact List.mem_cons_self _ _
      have hrest : InRange (rest.take (xs.length - 1)) := by
        intro d hmem
        apply e4 d
        obtain ⟨n, hn⟩ := Nat.exists_eq_succ_of_ne_zero (Nat.pos_iff_ne_zero.mp hxl)
        rw [hn, List.take_succ_cons]
        rw [hn] at hmem
        exact List.mem_cons_of_mem _ hmem
      obtain ⟨f1, f2, f3, f4⟩ := ih rest (fun d hd' => hd d (List.mem_cons_of_mem _ hd'))
        (fun r hr' => e2 r (List.mem_cons_of_mem _ hr'))
        (by simp at hlen e3; omega) hrest
      refine ⟨?_, ?_, ?_, ?_⟩
      · rw [mag_cons, f1]
        rw [mag_cons] at e1
        simp only [mag_cons]
        linear_combination e1
      · intro r hmem
        rcases List.mem_cons.mp hmem with h | h
        · rw [h]; exact hr0.1
        · exact f2 r h
      · simp [f3, ← e3]
      · have hidx : (di :: ds).length + xs.length - 1 = (ds.length + xs.length - 1) + 1 := by
          simp; omega
        rw [hidx, List.take_succ_cons]
        intro d hmem
        rcases List.mem_cons.mp hmem with h | h
        · rw [h]; exact hr0
        · exact f4 d h

theorem nonneg_mag_zero : ∀ l : List Int, (∀ r ∈ l, 0 ≤ r) → mag l = 0 → ∀ r ∈ l, r = 0 := by
  intro l
  induction l with
  | nil => intro _ _ r hr; simp at hr
  | cons d ds ih =>
    intro hnn hz r hr
    have hd := hnn d (List.mem_cons_self _ _)
    have hds := mag_nonneg ds (fun e he => hnn e (List.mem_cons_of_mem _ he))
    rw [mag_cons] at hz
    have hB : BASE = 100000000 := rfl
    rw [hB] at hz
    rcases List.mem_cons.mp hr with h | h
    · rw [h]; omega
    · exact ih (fun e he => hnn e (List.mem_cons_of_mem _ he)) (by omega) r h

/-- Digits that are not negative, of which all but the highest ones are
known to be in range, are all in range when the value is small enough. -/
theorem inRange_of_mag_lt : ∀ (l : List Int) (j : Nat), (∀ r ∈ l, 0 ≤ r) →
    InRange (l.take j) → mag l < BASE ^ (j + 1) → InRange l := by
  intro l
  induction l with
  | nil => intro _ _ _ _; exact inRange_nil
  | cons d ds ih =>
    intro j hnn htake hlt
    have hd := hnn d (List.mem_cons_self _ _)
    have hnn' : ∀ r ∈ ds, 0 ≤ r := fun e he => hnn e (List.mem_cons_of_mem _ he)
    have hds := mag_nonneg ds hnn'
    rw [mag_cons] at hlt
    have hB : BASE = 100000000 := rfl
    cases j with
    | zero =>
      simp only [zero_add, pow_one] at hlt
      rw [hB] at hlt
      have hz : mag ds = 0 := by omega
      have hall := nonneg_mag_zero ds hnn' hz
      intro e he
      rcases List.mem_cons.mp he with h | h
      · rw [h, hB]; omega
      · rw [hall e h, hB]; omega
    | succ j =>
      rw [List.take_succ_cons] at htake
      have hlt' : mag ds < BASE ^ (j + 1) := by
        rw [pow_succ] at hlt
        by_contra hc
        have : BASE ^ (j + 1) * BASE ≤ mag ds * BASE :=
          mul_le_mul_of_nonneg_right (by omega) (le_of_lt BASE_pos)
        nlinarith
      have := ih j hnn' (fun e he => htake e (List.mem_cons_of_mem _ he)) hlt'
      intro e he
      rcases List.mem_cons.mp he with h | h
      · rw [h]; exact htake d (List.mem_cons_self _ _)
      · exact this e h

/-- The schoolbook loops compute the product of the two magnitudes, and every
digit of `res`, the never-normalised top ones included, ends in `[0, BASE)`. -/
theorem schoolbook_spec (a x : List Int) (ha : InRange a) (hx : InRange x) (hane : a ≠ [])
    (hxne : x ≠ []) :
    mag (schoolbook a x) = mag a * mag x ∧ InRange (schoolbook a x) ∧
      (schoolbook a x).length = a.length + x.length + 1 := by
  have hal : 0 < a.length := List.length_pos.mpr hane
  have hxl : 0 < x.length := List.length_pos.mpr hxne
  have hz : ∀ r ∈ List.replicate (a.length + x.length + 1) (0 : Int), 0 ≤ r := by
    intro r hr; rw [(List.mem_replicate.mp hr).2]
  have hzr : InRange ((List.replicate (a.length + x.length + 1) (0 : Int)).take (x.length - 1)) := by
    intro r hr
    have := List.mem_of_mem_take hr
    rw [(List.mem_replicate.mp this).2]
    exact ⟨le_refl _, BASE_pos⟩
  obtain ⟨e1, e2, e3, e4⟩ := mulOuter_spec x hx hxne a _ ha hz (by simp) hzr
  rw [mag_replicate_zero, zero_add] at e1
  refine ⟨e1, ?_, by simpa using e3⟩
  apply inRange_of_mag_lt _ (a.length + x.length - 1) e2 e4
  show mag (mulOuter a x _) < _
  rw [e1]
  have h1 := mag_lt_pow a ha
  have h2 := mag_lt_pow x hx
  have h3 := mag_nonneg a ha.nonneg
  have h4 := mag_nonneg x hx.nonneg
  have hidx : a.length + x.length - 1 + 1 = a.length + x.length := by omega
  rw [hidx, pow_add]
  exact mul_lt_mul'' h1 h2 h3 h4

end BigInteger

namespace BigInteger

theorem zero_iff (a : BigInteger) : a.zero = true ↔ a.digits = [0] := by
  obtain ⟨ds, f⟩ := a
  unfold zero get
  cases ds with
  | nil => simp
  | cons d ds =>
    cases ds with
    | nil => simp
    | cons e es => simp

theorem mag_pos_of_not_zero {a : BigInteger} (h : DigitsOk a.digits) (hz : a.zero = false) :
    0 < mag a.digits := by
  have h0 := mag_nonneg a.digits h.inRange.nonneg
  rcases lt_or_eq_of_le h0 with h1 | h1
  · exact h1
  · have := (zero_iff a).mpr (digitsOk_mag_zero h h1.symm)
    rw [hz] at this; exact absurd this (by decide)

theorem val_of_zero {a : BigInteger} (hz : a.zero = true) : val a = 0 := by
  have := (zero_iff a).mp hz
  unfold val; rw [this]; simp [mag]

/-- C6: when `n * m < FFT_LIMIT` the product is computed by the schoolbook
loops.  Every digit of the vector `res` they leave, the top digit included, is
in `[0, 10^8)`; the result is canonical (trimmed), its value is
`val a * val b`, a zero operand gives the canonical zero, and otherwise the
flag is the XNOR of the operand flags. -/
theorem mul_schoolbook_spec (F : FFT) (a b : BigInteger) (ha : Canonical a) (hb : Canonical b)
    (hsmall : (a.digits.length : Int) * b.digits.length < FFT_LIMIT) :
    InRange (schoolbook a.digits b.digits) ∧
    Canonical (mul F a b) ∧ val (mul F a b) = val a * val b ∧
    (a.zero = true ∨ b.zero = true → mul F a b = ⟨[0], true⟩) ∧
    (a.zero = false → b.zero = false → (mul F a b).flag = !(xor a.flag b.flag)) := by
  obtain ⟨e1, e2, e3⟩ := schoolbook_spec a.digits b.digits ha.1.inRange hb.1.inRange ha.1.1 hb.1.1
  refine ⟨e2, ?_⟩
  by_cases hz : a.zero = true ∨ b.zero = true
  · have hm : mul F a b = zeroBig := by
      unfold mul
      rcases hz with h | h <;> simp [h]
    rw [hm]
    refine ⟨canonical_zeroBig, ?_, fun _ => rfl, ?_⟩
    · rcases hz with h | h
      · rw [val_of_zero h, zero_mul]; rfl
      · rw [val_of_zero h, mul_zero]; rfl
    · intro h1 h2
      rcases hz with h | h
      · rw [h1] at h; exact absurd h (by decide)
      · rw [h2] at h; exact absurd h (by decide)
  · have hza : a.zero = false := by
      cases h : a.zero
      · rfl
      · exact absurd (Or.inl h) hz
    have hzb : b.zero = false := by
      cases h : b.zero
      · rfl
      · exact absurd (Or.inr h) hz
    have hm : mul F a b = ⟨trimDigits (schoolbook a.digits b.digits), !(xor a.flag b.flag)⟩ := by
      unfold mul
      rw [hza, hzb]
      simp only [Bool.or_self, Bool.false_eq_true, if_false]
      rw [if_neg (by omega)]
      rfl
    have hpa := mag_pos_of_not_zero ha.1 hza
    have hpb := mag_pos_of_not_zero hb.1 hzb
    have hne : schoolbook a.digits b.digits ≠ [] := by
      intro hc; rw [hc] at e3; simp at e3
    have hmag : mag (trimDigits (schoolbook a.digits b.digits)) = mag a.digits * mag b.digits := by
      rw [mag_trimDigits, e1]
    have hpos : 0 < mag a.digits * mag b.digits := mul_pos hpa hpb
    rw [hm]
    refine ⟨⟨digitsOk_trimDigits _ hne e2, ?_⟩, ?_, ?_, fun _ _ => rfl⟩
    · intro h0
      exfalso
      have : mag (trimDigits (schoolbook a.digits b.digits)) = 0 := by
        simp only at h0; rw [h0]; rfl
      omega
    · unfold val
      simp only [hmag]
      cases a.flag <;> cases b.flag <;> simp
    · intro h
      rcases h with h | h
      · rw [hza] at h; exact absurd h (by decide)
      · rw [hzb] at h; exact absurd h (by decide)

theorem mul_schoolbook_spec_witness :
    Canonical ⟨[99999999, 99999999, 99999999], false⟩ ∧ Canonical ⟨[99999999, 99999999], true⟩ ∧
    (((BigInteger.mk [99999999, 99999999, 99999999] false).digits.length : Int) *
        (BigInteger.mk [99999999, 99999999] true).digits.length < FFT_LIMIT) ∧
    InRange (schoolbook (BigInteger.mk [99999999, 99999999, 99999999] false).digits
      (BigInteger.mk [99999999, 99999999] true).digits) ∧
    Canonical (mul ⟨fun _ _ => [], fun _ => []⟩ ⟨[99999999, 99999999, 99999999], false⟩
      ⟨[99999999, 99999999], true⟩) ∧
    val (mul ⟨fun _ _ => [], fun _ => []⟩ ⟨[99999999, 99999999, 99999999], false⟩
      ⟨[99999999, 99999999], true⟩) =
      val ⟨[99999999, 99999999, 99999999], false⟩ * val ⟨[99999999, 99999999], true⟩ ∧
    ((BigInteger.mk [99999999, 99999999, 99999999] false).zero = true ∨
        (BigInteger.mk [99999999, 99999999] true).zero = true →
      mul ⟨fun _ _ => [], fun _ => []⟩ ⟨[99999999, 99999999, 99999999], false⟩
        ⟨[99999999, 99999999], true⟩ = ⟨[0], true⟩) ∧
    ((BigInteger.mk [99999999, 99999999, 99999999] false).zero = false →
      (BigInteger.mk [99999999, 99999999] true).zero = false →
      (mul ⟨fun _ _ => [], fun _ => []⟩ ⟨[99999999, 99999999, 99999999], false⟩
        ⟨[99999999, 99999999], true⟩).flag =
        !(xor (BigInteger.mk [99999999, 99999999, 99999999] false).flag
          (BigInteger.mk [99999999, 99999999] true).flag)) :=
  ⟨by decide, by decide, by decide,
    mul_schoolbook_spec ⟨fun _ _ => [], fun _ => []⟩ ⟨[99999999, 99999999, 99999999], false⟩
      ⟨[99999999, 99999999], true⟩ (by decide) (by decide) (by decide)⟩

end BigInteger

namespace BigInteger

/-! ### Division: the Newton branch on short divisors -/

theorem bind_error {α β : Type} (e : Err) (f : α → Except Err β) :
    ((Except.error e : Except Err α) >>= f) = Except.error e := rfl

theorem bind_ok {α β : Type} (a : α) (f : α → Except Err β) :
    ((Except.ok a : Except Err α) >>= f) = f a := rfl

theorem ofVec_digitsOk {l : List Int} (h : DigitsOk l) : ofVec l = ⟨l, true⟩ := by
  unfold ofVec
  rw [trimDigits_id l h.2.2]

theorem compare_length_gt (a x : BigInteger) (ha : a.flag = true) (hx : x.flag = true)
    (h : x.digits.length < a.digits.length) : a.compare x = 1 := by
  unfold compare
  rw [ha, hx]
  simp only [Bool.not_true, Bool.and_false, Bool.false_and, Bool.and_self, if_true, if_false,
    Bool.false_eq_true]
  rw [if_pos h]

theorem beq_zero_false {x : BigInteger} (h : DigitsOk x.digits) (hz : x.zero = false) :
    x.abs.beq (ofInt64 0) = false := by
  have hc : Canonical x.abs := ⟨h, fun _ => rfl⟩
  have h0 : Canonical (ofInt64 0) := by decide
  have hs := compare_eq_sign x.abs (ofInt64 0) hc h0
  have hpos : 0 < mag x.digits := mag_pos_of_not_zero h hz
  have hv : val x.abs - val (ofInt64 0) = mag x.digits := by
    have : val (ofInt64 0) = 0 := by decide
    rw [this]; simp [val, abs]
  rw [hv, Int.sign_eq_one_of_pos hpos] at hs
  unfold beq
  rw [hs]; decide

/-- A power of the base as the vector that `newton_inv` builds:
`std::vector<digit_t> a(n + 1); a[n] = 1`. -/
theorem ofVec_power (n : Nat) :
    ofVec (List.replicate n 0 ++ [1]) = ⟨List.replicate n 0 ++ [1], true⟩ := by
  unfold ofVec
  rw [trimDigits_id]
  intro _
  simp

/-- The Newton branch of `divmod` never returns when the divisor has at most
`NEWTON_DIV_MIN_LEVEL = 8` digits: `newton_inv` takes its base case at once
and calls `divmod` on a dividend that is longer still, which takes the Newton
branch again. -/
theorem divmodBody_short_divisor (F : FFT) : ∀ (fuel : Nat) (a x : BigInteger),
    DigitsOk x.digits → x.zero = false → x.digits.length ≤ 8 →
    x.digits.length + 33 ≤ a.digits.length →
    divmodBody F fuel a x = .error .outOfFuel := by
  intro fuel
  induction fuel with
  | zero => intro a x _ _ _ _; rfl
  | succ f ih =>
    intro a x hx hz hm hn
    have hxl := length_pos_of_digitsOk hx
    unfold divmodBody
    simp only [abs]
    have hcond : min (a.digits.length : Int) ((a.digits.length : Int) - x.digits.length) >
        NEWTON_DIV_LIMIT := by
      unfold NEWTON_DIV_LIMIT
      omega
    rw [if_pos hcond]
    have hk2 : max (0 : Int) ((x.digits.length : Int) -
        ((a.digits.length : Int) - x.digits.length + 2)) = 0 := by omega
    simp only [hk2, ne_eq, not_true_eq_false, if_false]
    have hb2 : (BigInteger.mk x.digits true)._move_r 0 = ⟨x.digits, true⟩ := by
      unfold _move_r
      simp only [Int.toNat_zero, List.drop_zero]
      exact ofVec_digitsOk hx
    rw [hb2]
    simp only [pure, Except.pure, bind_ok]
    cases f with
    | zero => rfl
    | succ g =>
      have hinv : newton_inv F (divmodWith (divmodBody F (g + 1))) (g + 1) ⟨x.digits, true⟩
          ((a.digits.length : Int) - x.digits.length + 2 + x.digits.length) =
          .error .outOfFuel := by
        unfold newton_inv
        have hz' : (BigInteger.mk x.digits true).zero = false := by
          rw [← hz]; rfl
        rw [hz']
        simp only [Bool.false_eq_true, if_false]
        have hmin : min ((x.digits.length : Int))
            ((a.digits.length : Int) - x.digits.length + 2 + x.digits.length - x.digits.length) ≤
            NEWTON_DIV_MIN_LEVEL := by
          unfold NEWTON_DIV_MIN_LEVEL
          omega
        rw [if_pos hmin]
        have hnat : ((a.digits.length : Int) - x.digits.length + 2 + x.digits.length).toNat =
            a.digits.length + 2 := by omega
        rw [hnat, ofVec_power]
        have hdm : divmodWith (divmodBody F (g + 1))
            ⟨List.replicate (a.digits.length + 2) 0 ++ [1], true⟩ ⟨x.digits, true⟩ =
            .error .outOfFuel := by
          unfold divmodWith
          have h1 : (BigInteger.mk x.digits true).abs.beq (ofInt64 0) = false :=
            beq_zero_false (x := ⟨x.digits, true⟩) hx hz'
          rw [h1]
          simp only [Bool.false_eq_true, if_false]
          have h2 : (BigInteger.mk (List.replicate (a.digits.length + 2) 0 ++ [1]) true).abs.lt
              (BigInteger.mk x.digits true).abs = false := by
            unfold lt
            rw [compare_length_gt _ _ rfl rfl (by simp [abs]; omega)]
            decide
          rw [h2]
          simp only [Bool.false_eq_true, if_false]
          exact ih _ _ hx hz' hm (by simp; omega)
        rw [hdm]
        rfl
      rw [hinv]
      rfl

theorem divmod_short_divisor (F : FFT) (fuel : Nat) (a x : BigInteger)
    (hx : DigitsOk x.digits) (hz : x.zero = false) (hm : x.digits.length ≤ 8)
    (hn : x.digits.length + 33 ≤ a.digits.length) :
    divmod F fuel a x = .error .outOfFuel := by
  unfold divmod divmodWith
  rw [beq_zero_false hx hz]
  simp only [Bool.false_eq_true, if_false]
  have h2 : a.abs.lt x.abs = false := by
    unfold lt
    rw [compare_length_gt _ _ rfl rfl (by simp [abs]; omega)]
    decide
  rw [h2]
  simp only [Bool.false_eq_true, if_false]
  exact divmodBody_short_divisor F fuel a x hx hz hm hn

end BigInteger

namespace BigInteger

/-- C1 (fails on the code): the Newton branch of `divmod` does not meet the
division contract.  (1) For the dividend `10^264` (34 digits) and the divisor
`1`, `divmod` returns nothing, whatever the FFT routines and however much
fuel: `divmod` and `newton_inv` call each other forever.  (2) For the
negative dividend `-(10^8)^42` and a 9-digit divisor, with exact products,
`divmod` returns a pair `(q, r)` with `a ≠ q·d + r` and `|r| ≥ |d|`, because
the remainder is computed from `*this` instead of `|*this|`. -/
theorem divmod_newton_branch_fails :
    (∀ (F : FFT) (fuel : Nat),
      divmod F fuel ⟨List.replicate 33 0 ++ [1], true⟩ ⟨[1], true⟩ = .error .outOfFuel) ∧
    (divmod exactFFT 50 ⟨List.replicate 42 0 ++ [1], false⟩ ⟨[1, 2, 3, 4, 5, 6, 7, 8, 9], true⟩).map
      (fun p =>
        (decide (val ⟨List.replicate 42 0 ++ [1], false⟩ =
            val p.1 * val ⟨[1, 2, 3, 4, 5, 6, 7, 8, 9], true⟩ + val p.2),
          decide (|val p.2| < |val ⟨[1, 2, 3, 4, 5, 6, 7, 8, 9], true⟩|))) =
      .ok (false, false) := by
  refine ⟨fun F fuel => ?_, by decide!⟩
  exact divmod_short_divisor F fuel _ _ (by decide) (by decide) (by decide) (by decide)

/-- C7 (fails on the code): `sqrt` of zero does not return `0`.  The Heron
loop of `sqrt_normal` halves `x0` down to `0` and then divides by it, so the
call ends in `ZeroDivisionError`. -/
theorem sqrt_zero_raises :
    ∀ F : FFT, sqrt F 100 ⟨[0], true⟩ = .error .zeroDivision := by
  intro F
  rfl

/-- C8 (fails on the code): `root` accepts a negative operand with an odd
order but does not return its root.  For `a = -8` and `m = 3` every test
`mid.pow(3) <= a` of the binary search fails and the result is `0`, while
`0^3 ≤ -8` is false (the integer with `r^3 ≤ -8 < (r+1)^3` is `-2`). -/
theorem root_negative_odd_wrong :
    (∀ F : FFT, root F 100 ⟨[8], false⟩ 3 = .ok ⟨[0], true⟩) ∧
    ¬ (val ⟨[0], true⟩ ^ 3 ≤ val ⟨[8], false⟩) ∧
    ((-2 : Int) ^ 3 ≤ val ⟨[8], false⟩ ∧ val ⟨[8], false⟩ < (-2 + 1 : Int) ^ 3) := by
  refine ⟨fun F => ?_, by decide, by decide⟩
  rfl

end BigInteger

namespace BigInteger

/-! ### Which exceptions a function can raise -/

theorem avoids_ok {α : Type} (e : Err) (a : α) : Avoids e (Except.ok a : Except Err α) := by
  intro h; cases h

theorem avoids_pure {α : Type} (e : Err) (a : α) : Avoids e (pure a : Except Err α) := by
  intro h; cases h

theorem avoids_error {α : Type} {e e' : Err} (h : e' ≠ e) :
    Avoids e (Except.error e' : Except Err α) := by
  intro hc; cases hc; exact h rfl

theorem avoids_bind {α β : Type} {e : Err} {x : Except Err α} {f : α → Except Err β}
    (hx : Avoids e x) (hf : ∀ a, Avoids e (f a)) : Avoids e (x >>= f) := by
  cases x with
  | error e' =>
    intro hc
    apply hx
    cases hc
    rfl
  | ok a => exact hf a

theorem avoids_map {α β : Type} {e : Err} {x : Except Err α} (g : α → β)
    (hx : Avoids e x) : Avoids e (x.map g) := by
  cases x with
  | error e' =>
    intro hc
    apply hx
    cases hc
    rfl
  | ok a => intro hc; simp [Except.map] at hc

theorem addSubInt32_avoids {e : Err} (he : e ≠ .outOfFuel) :
    ∀ (f : Nat) (sel : Bool) (a : BigInteger) (x : Int), Avoids e (addSubInt32 f sel a x) := by
  intro f
  induction f with
  | zero =>
    intro sel a x
    cases sel <;> exact avoids_error (Ne.symm he)
  | succ f ih =>
    intro sel a x
    cases sel
    · simp only [addSubInt32]
      split_ifs
      · exact avoids_ok _ _
      · exact ih _ _ _
      · exact avoids_map _ (ih _ _ _)
      · exact avoids_ok _ _
      · exact avoids_ok _ _
    · simp only [addSubInt32]
      split_ifs
      · exact avoids_ok _ _
      · exact ih _ _ _
      · exact avoids_map _ (ih _ _ _)
      · exact avoids_ok _ _

theorem fixLoop_avoids {e : Err} (he : e ≠ .outOfFuel) (b : BigInteger) :
    ∀ (f : Nat) (r : BigInteger) (d : Int), Avoids e (fixLoop b f r d) := by
  intro f
  induction f with
  | zero =>
    intro r d
    simp only [fixLoop]
    split_ifs
    · exact avoids_error (Ne.symm he)
    · exact avoids_ok _ _
  | succ f ih =>
    intro r d
    simp only [fixLoop]
    split_ifs
    · exact ih _ _
    · exact avoids_ok _ _

theorem knuthLoop_avoids {e : Err} (he : e ≠ .outOfFuel) (fuel : Nat) (b : BigInteger) (m : Nat) :
    ∀ (l : List Int) (r : BigInteger), Avoids e (knuthLoop fuel b m l r) := by
  intro l
  induction l with
  | nil => intro r; exact avoids_ok _ _
  | cons ai rest ih =>
    intro r
    simp only [knuthLoop]
    refine avoids_bind (addSubInt32_avoids he _ _ _ _) (fun r1 => ?_)
    refine avoids_bind (fixLoop_avoids he _ _ _ _) (fun rd => ?_)
    refine avoids_bind (ih _) (fun qr => ?_)
    exact avoids_pure _ _

theorem corrLoop_avoids {e : Err} (he : e ≠ .outOfFuel) (fuel : Nat) (b : BigInteger) :
    ∀ (f : Nat) (q r : BigInteger), Avoids e (corrLoop fuel b f q r) := by
  intro f
  induction f with
  | zero =>
    intro q r
    simp only [corrLoop]
    split_ifs
    · exact avoids_error (Ne.symm he)
    · exact avoids_ok _ _
  | succ f ih =>
    intro q r
    simp only [corrLoop]
    split_ifs
    · exact avoids_bind (addSubInt32_avoids he _ _ _ _) (fun q1 => ih _ _)
    · exact avoids_ok _ _

theorem divInt64_avoids {e : Err} (he : e ≠ .zeroDivision) (a : BigInteger) (x : Int) :
    Avoids e (divInt64 a x) := by
  unfold divInt64
  split_ifs <;> first | exact avoids_error (Ne.symm he) | exact avoids_ok _ _

theorem divInt64_ne_zero (e : Err) (a : BigInteger) {x : Int} (hx : x ≠ 0) :
    Avoids e (divInt64 a x) := by
  unfold divInt64
  rw [if_neg hx]
  split_ifs <;> exact avoids_ok _ _

end BigInteger

namespace BigInteger

/-! ### Divisors that are not zero -/

theorem incLoop_spec : ∀ l : List Int, InRange l →
    InRange (incLoop l) ∧ mag (incLoop l) = mag l + 1 := by
  intro l
  induction l with
  | nil =>
    intro _
    refine ⟨?_, by simp [incLoop, mag]⟩
    intro d hd
    simp only [incLoop, List.mem_singleton] at hd
    rw [hd]; decide
  | cons d ds ih =>
    intro h
    have hd := h d (List.mem_cons_self _ _)
    have hd1 : d < 100000000 := hd.2
    have htl : InRange ds := fun e he => h e (List.mem_cons_of_mem _ he)
    simp only [incLoop]
    split_ifs with hlt
    · refine ⟨?_, by simp only [mag_cons]; ring⟩
      intro e he
      rcases List.mem_cons.mp he with h1 | h1
      · rw [h1]; exact ⟨by omega, hlt⟩
      · exact htl e h1
    · obtain ⟨i1, i2⟩ := ih htl
      have hlt' : ¬ d + 1 < 100000000 := hlt
      refine ⟨?_, by simp only [mag_cons, i2]; ring⟩
      intro e he
      rcases List.mem_cons.mp he with h1 | h1
      · rw [h1]
        show 0 ≤ d + 1 - (100000000 : Int) ∧ d + 1 - (100000000 : Int) < 100000000
        omega
      · exact i1 e h1

theorem addInt32_pos (f : Nat) (a : BigInteger) (x : Int) (ha : a.flag = true) (hx : 0 < x) :
    addInt32 (f + 1) a x = .ok (addSmallMain a x) := by
  unfold addInt32
  simp only [addSubInt32]
  rw [if_neg (by omega), if_neg (by omega)]
  simp [negative, ha]

theorem good_zero_false {x : BigInteger} (h : Good x) : x.zero = false := h.2

theorem good_of_digits {x y : BigInteger} (h : Good x) (hd : y.digits = x.digits) : Good y := by
  refine ⟨hd ▸ h.1, ?_⟩
  have := h.2
  unfold zero get at this ⊢
  rw [hd]; exact this

theorem good_last {x : BigInteger} (h : Good x) :
    ∃ t, x.digits.getLast? = some t ∧ t ≠ 0 := by
  obtain ⟨⟨hne, hr, hlast⟩, hz⟩ := h
  cases hg : x.digits.getLast? with
  | none => exact absurd (List.getLast?_eq_none_iff.mp hg) hne
  | some t =>
    refine ⟨t, rfl, ?_⟩
    intro ht
    subst ht
    by_cases hl : 1 < x.digits.length
    · exact hlast hl hg
    · have hlen : x.digits.length = 1 := by
        have := List.length_pos.mpr hne; omega
      obtain ⟨d, hd⟩ := List.length_eq_one.mp hlen
      rw [hd] at hg
      simp only [List.getLast?_singleton, Option.some.injEq] at hg
      have : x.zero = true := (zero_iff x).mpr (by rw [hd, hg])
      rw [hz] at this; exact absurd this (by decide)

theorem good_of_last {l : List Int} (hr : InRange l) {t : Int} (hl : l.getLast? = some t)
    (ht : t ≠ 0) : Good ⟨l, true⟩ := by
  have hne : l ≠ [] := by
    intro hc; rw [hc] at hl; simp at hl
  refine ⟨⟨hne, hr, ?_⟩, ?_⟩
  · intro _ hc
    rw [hl] at hc
    exact ht (Option.some.inj hc)
  · cases hz : (BigInteger.mk l true).zero
    · rfl
    · have := (zero_iff _).mp hz
      simp only at this
      rw [this] at hl
      simp only [List.getLast?_singleton, Option.some.injEq] at hl
      exact absurd hl.symm ht

theorem good_move_r {x : BigInteger} (h : Good x) (k : Int) (hk : k < x.digits.length) :
    Good (x._move_r k) := by
  obtain ⟨t, ht, ht0⟩ := good_last h
  have hpos := length_pos_of_digitsOk h.1
  have hlt : k.toNat < x.digits.length := by omega
  have hr : InRange (x.digits.drop k.toNat) := fun d hd => h.1.inRange d (List.mem_of_mem_drop hd)
  have hl : (x.digits.drop k.toNat).getLast? = some t := by
    rw [List.getLast?_drop, if_neg (by omega), ht]
  have hg := good_of_last hr hl ht0
  unfold _move_r
  rw [ofVec_digitsOk hg.1]
  exact hg

theorem good_addSmallMain_one {b : BigInteger} (h : Good b) : Good (addSmallMain b 1) := by
  obtain ⟨t, ht, ht0⟩ := good_last h
  obtain ⟨⟨hne, hr, hlast⟩, hz⟩ := h
  obtain ⟨ds, fl⟩ := b
  cases ds with
  | nil => exact absurd rfl hne
  | cons d ds =>
    have hd := hr d (List.mem_cons_self _ _)
    have hd1 : d < 100000000 := hd.2
    have htl : InRange ds := fun e he => hr e (List.mem_cons_of_mem _ he)
    unfold addSmallMain
    simp only [get, List.getD_cons_zero, List.tail_cons]
    split_ifs with hlt
    · have hr' : InRange ((d + 1) :: ds) := by
        intro e he
        rcases List.mem_cons.mp he with h1 | h1
        · rw [h1]; exact ⟨by omega, hlt⟩
        · exact htl e h1
      cases ds with
      | nil =>
        have hd0 := hd.1
        exact good_of_digits (good_of_last (l := [d + 1]) (t := d + 1) hr' (by simp)
          (by omega)) rfl
      | cons e es =>
        have hl2 : ((d + 1) :: e :: es).getLast? = some t := by
          rw [List.getLast?_cons_cons]
          simp only at ht
          rw [List.getLast?_cons_cons] at ht
          exact ht
        exact good_of_digits (good_of_last hr' hl2 ht0) rfl
    · obtain ⟨i1, i2⟩ := incLoop_spec ds htl
      have hlt' : ¬ d + 1 < 100000000 := hlt
      have hr' : InRange ((d + 1 - BASE) :: incLoop ds) := by
        intro e he
        rcases List.mem_cons.mp he with h1 | h1
        · rw [h1]
          show 0 ≤ d + 1 - (100000000 : Int) ∧ d + 1 - (100000000 : Int) < 100000000
          omega
        · exact i1 e h1
      have hok := digitsOk_trimDigits _ (List.cons_ne_nil _ _) hr'
      refine ⟨hok, ?_⟩
      cases hz' : (BigInteger.mk (trimDigits ((d + 1 - BASE) :: incLoop ds)) fl).zero
      · rfl
      · exfalso
        have h0 := (zero_iff _).mp hz'
        simp only at h0
        have hm : mag (trimDigits ((d + 1 - BASE) :: incLoop ds)) = 0 := by rw [h0]; rfl
        rw [mag_trimDigits, mag_cons, i2] at hm
        have hnn := mag_nonneg ds htl.nonneg
        have hB : BASE = 100000000 := rfl
        rw [hB] at hm
        omega

theorem back_range {x : BigInteger} (h : DigitsOk x.digits) : 0 ≤ x.back ∧ x.back < BASE := by
  unfold back
  rw [List.getLastD_eq_getLast?]
  cases hg : x.digits.getLast? with
  | none => exact absurd (List.getLast?_eq_none_iff.mp hg) h.1
  | some t => exact h.inRange t (List.mem_of_getLast?_eq_some hg)

/-- The scaling factor `t = BASE / (x.digits.back() + 1)` of the schoolbook
branch is never zero. -/
theorem scale_ne_zero {x : BigInteger} (h : DigitsOk x.digits) :
    wrap32 (BASE.tdiv (x.back + 1)) ≠ 0 := by
  obtain ⟨h0, h1⟩ := back_range h
  have h1' : x.back < 100000000 := h1
  have hB : BASE = 100000000 := rfl
  rw [Int.tdiv_eq_ediv (by decide) (by omega), hB]
  have hq1 : 1 ≤ (100000000 : Int) / (x.back + 1) :=
    Int.le_ediv_of_mul_le (by omega) (by omega)
  have hq2 : (100000000 : Int) / (x.back + 1) ≤ 100000000 :=
    Int.ediv_le_self _ (by decide)
  unfold wrap32
  omega

end BigInteger

namespace BigInteger

theorem avoids_bind_of {α β : Type} {e : Err} {x : Except Err α} {f : α → Except Err β}
    (hx : Avoids e x) (hf : ∀ a, x = .ok a → Avoids e (f a)) : Avoids e (x >>= f) := by
  cases x with
  | error e' =>
    intro hc
    apply hx
    cases hc
    rfl
  | ok a => exact hf a rfl

theorem newton_inv_avoids (F : FFT) {e : Err} (he : e ≠ .outOfFuel)
    (dm : BigInteger → BigInteger → Except Err (BigInteger × BigInteger))
    (hdm : ∀ p x, (e = .zeroDivision → Good x) → Avoids e (dm p x)) :
    ∀ (f : Nat) (x : BigInteger) (n : Int), (e = .zeroDivision → Good x) →
      Avoids e (newton_inv F dm f x n) := by
  intro f
  induction f with
  | zero => intro x n _; exact avoids_error (Ne.symm he)
  | succ f ih =>
    intro x n hx
    simp only [newton_inv]
    by_cases hz : x.zero = true
    · rw [if_pos hz]
      by_cases hzd : e = .zeroDivision
      · have := (hx hzd).2
        rw [hz] at this; exact absurd this (by decide)
      · exact avoids_error (Ne.symm hzd)
    · rw [if_neg hz]
      by_cases hmin : min (x.digits.length : Int) (n - x.digits.length) ≤ NEWTON_DIV_MIN_LEVEL
      · rw [if_pos hmin]
        exact avoids_bind (hdm _ _ hx) (fun qr => avoids_pure _ _)
      · rw [if_neg hmin]
        refine avoids_bind (ih _ _ ?_) (fun y => addSubInt32_avoids he _ _ _ _)
        intro hzd
        apply good_move_r (hx hzd)
        have hsz : (0 : Int) < x.digits.length := by
          have := length_pos_of_digitsOk (hx hzd).1; omega
        unfold NEWTON_DIV_MIN_LEVEL at hmin
        split_ifs <;> omega

theorem divmodWith_avoids {e : Err}
    (body : BigInteger → BigInteger → Except Err (BigInteger × BigInteger))
    (hbody : ∀ p x, (e = .zeroDivision → Good x) → Avoids e (body p x))
    (p x : BigInteger) (hx : e = .zeroDivision → Good x) : Avoids e (divmodWith body p x) := by
  unfold divmodWith
  by_cases hz : x.abs.beq (ofInt64 0) = true
  · rw [if_pos hz]
    by_cases hzd : e = .zeroDivision
    · have := beq_zero_false (hx hzd).1 (hx hzd).2
      rw [hz] at this; exact absurd this (by decide)
    · exact avoids_error (Ne.symm hzd)
  · rw [if_neg hz]
    by_cases hlt : p.abs.lt x.abs = true
    · rw [if_pos hlt]; exact avoids_ok _ _
    · rw [if_neg hlt]; exact hbody p x hx

/-- The body of `divmod` raises nothing but `ZeroDivisionError`, and not
even that when the divisor is in canonical shape and not zero. -/
theorem divmodBody_avoids (F : FFT) {e : Err} (he : e ≠ .outOfFuel) :
    ∀ (f : Nat) (p x : BigInteger), (e = .zeroDivision → Good x) →
      Avoids e (divmodBody F f p x) := by
  intro f
  induction f with
  | zero => intro p x _; exact avoids_error (Ne.symm he)
  | succ f ih =>
    intro p x hx
    simp only [divmodBody]
    by_cases hnewton : min (p.abs.digits.length : Int)
        ((p.abs.digits.length : Int) - x.abs.digits.length) > NEWTON_DIV_LIMIT
    · -- the Newton branch
      rw [if_pos hnewton]
      have hgood : e = .zeroDivision → Good (x.abs._move_r (max 0 ((x.abs.digits.length : Int) -
          ((p.abs.digits.length : Int) - x.abs.digits.length + 2)))) := by
        intro hzd
        have hg : Good x.abs := good_of_digits (hx hzd) rfl
        apply good_move_r hg
        have hsz : (0 : Int) < x.abs.digits.length := by
          have := length_pos_of_digitsOk hg.1; omega
        unfold NEWTON_DIV_LIMIT at hnewton
        omega
      split_ifs with hk2
      · refine avoids_bind_of (addSubInt32_avoids he _ _ _ _) (fun b2 hb2 => ?_)
        have hb2good : e = .zeroDivision → Good b2 := by
          intro hzd
          cases f with
          | zero => cases hb2
          | succ g =>
            rw [addInt32_pos g _ 1 rfl (by decide)] at hb2
            cases hb2
            exact good_addSmallMain_one (hgood hzd)
        exact avoids_bind
          (newton_inv_avoids F he _ (fun q y hy => divmodWith_avoids _ ih q y hy) _ _ _ hb2good)
          (fun inv => avoids_bind (corrLoop_avoids he _ _ _ _ _) (fun qr => avoids_pure _ _))
      · refine avoids_bind_of (avoids_pure _ _) (fun b2 hb2 => ?_)
        have hb2good : e = .zeroDivision → Good b2 := by
          intro hzd
          cases hb2
          exact hgood hzd
        exact avoids_bind
          (newton_inv_avoids F he _ (fun q y hy => divmodWith_avoids _ ih q y hy) _ _ _ hb2good)
          (fun inv => avoids_bind (corrLoop_avoids he _ _ _ _ _) (fun qr => avoids_pure _ _))
    · -- the schoolbook branch
      rw [if_neg hnewton]
      refine avoids_bind (knuthLoop_avoids he _ _ _ _ _) (fun qr => ?_)
      refine avoids_bind ?_ (fun rt => avoids_pure _ _)
      by_cases hzd : e = .zeroDivision
      · exact divInt64_ne_zero e _ (scale_ne_zero (hx hzd).1)
      · exact divInt64_avoids hzd _ _

theorem divmod_avoids (F : FFT) {e : Err} (he : e ≠ .outOfFuel) (fuel : Nat) (p x : BigInteger)
    (hx : e = .zeroDivision → Good x) : Avoids e (divmod F fuel p x) :=
  divmodWith_avoids _ (divmodBody_avoids F he fuel) p x hx

theorem div_avoids (F : FFT) {e : Err} (he : e ≠ .outOfFuel) (fuel : Nat) (p x : BigInteger)
    (hx : e = .zeroDivision → Good x) : Avoids e (div F fuel p x) :=
  avoids_map _ (divmod_avoids F he fuel p x hx)

end BigInteger

namespace BigInteger

theorem map_eq_error_iff {α β : Type} (g : α → β) (x : Except Err α) (e : Err) :
    x.map g = .error e ↔ x = .error e := by
  cases x with
  | error e' =>
    constructor
    · intro h; cases h; rfl
    · intro h; cases h; rfl
  | ok a =>
    constructor
    · intro h; cases h
    · intro h; cases h

theorem val_eq_zero_iff {d : BigInteger} (hd : DigitsOk d.digits) : val d = 0 ↔ d.zero = true := by
  rw [zero_iff]
  constructor
  · intro h
    apply digitsOk_mag_zero hd
    unfold val at h
    split_ifs at h <;> omega
  · intro h
    unfold val
    rw [h]
    split_ifs <;> rfl

theorem divmod_zero_divisor (F : FFT) (fuel : Nat) (a d : BigInteger) (hz : d.zero = true) :
    divmod F fuel a d = .error .zeroDivision := by
  have hd := (zero_iff d).mp hz
  unfold divmod divmodWith
  have : d.abs.beq (ofInt64 0) = true := by
    unfold abs
    rw [hd]
    decide
  rw [if_pos this]

/-- C2: `divmod`, `operator/`, `operator%` and the scalar `operator/=`
raise `ZeroDivisionError` exactly when the divisor is zero: for every
dividend they raise it when the divisor is `0`, and for a divisor that is
not zero they never raise it (whatever the FFT routines return and however
long the call runs). -/
theorem zero_division_iff (F : FFT) (fuel : Nat) (a d : BigInteger) (hd : DigitsOk d.digits) :
    (divmod F fuel a d = .error .zeroDivision ↔ val d = 0) ∧
    (div F fuel a d = .error .zeroDivision ↔ val d = 0) ∧
    (mod F fuel a d = .error .zeroDivision ↔ val d = 0) ∧
    (∀ k : Int, divInt64 a k = .error .zeroDivision ↔ k = 0) := by
  have key : divmod F fuel a d = .error .zeroDivision ↔ val d = 0 := by
    rw [val_eq_zero_iff hd]
    constructor
    · intro h
      by_contra hz
      have hz' : d.zero = false := by simpa using hz
      exact divmod_avoids F (by decide) fuel a d (fun _ => ⟨hd, hz'⟩) h
    · exact divmod_zero_divisor F fuel a d
  refine ⟨key, ?_, ?_, ?_⟩
  · unfold div; rw [map_eq_error_iff]; exact key
  · unfold mod; rw [map_eq_error_iff]; exact key
  · intro k
    constructor
    · intro h
      by_contra hk
      exact divInt64_ne_zero _ a hk h
    · intro hk
      unfold divInt64
      rw [if_pos hk]

theorem zero_division_iff_witness :
    DigitsOk (BigInteger.mk [7, 3] false).digits ∧
    ((divmod exactFFT 20 ⟨[5, 4, 3, 2, 1], true⟩ ⟨[7, 3], false⟩ = .error .zeroDivision ↔
        val ⟨[7, 3], false⟩ = 0) ∧
      (div exactFFT 20 ⟨[5, 4, 3, 2, 1], true⟩ ⟨[7, 3], false⟩ = .error .zeroDivision ↔
        val ⟨[7, 3], false⟩ = 0) ∧
      (mod exactFFT 20 ⟨[5, 4, 3, 2, 1], true⟩ ⟨[7, 3], false⟩ = .error .zeroDivision ↔
        val ⟨[7, 3], false⟩ = 0) ∧
      (∀ k : Int, divInt64 ⟨[5, 4, 3, 2, 1], true⟩ k = .error .zeroDivision ↔ k = 0)) :=
  ⟨by decide, zero_division_iff exactFFT 20 ⟨[5, 4, 3, 2, 1], true⟩ ⟨[7, 3], false⟩ (by decide)⟩

end BigInteger

namespace BigInteger

/-! ### Exceptions of `pow`, `sqrt` and `root` -/

theorem powLoop_avoids (F : FFT) {e : Err} (he : e ≠ .outOfFuel) :
    ∀ (f : Nat) (b : Int) (a res : BigInteger), Avoids e (powLoop F f b a res) := by
  intro f
  induction f with
  | zero =>
    intro b a res
    simp only [powLoop]
    split_ifs
    · exact avoids_ok _ _
    · exact avoids_error (Ne.symm he)
  | succ f ih =>
    intro b a res
    simp only [powLoop]
    split_ifs <;> first | exact avoids_ok _ _ | exact ih _ _ _

theorem pow_avoids (F : FFT) {e : Err} (he : e ≠ .outOfFuel) (a : BigInteger) (b : Int) :
    Avoids e (pow F a b) :=
  powLoop_avoids F he _ _ _ _

theorem powLe_avoids (F : FFT) {e : Err} (he : e ≠ .outOfFuel) (self : BigInteger) (m : Int)
    (c : BigInteger) : Avoids e (powLe F self m c) :=
  avoids_map _ (pow_avoids F he c m)

theorem bsearch_avoids {e : Err} (he : e ≠ .outOfFuel) (p : Int → Except Err Bool)
    (hp : ∀ mid, Avoids e (p mid)) :
    ∀ (f : Nat) (l r : Int), Avoids e (bsearch p f l r) := by
  intro f
  induction f with
  | zero =>
    intro l r
    simp only [bsearch]
    split_ifs
    · exact avoids_error (Ne.symm he)
    · exact avoids_ok _ _
  | succ f ih =>
    intro l r
    simp only [bsearch]
    split_ifs
    · refine avoids_bind (hp _) (fun ok => ?_)
      split_ifs <;> exact ih _ _
    · exact avoids_ok _ _

theorem div_avoids' (F : FFT) {e : Err} (he : e ≠ .outOfFuel) (hz : e ≠ .zeroDivision)
    (fuel : Nat) (p x : BigInteger) : Avoids e (div F fuel p x) :=
  div_avoids F he fuel p x (fun h => absurd h hz)

theorem heronLoop_avoids (F : FFT) {e : Err} (he : e ≠ .outOfFuel) (hz : e ≠ .zeroDivision)
    (fuel : Nat) (self : BigInteger) :
    ∀ (f : Nat) (x x0 : BigInteger), Avoids e (heronLoop F fuel self f x x0) := by
  intro f
  induction f with
  | zero =>
    intro x x0
    simp only [heronLoop]
    split_ifs
    · exact avoids_error (Ne.symm he)
    · exact avoids_ok _ _
  | succ f ih =>
    intro x x0
    simp only [heronLoop]
    split_ifs
    · exact avoids_bind (div_avoids' F he hz _ _ _) (fun q => ih _ _)
    · exact avoids_ok _ _

theorem sqrt_normal_avoids (F : FFT) {e : Err} (he : e ≠ .outOfFuel) (hz : e ≠ .zeroDivision)
    (fuel : Nat) (self : BigInteger) : Avoids e (sqrt_normal F fuel self) := by
  unfold sqrt_normal
  exact avoids_bind (div_avoids' F he hz _ _ _) (fun q => heronLoop_avoids F he hz _ _ _ _ _)

theorem invsqrtDown_avoids (F : FFT) {e : Err} (he : e ≠ .outOfFuel) (self : BigInteger) :
    ∀ (f : Nat) (x2 rx delta : BigInteger), Avoids e (invsqrtDown F self f x2 rx delta) := by
  intro f
  induction f with
  | zero =>
    intro x2 rx delta
    simp only [invsqrtDown]
    split_ifs
    · exact avoids_error (Ne.symm he)
    · exact avoids_ok _ _
  | succ f ih =>
    intro x2 rx delta
    simp only [invsqrtDown]
    split_ifs
    · exact ih _ _ _
    · exact avoids_ok _ _

theorem invsqrtUp_avoids (F : FFT) {e : Err} (he : e ≠ .outOfFuel) (self : BigInteger) :
    ∀ (f : Nat) (x2 rx delta : BigInteger), Avoids e (invsqrtUp F self f x2 rx delta) := by
  intro f
  induction f with
  | zero => intro x2 rx delta; exact avoids_error (Ne.symm he)
  | succ f ih =>
    intro x2 rx delta
    simp only [invsqrtUp]
    split_ifs
    · exact avoids_ok _ _
    · exact ih _ _ _

theorem invsqrtFine_avoids (F : FFT) {e : Err} (he : e ≠ .outOfFuel) (self : BigInteger) :
    ∀ (f : Nat) (x2 rx delta : BigInteger), Avoids e (invsqrtFine F self f x2 rx delta) := by
  intro f
  induction f with
  | zero =>
    intro x2 rx delta
    simp only [invsqrtFine]
    split_ifs
    · exact avoids_error (Ne.symm he)
    · exact avoids_ok _ _
  | succ f ih =>
    intro x2 rx delta
    simp only [invsqrtFine]
    split_ifs <;> first | exact ih _ _ _ | exact avoids_ok _ _

theorem newton_invsqrt_avoids (F : FFT) {e : Err} (he : e ≠ .outOfFuel) (hz : e ≠ .zeroDivision)
    (fuel : Nat) : ∀ (f : Nat) (self : BigInteger), Avoids e (newton_invsqrt F fuel f self) := by
  intro f
  induction f with
  | zero => intro self; exact avoids_error (Ne.symm he)
  | succ f ih =>
    intro self
    simp only [newton_invsqrt]
    split_ifs
    · exact avoids_bind (sqrt_normal_avoids F he hz _ _) (fun s => div_avoids' F he hz _ _ _)
    · refine avoids_bind (ih _) (fun s0 => ?_)
      split_ifs
      · exact avoids_bind (invsqrtDown_avoids F he _ _ _ _ _)
          (fun st => invsqrtFine_avoids F he _ _ _ _ _)
      · exact avoids_bind (invsqrtUp_avoids F he _ _ _ _ _)
          (fun st => invsqrtFine_avoids F he _ _ _ _ _)

theorem sqrtUp_avoids (F : FFT) {e : Err} (he : e ≠ .outOfFuel) :
    ∀ (f : Nat) (res r delta : BigInteger), Avoids e (sqrtUp F f res r delta) := by
  intro f
  induction f with
  | zero => intro res r delta; exact avoids_error (Ne.symm he)
  | succ f ih =>
    intro res r delta
    simp only [sqrtUp]
    split_ifs
    · exact avoids_ok _ _
    · exact ih _ _ _

theorem sqrtFine_avoids (F : FFT) {e : Err} (he : e ≠ .outOfFuel) :
    ∀ (f : Nat) (res r delta : BigInteger), Avoids e (sqrtFine F f res r delta) := by
  intro f
  induction f with
  | zero =>
    intro res r delta
    simp only [sqrtFine]
    split_ifs
    · exact avoids_error (Ne.symm he)
    · exact avoids_ok _ _
  | succ f ih =>
    intro res r delta
    simp only [sqrtFine]
    split_ifs <;> first | exact ih _ _ _ | exact avoids_ok _ _

/-- After its first statement `sqrt` cannot raise `NegativeRadicandError`. -/
theorem sqrt_avoids (F : FFT) (fuel : Nat) (self : BigInteger) (h : self.negative = false) :
    Avoids .negativeRadicand (sqrt F fuel self) := by
  unfold sqrt
  rw [h]
  simp only [Bool.false_eq_true, if_false]
  split_ifs
  · exact sqrt_normal_avoids F (by decide) (by decide) _ _
  · refine avoids_bind (newton_invsqrt_avoids F (by decide) (by decide) _ _ _) (fun inv => ?_)
    exact avoids_bind (sqrtUp_avoids F (by decide) _ _ _ _) (fun st => sqrtFine_avoids F (by decide) _ _ _ _)
  · refine avoids_bind (newton_invsqrt_avoids F (by decide) (by decide) _ _ _) (fun inv => ?_)
    exact avoids_bind (sqrtUp_avoids F (by decide) _ _ _ _) (fun st => sqrtFine_avoids F (by decide) _ _ _ _)

end BigInteger

namespace BigInteger

theorem move_r_negative (a : BigInteger) (k : Int) : (a._move_r k).negative = false := rfl

/-- Past its first statement `root` cannot raise `NegativeRadicandError`. -/
theorem rootBody_avoids (F : FFT) :
    ∀ (f : Nat) (self : BigInteger) (m : Int), 0 < m →
      (m.tmod 2 = 0 → self.negative = false) →
      Avoids .negativeRadicand (rootBody F f self m) := by
  intro f
  induction f with
  | zero => intro self m _ _; exact avoids_error (by decide)
  | succ f ih =>
    intro self m hm hneg
    simp only [rootBody]
    by_cases h1 : (m = 1 || self.zero) = true
    · rw [if_pos h1]; exact avoids_ok _ _
    · rw [if_neg h1]
      by_cases h2 : m = 2
      · rw [if_pos h2]
        exact sqrt_avoids F f self (hneg (by rw [h2]; decide))
      · rw [if_neg h2]
        have hfuel : Err.negativeRadicand ≠ Err.outOfFuel := by decide
        have hzd : Err.negativeRadicand ≠ Err.zeroDivision := by decide
        split_ifs
        · exact avoids_bind
            (bsearch_avoids hfuel _ (fun mid => powLe_avoids F hfuel _ _ _) _ _ _)
            (fun l => avoids_pure _ _)
        · refine avoids_bind
            (bsearch_avoids hfuel _ (fun mid => powLe_avoids F hfuel _ _ _) _ _ _) (fun hi => ?_)
          exact avoids_bind
            (bsearch_avoids hfuel _ (fun mid => powLe_avoids F hfuel _ _ _) _ _ _)
            (fun lo => avoids_pure _ _)
        · have hrec : Avoids .negativeRadicand
              (rootWith (rootBody F f) (self._move_r ((((self.digits.length : Int)).tdiv m).tdiv 2 * m))
                m) := by
            unfold rootWith
            rw [move_r_negative]
            have : (decide (m ≤ 0) || (m.tmod 2 == 0 && false)) = false := by
              simp only [Bool.and_false, Bool.or_false, decide_eq_false_iff_not]
              omega
            rw [this]
            simp only [Bool.false_eq_true, if_false]
            exact ih _ _ hm (fun _ => move_r_negative _ _)
          refine avoids_bind hrec (fun r0 => ?_)
          refine avoids_bind (addSubInt32_avoids hfuel _ _ _ _) (fun r1 => ?_)
          refine avoids_bind (pow_avoids F hfuel _ _) (fun sp => ?_)
          refine avoids_bind (div_avoids' F hfuel hzd _ _ _) (fun q => ?_)
          refine avoids_bind (divInt64_avoids hzd _ _) (fun res => ?_)
          exact avoids_bind
            (bsearch_avoids hfuel _ (fun mid => powLe_avoids F hfuel _ _ _) _ _ _)
            (fun l => avoids_pure _ _)

theorem canonical_negative_iff {a : BigInteger} (ha : Canonical a) :
    a.negative = true ↔ val a < 0 := by
  have h := canonical_flag_iff ha
  unfold negative
  cases hf : a.flag
  · rw [hf] at h
    simp only [Bool.not_false, true_iff]
    by_contra hc
    exact absurd (h.mpr (by omega)) (by decide)
  · rw [hf] at h
    simp only [Bool.not_true, Bool.false_eq_true, false_iff]
    have := h.mp rfl
    omega

/-- On canonical operands `sqrt` raises `NegativeRadicandError` exactly when
the operand is negative, and `root(m)` raises it exactly when `m ≤ 0` or `m`
is even and the operand is negative (whatever the FFT routines return and
however long the call runs).  The hypothesis excludes the value `[0]` with the
flag cleared. -/
theorem negative_radicand_canonical (F : FFT) (fuel : Nat) (a : BigInteger) (m : Int)
    (ha : Canonical a) :
    (sqrt F fuel a = .error .negativeRadicand ↔ val a < 0) ∧
    (root F fuel a m = .error .negativeRadicand ↔ (m ≤ 0 ∨ (m % 2 = 0 ∧ val a < 0))) := by
  have hn := canonical_negative_iff ha
  constructor
  · rw [← hn]
    constructor
    · intro h
      by_contra hc
      have hc' : a.negative = false := by simpa using hc
      exact sqrt_avoids F fuel a hc' h
    · intro h
      unfold sqrt
      rw [if_pos h]
  · rw [← hn]
    unfold root rootWith
    by_cases hm : m ≤ 0
    · have : (decide (m ≤ 0) || (m.tmod 2 == 0 && a.negative)) = true := by
        simp [hm]
      rw [if_pos this]
      simp [hm]
    · have hmod : m.tmod 2 = m % 2 := Int.tmod_eq_emod (by omega) (by decide)
      by_cases hg : m % 2 = 0 ∧ a.negative = true
      · have : (decide (m ≤ 0) || (m.tmod 2 == 0 && a.negative)) = true := by
          rw [hmod, hg.1, hg.2]; simp
        rw [if_pos this]
        simp [hg]
      · have : (decide (m ≤ 0) || (m.tmod 2 == 0 && a.negative)) = false := by
          rw [hmod]
          simp only [Bool.or_eq_false_iff, decide_eq_false_iff_not, Bool.and_eq_false_imp,
            beq_iff_eq]
          refine ⟨hm, fun h0 => ?_⟩
          cases hneg : a.negative
          · rfl
          · exact absurd ⟨h0, hneg⟩ hg
        rw [this]
        simp only [Bool.false_eq_true, if_false]
        constructor
        · intro h
          exfalso
          refine rootBody_avoids F fuel a m (by omega) ?_ h
          intro h0
          rw [hmod] at h0
          cases hneg : a.negative
          · rfl
          · exact absurd ⟨h0, hneg⟩ hg
        · intro h
          rcases h with h | h
          · exact absurd h hm
          · exact absurd h hg

theorem negative_radicand_canonical_witness :
    Canonical ⟨[8], false⟩ ∧
    ((sqrt exactFFT 50 ⟨[8], false⟩ = .error .negativeRadicand ↔ val ⟨[8], false⟩ < 0) ∧
      (root exactFFT 50 ⟨[8], false⟩ 3 = .error .negativeRadicand ↔
        ((3 : Int) ≤ 0 ∨ ((3 : Int) % 2 = 0 ∧ val ⟨[8], false⟩ < 0)))) :=
  ⟨by decide, negative_radicand_canonical exactFFT 50 ⟨[8], false⟩ 3 (by decide)⟩

end BigInteger

namespace BigInteger

/-! ### Binary exponentiation -/

/-- The loop of `pow` multiplies `res` by `a ^ n`, given exact products and
as many rounds as `n` has bits. -/
theorem powLoop_spec (F : FFT) (hmul : MulExact F) (hsq : SquareExact F) :
    ∀ (f n : Nat) (a res : BigInteger), n < 2 ^ f → Canonical a → Canonical res →
      ∃ r, powLoop F f (n : Int) a res = .ok r ∧ Canonical r ∧ val r = val res * val a ^ n := by
  intro f
  induction f with
  | zero =>
    intro n a res hn _ hres
    have h0 : n = 0 := by simpa using hn
    subst h0
    exact ⟨res, by simp [powLoop], hres, by simp⟩
  | succ f ih =>
    intro n a res hn ha hres
    simp only [powLoop]
    by_cases h0 : (n : Int) = 0
    · rw [if_pos h0]
      have : n = 0 := by omega
      subst this
      exact ⟨res, rfl, hres, by simp⟩
    · rw [if_neg h0]
      have hdiv : (n : Int) / 2 = ((n / 2 : Nat) : Int) := by omega
      rw [hdiv]
      obtain ⟨hsa, hsv⟩ := hsq a ha
      have hlt : n / 2 < 2 ^ f := by
        rw [pow_succ] at hn; omega
      have hsplit : n = 2 * (n / 2) + n % 2 := by omega
      by_cases hodd : (n : Int) % 2 = 1
      · rw [if_pos hodd]
        obtain ⟨hma, hmv⟩ := hmul res a hres ha
        obtain ⟨r, hr, hrc, hrv⟩ := ih (n / 2) (square F a) (mul F res a) hlt hsa hma
        refine ⟨r, hr, hrc, ?_⟩
        have hmod : n % 2 = 1 := by omega
        rw [hrv, hmv, hsv]
        conv_rhs => rw [hsplit, hmod, pow_add, pow_mul, pow_one]
        ring
      · rw [if_neg hodd]
        obtain ⟨r, hr, hrc, hrv⟩ := ih (n / 2) (square F a) res hlt hsa hres
        refine ⟨r, hr, hrc, ?_⟩
        have hmod : n % 2 = 0 := by omega
        rw [hrv, hsv]
        conv_rhs => rw [hsplit, hmod, add_zero, pow_mul]
        ring

/-- C10: for an exponent `e` with `0 ≤ e < 2^63` (a non-negative `int64_t`),
and assuming that every multiplication and squaring returns the exact
product, `a.pow(e)` returns a canonical value whose integer value is
`val(a)^e`; in particular `a.pow(0) = 1` (also for `a = 0`) and
`BigInteger(10).pow(1000)` is `10^1000`. -/
theorem pow_spec (F : FFT) (hmul : MulExact F) (hsq : SquareExact F) (a : BigInteger)
    (ha : Canonical a) (e : Int) (h0 : 0 ≤ e) (h1 : e < 2 ^ 63) :
    (∃ r, pow F a e = .ok r ∧ Canonical r ∧ val r = val a ^ e.toNat) ∧
    pow F a 0 = .ok ⟨[1], true⟩ ∧
    (∃ r, pow F (ofInt64 10) 1000 = .ok r ∧ val r = 10 ^ 1000) := by
  have hone : Canonical (ofInt64 1) := by decide
  have hv1 : val (ofInt64 1) = 1 := by decide
  refine ⟨?_, rfl, ?_⟩
  · have hn : e.toNat < 2 ^ 64 := by
      have : (e.toNat : Int) < 2 ^ 64 := by
        rw [Int.toNat_of_nonneg h0]; omega
      exact_mod_cast this
    obtain ⟨r, hr, hrc, hrv⟩ := powLoop_spec F hmul hsq 64 e.toNat a (ofInt64 1) hn ha hone
    rw [Int.toNat_of_nonneg h0] at hr
    exact ⟨r, hr, hrc, by rw [hrv, hv1, one_mul]⟩
  · have hten : Canonical (ofInt64 10) := by decide
    have hv10 : val (ofInt64 10) = 10 := by decide
    obtain ⟨r, hr, _, hrv⟩ := powLoop_spec F hmul hsq 64 1000 (ofInt64 10) (ofInt64 1)
      (by norm_num) hten hone
    exact ⟨r, hr, by rw [hrv, hv1, hv10, one_mul]⟩

end BigInteger

namespace BigInteger

/-- The trimmed schoolbook vector with the XNOR flag is the canonical
product of two canonical values that are not zero. -/
theorem schoolbook_product (a b : BigInteger) (ha : Canonical a) (hb : Canonical b)
    (hza : a.zero = false) (hzb : b.zero = false) :
    Canonical ⟨trimDigits (schoolbook a.digits b.digits), !(xor a.flag b.flag)⟩ ∧
      val ⟨trimDigits (schoolbook a.digits b.digits), !(xor a.flag b.flag)⟩ = val a * val b := by
  obtain ⟨e1, e2, e3⟩ := schoolbook_spec a.digits b.digits ha.1.inRange hb.1.inRange ha.1.1 hb.1.1
  have hpa := mag_pos_of_not_zero ha.1 hza
  have hpb := mag_pos_of_not_zero hb.1 hzb
  have hne : schoolbook a.digits b.digits ≠ [] := by
    intro hc; rw [hc] at e3; simp at e3
  have hmag : mag (trimDigits (schoolbook a.digits b.digits)) = mag a.digits * mag b.digits := by
    rw [mag_trimDigits, e1]
  have hpos : 0 < mag a.digits * mag b.digits := mul_pos hpa hpb
  refine ⟨⟨digitsOk_trimDigits _ hne e2, ?_⟩, ?_⟩
  · intro h0
    exfalso
    have : mag (trimDigits (schoolbook a.digits b.digits)) = 0 := by
      simp only at h0; rw [h0]; rfl
    omega
  · unfold val
    simp only [hmag]
    cases a.flag <;> cases b.flag <;> simp

theorem bool_eq_false_of_not {b : Bool} (h : ¬ b = true) : b = false := by
  cases b
  · rfl
  · exact absurd rfl h

/-- With exact FFT products every `operator*` is exact. -/
theorem mulExact_exactFFT : MulExact exactFFT := by
  intro x y hx hy
  by_cases hz : x.zero = true ∨ y.zero = true
  · have hm : mul exactFFT x y = zeroBig := by
      unfold mul
      rcases hz with h | h <;> simp [h]
    rw [hm]
    refine ⟨canonical_zeroBig, ?_⟩
    rcases hz with h | h
    · rw [val_of_zero h, zero_mul]; rfl
    · rw [val_of_zero h, mul_zero]; rfl
  · have hzx : x.zero = false := bool_eq_false_of_not (fun h => hz (Or.inl h))
    have hzy : y.zero = false := bool_eq_false_of_not (fun h => hz (Or.inr h))
    have hm : mul exactFFT x y =
        ⟨trimDigits (schoolbook x.digits y.digits), !(xor x.flag y.flag)⟩ := by
      unfold mul
      rw [hzx, hzy]
      simp only [Bool.or_self, Bool.false_eq_true, if_false]
      split_ifs <;> rfl
    rw [hm]
    exact schoolbook_product x y hx hy hzx hzy

/-- With exact FFT products every `square()` is exact. -/
theorem squareExact_exactFFT : SquareExact exactFFT := by
  intro x hx
  by_cases hz : x.zero = true
  · have hm : square exactFFT x = zeroBig := by
      unfold square
      simp [hz]
    rw [hm]
    exact ⟨canonical_zeroBig, by rw [val_of_zero hz, zero_mul]; rfl⟩
  · have hzx : x.zero = false := bool_eq_false_of_not hz
    have hm : square exactFFT x = ⟨trimDigits (schoolbook x.digits x.digits), true⟩ := by
      unfold square
      rw [hzx]
      simp only [Bool.false_eq_true, if_false]
      split_ifs <;> rfl
    rw [hm]
    have hx' : Canonical x.abs := ⟨hx.1, fun _ => rfl⟩
    obtain ⟨h1, h2⟩ := schoolbook_product x.abs x.abs hx' hx' hzx hzx
    have hfl : (!(xor x.abs.flag x.abs.flag)) = true := by simp
    rw [hfl] at h1 h2
    refine ⟨h1, ?_⟩
    have h3 : x.abs.digits = x.digits := rfl
    rw [h3] at h2
    rw [h2]
    unfold val abs
    cases x.flag <;> simp

theorem pow_spec_witness :
    MulExact exactFFT ∧ SquareExact exactFFT ∧ Canonical ⟨[99999999, 5], false⟩ ∧
    (0 : Int) ≤ 77 ∧ (77 : Int) < 2 ^ 63 ∧
    ((∃ r, pow exactFFT ⟨[99999999, 5], false⟩ 77 = .ok r ∧ Canonical r ∧
        val r = val ⟨[99999999, 5], false⟩ ^ (77 : Int).toNat) ∧
      pow exactFFT ⟨[99999999, 5], false⟩ 0 = .ok ⟨[1], true⟩ ∧
      (∃ r, pow exactFFT (ofInt64 10) 1000 = .ok r ∧ val r = 10 ^ 1000)) :=
  ⟨mulExact_exactFFT, squareExact_exactFFT, by decide, by decide, by decide,
    pow_spec exactFFT mulExact_exactFFT squareExact_exactFFT ⟨[99999999, 5], false⟩ (by decide) 77
      (by decide) (by decide)⟩

end BigInteger

namespace BigInteger

/-! ### Scalar addition and subtraction on a negative value -/

/-- On a negative `*this` and a scalar that is not zero, `operator+=(int32)`
and `operator-=(int32)` call each other without end: each early return
passes the unchanged negative value to the other operator. -/
theorem addSubInt32_negative (a : BigInteger) (ha : a.flag = false) :
    ∀ (f : Nat) (sel : Bool) (x : Int), x ≠ 0 → -2147483648 ≤ x → x < 2147483648 →
      addSubInt32 f sel a x = .error .outOfFuel := by
  have hneg : a.negative = true := by simp [negative, ha]
  intro f
  induction f with
  | zero => intro sel x _ _ _; cases sel <;> rfl
  | succ f ih =>
    intro sel x hx h1 h2
    have hw : wrap32 (-x) ≠ 0 ∧ -2147483648 ≤ wrap32 (-x) ∧ wrap32 (-x) < 2147483648 := by
      unfold wrap32; omega
    cases sel
    · simp only [addSubInt32]
      rw [if_neg hx]
      split_ifs
      · exact ih _ _ hw.1 hw.2.1 hw.2.2
      · rw [ih _ _ hx h1 h2]; rfl
    · simp only [addSubInt32]
      rw [if_neg hx]
      split_ifs
      · exact ih _ _ hw.1 hw.2.1 hw.2.2
      · rw [ih _ _ hx h1 h2]; rfl

/-- C19 (fails on the code): scalar addition to a negative value does not
terminate.  For `a = -5` and `k = 3` (and likewise for `++a`, that is
`k = 1`) `a += k` returns nothing, however much fuel: `operator+=` calls
`operator-=` on the same negative value, which calls `operator+=` again. -/
theorem scalar_add_negative_diverges :
    (∀ fuel : Nat, addInt32 fuel ⟨[5], false⟩ 3 = .error .outOfFuel) ∧
    (∀ fuel : Nat, addInt32 fuel ⟨[5], false⟩ 1 = .error .outOfFuel) :=
  ⟨fun fuel => addSubInt32_negative _ rfl fuel true 3 (by decide) (by decide) (by decide),
    fun fuel => addSubInt32_negative _ rfl fuel true 1 (by decide) (by decide) (by decide)⟩

/-- C17 (fails on the code): the scalar `+=` and `-=` leave digits outside
`[0, 10^8)` when `|k| ≥ 10^8`, because `BASE` is subtracted (or added) only
once.  `0 += 200000000` has the digits `[100000000, 1]`, and
`10^16 -= 2000000000` has the digits `[-1900000000, 99999999]`. -/
theorem scalar_add_digit_out_of_range :
    Canonical ⟨[0], true⟩ ∧
    addInt32 5 ⟨[0], true⟩ 200000000 = .ok ⟨[100000000, 1], true⟩ ∧
    ¬ InRange [100000000, 1] ∧
    Canonical ⟨[0, 0, 1], true⟩ ∧
    subInt32 5 ⟨[0, 0, 1], true⟩ 2000000000 = .ok ⟨[-1900000000, 99999999], true⟩ ∧
    ¬ InRange [-1900000000, 99999999] := by
  refine ⟨by decide, by decide, ?_, by decide, by decide, ?_⟩
  · intro h
    exact absurd (h 100000000 (by simp)).2 (by decide)
  · intro h
    exact absurd (h (-1900000000) (by simp)).1 (by decide)

/-- C20 (fails on the code): the scalar division overflows its 64-bit
accumulator for a large divisor.  For `a = 1.5·10^19` and
`k = 200000000000` the running remainder reaches `1.5·10^11`, and
`cur * BASE` wraps around; the result is `-17233720` and not the quotient
`75000000`. -/
theorem scalar_div_overflow :
    Canonical ⟨[0, 0, 1500], true⟩ ∧
    divInt64 ⟨[0, 0, 1500], true⟩ 200000000000 = .ok ⟨[-17233720], true⟩ ∧
    (val ⟨[0, 0, 1500], true⟩).tdiv 200000000000 = 75000000 ∧
    val ⟨[-17233720], true⟩ ≠ (val ⟨[0, 0, 1500], true⟩).tdiv 200000000000 := by
  refine ⟨by decide, by decide!, by decide!, by decide!⟩

/-- C14 (fails on the code): `to_int64` ignores the sign flag, so a negative
value does not survive the round trip: `(-5).to_int64()` is `5`, and
`BigInteger(5)` is not `-5`. -/
theorem int64_round_trip_negative :
    Canonical ⟨[5], false⟩ ∧ val ⟨[5], false⟩ = -5 ∧
    to_int64 ⟨[5], false⟩ = 5 ∧
    ofInt64 (to_int64 ⟨[5], false⟩) = ⟨[5], true⟩ ∧
    ofInt64 (to_int64 ⟨[5], false⟩) ≠ ⟨[5], false⟩ := by
  refine ⟨by decide, by decide, by decide, by decide, by decide⟩

end BigInteger

namespace BigInteger

/-! ### Two's-complement conversion -/

theorem add_flag_true (a x : BigInteger) (ha : a.flag = true) (hx : x.flag = true) :
    (add a x).flag = true := by
  simp [add, addNonneg, addMain, negative, ha, hx]

theorem buildLoop_flag : ∀ (v : List Bool) (acc k : BigInteger), acc.flag = true →
    k.flag = true → (buildLoop v acc k).flag = true := by
  intro v
  induction v with
  | nil => intro acc k ha _; exact ha
  | cons b rest ih =>
    intro acc k ha hk
    simp only [buildLoop]
    apply ih _ _ _ (add_flag_true k k hk hk)
    split_ifs
    · exact add_flag_true acc k ha hk
    · exact ha

/-- A bit vector whose sign bit is set is never converted: the conversion
ends with `~(*this)` on a value whose flag is set, that is with `- 1` on a
negative value. -/
theorem ofBinary_sign_bit (fuel : Nat) (v : List Bool) (h : v.headD false = true) :
    ofBinary fuel v = .error .outOfFuel := by
  have hne : v ≠ [] := by
    intro hc; rw [hc] at h; simp at h
  unfold ofBinary
  rw [if_neg hne, h]
  simp only [Bool.not_true, Bool.false_eq_true, if_false]
  unfold bitnot subInt32
  apply addSubInt32_negative _ _ fuel false 1 (by decide) (by decide) (by decide)
  show (!(build_binary (ofInt64 0) _).flag) = false
  unfold build_binary
  rw [buildLoop_flag _ _ _ rfl rfl]
  rfl

/-- C15 (fails on the code): the two's-complement round trip does not
terminate for a negative value.  `(-1).to_binary()` is the one-bit vector
`1`, and the conversion of that vector returns nothing, however much fuel:
its last step `~(*this)` runs the scalar `- 1` on a negative value. -/
theorem binary_round_trip_negative :
    to_binary 10 ⟨[1], false⟩ = .ok [true] ∧
    (∀ fuel : Nat, ofBinary fuel [true] = .error .outOfFuel) ∧
    (∀ fuel : Nat, (to_binary fuel ⟨[1], false⟩ >>= ofBinary fuel) = .error .outOfFuel) := by
  refine ⟨by decide, fun fuel => ofBinary_sign_bit fuel [true] rfl, fun fuel => ?_⟩
  cases fuel with
  | zero => rfl
  | succ f =>
    have h : to_binary (f + 1) ⟨[1], false⟩ = .ok [true] := rfl
    rw [h]
    exact ofBinary_sign_bit (f + 1) [true] rfl

/-- C18 (fails on the code): the shorter bit vector is not sign-extended at
its most significant end; `__helper` reads the missing positions as `0` at
the least significant end.  `1 & 3` is computed on `01` and `011` as
`010 & 011` and gives `2`, not `1`; `1 | 3` gives `3` only by chance of the
operands.  And `(-1) & (-1)` returns nothing, because a result whose sign
bit is set is never converted back. -/
theorem bitwise_and_misaligned :
    band 20 ⟨[1], true⟩ ⟨[3], true⟩ = .ok ⟨[2], true⟩ ∧
    val ⟨[2], true⟩ ≠ 1 ∧
    ((1 : Int).toNat &&& (3 : Int).toNat) = 1 ∧
    (∀ fuel : Nat, band fuel ⟨[1], false⟩ ⟨[1], false⟩ = .error .outOfFuel) := by
  refine ⟨by decide, by decide, by decide, fun fuel => ?_⟩
  cases fuel with
  | zero => rfl
  | succ f =>
    have h : to_binary (f + 1) ⟨[1], false⟩ = .ok [true] := rfl
    unfold band __helper
    rw [h, bind_ok, bind_ok]
    exact ofBinary_sign_bit (f + 1) _ rfl

/-- C11 (fails on the code): `pow(e, m)` does not reduce the result when the
loop does not run.  `5.pow(0, 1)` returns `1`, while `5^0 mod 1 = 0`.  (The
example of the claim holds: `1000000007.pow(2, 999999937)` is `4900`.) -/
theorem powMod_zero_exponent :
    (∀ F : FFT, powMod F 20 ⟨[5], true⟩ 0 ⟨[1], true⟩ = .ok ⟨[1], true⟩) ∧
    val ⟨[1], true⟩ ≠ (val ⟨[5], true⟩ ^ 0) % val ⟨[1], true⟩ ∧
    (∀ F : FFT, powMod F 20 ⟨[7, 10], true⟩ 2 ⟨[99999937, 9], true⟩ = .ok ⟨[4900], true⟩) := by
  refine ⟨fun F => rfl, by decide, fun F => rfl⟩

/-- C12 (fails on the code): `gcd` has no treatment of the sign.  For
`a = -4` and `b = 6` the operands are swapped, halved once, and the main
loop `while (b.positive())` is skipped for the negative `b`; the result is
`6`, which does not divide `-4`.  (The example of the claim holds:
`gcd(461952, 116298)` is `18`.) -/
theorem gcd_negative_operand :
    (∀ F : FFT, gcd F 100 ⟨[4], false⟩ ⟨[6], true⟩ = .ok ⟨[6], true⟩) ∧
    ¬ (val ⟨[6], true⟩ ∣ val ⟨[4], false⟩) ∧
    (∀ F : FFT, gcd F 100 ⟨[461952], true⟩ ⟨[116298], true⟩ = .ok ⟨[18], true⟩) := by
  refine ⟨fun F => rfl, by decide, fun F => rfl⟩

end BigInteger

namespace BigInteger

/-- C16 (fails on the code): a zero result keeps a cleared flag in unary
minus, in the decimal parse of `"-0"`, in the scalar division `-5 / 10`, in
`half` of `-1` and in the remainder of `-6 / 3`; each returns `([0], false)`.
For that value `zero()` holds but `== BigInteger(0)` does not. -/
theorem negative_zero_results :
    neg (ofInt64 0) = ⟨[0], false⟩ ∧
    parse ['-', '0'] = some ⟨[0], false⟩ ∧
    divInt64 ⟨[5], false⟩ 10 = .ok ⟨[0], false⟩ ∧
    half ⟨[1], false⟩ = ⟨[0], false⟩ ∧
    (∀ F : FFT, divmod F 20 ⟨[6], false⟩ ⟨[3], true⟩ = .ok (⟨[2], false⟩, ⟨[0], false⟩)) ∧
    zero ⟨[0], false⟩ = true ∧
    beq ⟨[0], false⟩ (ofInt64 0) = false := by
  refine ⟨by decide, by decide!, by decide!, by decide!, fun F => rfl, by decide, by decide⟩

end BigInteger

namespace BigInteger

/-! ### Decimal output and input -/

theorem digitChar_spec (m : Nat) (hm : m < 10) :
    (Nat.digitChar m).isDigit = true ∧ (Nat.digitChar m).toNat - 48 = m := by
  interval_cases m <;> exact ⟨by decide, by decide⟩

theorem stollAux_digit (m : Nat) (hm : m < 10) (tail : List Char) (v : Nat) :
    stollAux (Nat.digitChar m :: tail) v = stollAux tail (v * 10 + m) := by
  obtain ⟨h1, h2⟩ := digitChar_spec m hm
  simp only [stollAux, h1, if_true, h2]

/-- The numeral written for `n` is a non-empty run of at most `k + 1` digit
characters when `n < 10^(k+1)`, and `stoll` reads it back as `n`. -/
theorem showNatAux_spec : ∀ (f k n : Nat) (acc : List Char), k ≤ f → n < 10 ^ (k + 1) →
    ∃ ds : List Char, showNatAux (f + 1) n acc = ds ++ acc ∧ ds ≠ [] ∧ ds.length ≤ k + 1 ∧
      (∀ c ∈ ds, c.isDigit = true) ∧
      ∀ (tail : List Char) (v : Nat),
        stollAux (ds ++ tail) v = stollAux tail (v * 10 ^ ds.length + n) := by
  intro f
  induction f with
  | zero =>
    intro k n acc hk hn
    have hk0 : k = 0 := by omega
    subst hk0
    have hn10 : n < 10 := by simpa using hn
    have hdiv : n / 10 = 0 := by omega
    have hmod : n % 10 = n := by omega
    refine ⟨[Nat.digitChar n], ?_, by simp, by simp, ?_, ?_⟩
    · simp only [showNatAux, hdiv, if_true, hmod]; rfl
    · intro c hc
      rw [List.mem_singleton.mp hc]
      exact (digitChar_spec n hn10).1
    · intro tail v
      simp only [List.singleton_append, List.length_singleton, pow_one]
      exact stollAux_digit n hn10 tail v
  | succ f ih =>
    intro k n acc hk hn
    have hmodlt : n % 10 < 10 := Nat.mod_lt _ (by decide)
    by_cases hdiv : n / 10 = 0
    · have hn10 : n < 10 := by omega
      have hmod : n % 10 = n := by omega
      refine ⟨[Nat.digitChar n], ?_, by simp, by simp, ?_, ?_⟩
      · simp only [showNatAux, hdiv, if_true, hmod]; rfl
      · intro c hc
        rw [List.mem_singleton.mp hc]
        exact (digitChar_spec n hn10).1
      · intro tail v
        simp only [List.singleton_append, List.length_singleton, pow_one]
        exact stollAux_digit n hn10 tail v
    · have hk1 : 1 ≤ k := by
        by_contra hc
        have hk0 : k = 0 := by omega
        subst hk0
        have : n < 10 := by simpa using hn
        omega
      have hn' : n / 10 < 10 ^ (k - 1 + 1) := by
        have e : k - 1 + 1 = k := by omega
        rw [e]
        rw [pow_succ] at hn
        omega
      obtain ⟨ds, h1, h2, h3, h4, h5⟩ :=
        ih (k - 1) (n / 10) (Nat.digitChar (n % 10) :: acc) (by omega) hn'
      refine ⟨ds ++ [Nat.digitChar (n % 10)], ?_, by simp, ?_, ?_, ?_⟩
      · rw [showNatAux, if_neg hdiv, h1]
        simp
      · simp only [List.length_append, List.length_singleton]; omega
      · intro c hc
        rcases List.mem_append.mp hc with h | h
        · exact h4 c h
        · rw [List.mem_singleton.mp h]
          exact (digitChar_spec _ hmodlt).1
      · intro tail v
        rw [List.append_assoc, h5, List.singleton_append, stollAux_digit _ hmodlt]
        congr 1
        simp only [List.length_append, List.length_singleton, pow_succ]
        have := Nat.div_add_mod n 10
        nlinarith

theorem showInt_spec (d : Int) (h0 : 0 ≤ d) (h1 : d < BASE) :
    ∃ ds : List Char, showInt d = ds ∧ ds ≠ [] ∧ ds.length ≤ 8 ∧
      (∀ c ∈ ds, c.isDigit = true) ∧
      ∀ (tail : List Char) (v : Nat),
        stollAux (ds ++ tail) v = stollAux tail (v * 10 ^ ds.length + d.natAbs) := by
  have hlt : d.natAbs < 10 ^ (7 + 1) := by
    have h1' : d < 100000000 := h1
    omega
  obtain ⟨ds, e1, e2, e3, e4, e5⟩ := showNatAux_spec 19 7 d.natAbs [] (by decide) hlt
  refine ⟨ds, ?_, e2, e3, e4, e5⟩
  unfold showInt
  rw [if_neg (by omega), e1, List.append_nil]

theorem stollAux_zeros (k : Nat) (l : List Char) :
    stollAux (List.replicate k '0' ++ l) 0 = stollAux l 0 := by
  induction k with
  | zero => rfl
  | succ k ih =>
    rw [List.replicate_succ, List.cons_append]
    have : stollAux ('0' :: (List.replicate k '0' ++ l)) 0 =
        stollAux (List.replicate k '0' ++ l) 0 := rfl
    rw [this, ih]

theorem stoll_showInt (d : Int) (h0 : 0 ≤ d) (h1 : d < BASE) : stoll (showInt d) = some d := by
  obtain ⟨ds, e1, e2, _, _, e5⟩ := showInt_spec d h0 h1
  unfold stoll
  rw [e1, if_neg e2]
  have := e5 [] 0
  rw [List.append_nil] at this
  rw [this]
  have hv : stollAux [] (0 * 10 ^ ds.length + d.natAbs) = some d.natAbs := by
    simp [stollAux]
  rw [hv]
  show some ((d.natAbs : Nat) : Int) = some d
  rw [Int.natAbs_of_nonneg h0]

theorem showPadded_spec (d : Int) (h0 : 0 ≤ d) (h1 : d < BASE) :
    (showPadded d).length = 8 ∧ stoll (showPadded d) = some d := by
  obtain ⟨ds, e1, e2, e3, _, e5⟩ := showInt_spec d h0 h1
  have hlen : (showPadded d).length = 8 := by
    unfold showPadded WIDTH
    rw [e1]
    simp only [List.length_append, List.length_replicate]
    omega
  refine ⟨hlen, ?_⟩
  have hne : showPadded d ≠ [] := by
    intro hc; rw [hc] at hlen; simp at hlen
  unfold stoll
  rw [if_neg hne]
  unfold showPadded
  rw [e1, stollAux_zeros]
  have := e5 [] 0
  rw [List.append_nil] at this
  rw [this]
  have hv : stollAux [] (0 * 10 ^ ds.length + d.natAbs) = some d.natAbs := by
    simp [stollAux]
  rw [hv]
  show some ((d.natAbs : Nat) : Int) = some d
  rw [Int.natAbs_of_nonneg h0]

end BigInteger

namespace BigInteger

theorem chunks_short (f : Nat) (l : List Char) (hne : l ≠ []) (hl : l.length ≤ 8) :
    chunks (f + 1) l = [l] := by
  have h0 : l.length - WIDTH = 0 := by unfold WIDTH; omega
  simp only [chunks, if_neg hne, h0, List.drop_zero, List.take_zero]
  cases f with
  | zero => rfl
  | succ f => simp [chunks]

theorem chunks_append (f : Nat) (p c : List Char) (hc : c.length = 8) :
    chunks (f + 1) (p ++ c) = c :: chunks f p := by
  have hne : p ++ c ≠ [] := by
    intro h
    have h2 : c = [] := (List.append_eq_nil.mp h).2
    rw [h2] at hc
    simp at hc
  have hlen : (p ++ c).length - WIDTH = p.length := by
    unfold WIDTH
    rw [List.length_append, hc]
    omega
  simp only [chunks, if_neg hne, hlen, List.drop_left, List.take_left]

/-- The text after the sign: the highest digit bare, then the lower digits
from the highest down, each padded to `WIDTH` characters. -/
theorem body_chunks : ∀ (lowers : List Int) (top : Int) (fuel : Nat),
    InRange (lowers ++ [top]) →
    (showInt top ++ ((lowers.reverse).map showPadded).flatten).length ≤ fuel →
    allSome ((chunks fuel (showInt top ++ ((lowers.reverse).map showPadded).flatten)).map stoll) =
      some (lowers ++ [top]) := by
  intro lowers
  induction lowers with
  | nil =>
    intro top fuel hr hf
    have ht := hr top (by simp)
    obtain ⟨ds, e1, e2, e3, _, _⟩ := showInt_spec top ht.1 ht.2
    simp only [List.reverse_nil, List.map_nil, List.flatten_nil, List.append_nil,
      List.nil_append] at hf ⊢
    have hpos : 0 < (showInt top).length := by
      rw [e1]; exact List.length_pos.mpr e2
    obtain ⟨g, hg⟩ := Nat.exists_eq_succ_of_ne_zero (by omega : fuel ≠ 0)
    rw [hg, chunks_short g _ (by rw [e1]; exact e2) (by rw [e1]; exact e3)]
    simp only [List.map_cons, List.map_nil, stoll_showInt top ht.1 ht.2, allSome,
      Option.map_some']
  | cons d0 ls ih =>
    intro top fuel hr hf
    have hd0 := hr d0 (by simp)
    have hr' : InRange (ls ++ [top]) := fun e he => hr e (by simp at he ⊢; tauto)
    obtain ⟨p1, p2⟩ := showPadded_spec d0 hd0.1 hd0.2
    have hbody : showInt top ++ (((d0 :: ls).reverse).map showPadded).flatten =
        (showInt top ++ ((ls.reverse).map showPadded).flatten) ++ showPadded d0 := by
      simp [List.append_assoc]
    rw [hbody] at hf ⊢
    have hlen : (showInt top ++ ((ls.reverse).map showPadded).flatten).length + 8 ≤ fuel := by
      rw [List.length_append, p1] at hf; exact hf
    obtain ⟨g, hg⟩ := Nat.exists_eq_succ_of_ne_zero (by omega : fuel ≠ 0)
    rw [hg, chunks_append g _ _ p1]
    simp only [List.map_cons, p2, allSome]
    rw [ih top g hr' (by omega)]
    rfl

theorem isDigit_ne_dash (c : Char) (h : c.isDigit = true) : c ≠ '-' := by
  intro hc
  rw [hc] at h
  exact absurd h (by decide)

theorem dropDashes_digit (c : Char) (cs : List Char) (fl : Bool) (h : c.isDigit = true) :
    dropDashes (c :: cs) fl = (fl, c :: cs) := by
  simp only [dropDashes, if_neg (isDigit_ne_dash c h)]

/-- C13: the decimal round trip.  For every value whose digit vector
satisfies the representation invariants (not empty, digits in `[0, 10^8)`,
no trailing zero digit), parsing the text written by `to_string` (sign,
bare highest digit, lower digits padded to 8 characters) gives back the same
sign flag and the same digit vector. -/
theorem decimal_round_trip (a : BigInteger) (ha : DigitsOk a.digits) :
    parse (to_string a) = some a := by
  obtain ⟨hne, hr, hlast⟩ := ha
  -- split the digit vector into the lower digits and the highest one
  have hrev : a.digits.reverse ≠ [] := by simpa using hne
  obtain ⟨top, rest, hsplit⟩ := List.exists_cons_of_ne_nil hrev
  have hdig : a.digits = rest.reverse ++ [top] := by
    have := congrArg List.reverse hsplit
    simpa using this
  have hr' : InRange (rest.reverse ++ [top]) := hdig ▸ hr
  have ht := hr' top (by simp)
  obtain ⟨ds, e1, e2, _, e4, _⟩ := showInt_spec top ht.1 ht.2
  -- the text after the sign starts with a digit
  obtain ⟨c, cs, hcs⟩ := List.exists_cons_of_ne_nil e2
  have hc : c.isDigit = true := e4 c (by rw [hcs]; simp)
  have hbody : showInt top ++ (rest.map showPadded).flatten =
      c :: (cs ++ (rest.map showPadded).flatten) := by
    rw [e1, hcs]; rfl
  have hts : to_string a =
      (if !a.flag then ['-'] else []) ++ (showInt top ++ (rest.map showPadded).flatten) := by
    unfold to_string
    rw [hsplit]
  have hchunks := body_chunks rest.reverse top
    (showInt top ++ (rest.map showPadded).flatten).length hr'
    (by rw [List.reverse_reverse])
  rw [List.reverse_reverse] at hchunks
  have hdrop : dropDashes (to_string a) true =
      (a.flag, showInt top ++ (rest.map showPadded).flatten) := by
    rw [hts, hbody]
    cases a.flag
    · simp only [Bool.not_false, if_true, List.singleton_append, dropDashes, Bool.not_true]
      exact dropDashes_digit c _ false hc
    · simp only [Bool.not_true, Bool.false_eq_true, if_false, List.nil_append]
      exact dropDashes_digit c _ true hc
  have hne1 : ¬ (to_string a = [] ∨ to_string a = ['-']) := by
    rw [hts, hbody]
    cases a.flag
    · simp
    · simp only [Bool.not_true, Bool.false_eq_true, if_false, List.nil_append]
      intro h
      rcases h with h | h
      · exact absurd h (by simp)
      · have : c = '-' := by
          have := List.head_eq_of_cons_eq h
          exact this
        exact isDigit_ne_dash c hc this
  unfold parse
  rw [if_neg hne1, hdrop]
  simp only
  rw [hchunks, ← hdig]
  simp only [Option.map_some', Option.some.injEq]
  rw [trimDigits_id a.digits hlast]

theorem decimal_round_trip_witness :
    DigitsOk (BigInteger.mk [5, 4, 123] false).digits ∧
    parse (to_string ⟨[5, 4, 123], false⟩) = some ⟨[5, 4, 123], false⟩ :=
  ⟨by decide, decimal_round_trip ⟨[5, 4, 123], false⟩ (by decide)⟩

end BigInteger

namespace BigInteger

/-! ### Scalar multiplication, FFT dispatch, transform length -/

/-- C21 (fails on the code): the scalar product is wrong for the extreme
value `k = -2^31`.  The negation `x = -x` leaves `-2^31` in a 32-bit
`x`, so the loop multiplies by a negative number after the flag has been
flipped: `1 * (-2147483648)` has the digits `[-47483648, -21]` and the flag
cleared, which is not canonical and denotes `+2147483648`. -/
theorem scalar_mul_int32_min :
    Canonical ⟨[1], true⟩ ∧
    mulInt32 ⟨[1], true⟩ (-2147483648) = ⟨[-47483648, -21], false⟩ ∧
    ¬ Canonical ⟨[-47483648, -21], false⟩ ∧
    val ⟨[-47483648, -21], false⟩ = 2147483648 ∧
    val ⟨[-47483648, -21], false⟩ ≠ val ⟨[1], true⟩ * (-2147483648) := by
  refine ⟨by decide, by decide!, by decide, by decide, by decide⟩

/-- C22 (fails on the code): `dft` and `idft` never raise
`FFTLimitExceededError`.  For a size above `2^21`, such as `2^22`, no `case`
label matches and both return with the array as it was. -/
theorem dft_above_limit_returns {α : Type} (fft ifft : Int → α → α) (a : α) :
    dft fft a 4194304 = .ok a ∧ idft ifft a 4194304 = .ok a ∧
    (∀ n : Int, 2097152 < n → dft fft a n = .ok a ∧ idft ifft a n = .ok a) ∧
    (∀ n : Int, Avoids .fftLimitExceeded (dft fft a n) ∧
      Avoids .fftLimitExceeded (idft ifft a n)) := by
  have key : ∀ n : Int, 2097152 < n → dft fft a n = .ok a ∧ idft ifft a n = .ok a := by
    intro n hn
    have h1 : ¬ n ≤ 1 := by omega
    have h2 : n ∉ fftSizes := by
      intro hmem
      simp only [fftSizes, List.mem_cons, List.mem_singleton, List.not_mem_nil, or_false] at hmem
      omega
    exact ⟨by simp only [dft, if_neg h1, if_neg h2], by simp only [idft, if_neg h1, if_neg h2]⟩
  refine ⟨(key _ (by decide)).1, (key _ (by decide)).2, key, fun n => ⟨?_, ?_⟩⟩
  · unfold dft
    split_ifs <;> exact avoids_ok _ _
  · unfold idft
    split_ifs <;> exact avoids_ok _ _

/-- C23 (fails on the code): the transform length is the least power of two
that is at least `2·(n+m)`, not `2·(n+m+1)`.  For `n = m = 4` (where
`n·m ≥ FFT_LIMIT`, so the FFT branch is taken) the array has 16 slots and the
result loop reads the indices 16 and 17; the same holds for the square of a
4-digit value. -/
theorem fft_length_too_short :
    (4 : Int) * 4 ≥ FFT_LIMIT ∧
    fftMulLim 4 4 = 16 ∧ ¬ (fftMulLim 4 4 ≥ 2 * (4 + 4 + 1)) ∧
    fftMulTopIndex 4 4 = 17 ∧ ¬ (fftMulTopIndex 4 4 < fftMulLim 4 4) ∧
    fftSquareLim 4 = 16 ∧ fftSquareTopIndex 4 = 17 ∧
    ¬ (fftSquareTopIndex 4 < fftSquareLim 4) := by
  refine ⟨by decide, by decide, by decide, by decide, by decide, by decide, by decide, by decide⟩

end BigInteger

namespace BigInteger

/-! ### Scalar multiplication by a factor that is not negative -/

theorem inRange_cons {d : Int} {l : List Int} (hd : 0 ≤ d ∧ d < BASE) (hl : InRange l) :
    InRange (d :: l) := by
  intro e he
  rcases List.mem_cons.mp he with h1 | h1
  · rw [h1]; exact hd
  · exact hl e h1

theorem emod_BASE_range (v : Int) : 0 ≤ v % BASE ∧ v % BASE < BASE :=
  ⟨Int.emod_nonneg _ (by decide), Int.emod_lt_of_pos _ BASE_pos⟩

theorem mulCarryTail_spec : ∀ (k : Nat) (carry : Int), 0 ≤ carry → carry.natAbs ≤ k →
    mag (mulCarryTail k carry) = carry ∧ InRange (mulCarryTail k carry) := by
  intro k
  induction k with
  | zero =>
    intro carry h0 hk
    have : carry = 0 := by omega
    subst this
    exact ⟨rfl, inRange_nil⟩
  | succ k ih =>
    intro carry h0 hk
    simp only [mulCarryTail]
    by_cases hc : carry = 0
    · rw [if_pos hc, hc]; exact ⟨rfl, inRange_nil⟩
    · rw [if_neg hc]
      have hB0 : (0 : Int) ≤ BASE := by decide
      rw [Int.tmod_eq_emod h0 hB0, Int.tdiv_eq_ediv h0 hB0]
      have hq0 : 0 ≤ carry / BASE := Int.ediv_nonneg h0 hB0
      have hq1 : carry / BASE < carry := Int.ediv_lt_of_lt_mul BASE_pos (by
        have hB : BASE = 100000000 := rfl
        rw [hB]; omega)
      obtain ⟨i1, i2⟩ := ih (carry / BASE) hq0 (by omega)
      refine ⟨?_, inRange_cons (emod_BASE_range _) i2⟩
      rw [mag_cons, i1]
      exact Int.emod_add_ediv carry BASE

theorem mulLoop_spec (x : Int) (hx : 0 ≤ x) : ∀ (ds : List Int) (carry : Int), InRange ds →
    0 ≤ carry →
    mag (mulLoop x ds carry) = mag ds * x + carry ∧ InRange (mulLoop x ds carry) := by
  intro ds
  induction ds with
  | nil =>
    intro carry _ h0
    obtain ⟨i1, i2⟩ := mulCarryTail_spec carry.natAbs carry h0 (le_refl _)
    exact ⟨by simp only [mulLoop, i1, mag_nil]; ring, i2⟩
  | cons d ds ih =>
    intro carry hr h0
    have hd := hr d (List.mem_cons_self _ _)
    have htl : InRange ds := fun e he => hr e (List.mem_cons_of_mem _ he)
    have hv : 0 ≤ d * x + carry := add_nonneg (mul_nonneg hd.1 hx) h0
    have hB0 : (0 : Int) ≤ BASE := by decide
    simp only [mulLoop]
    rw [Int.tmod_eq_emod hv hB0, Int.tdiv_eq_ediv hv hB0]
    obtain ⟨i1, i2⟩ := ih ((d * x + carry) / BASE) htl (Int.ediv_nonneg hv hB0)
    refine ⟨?_, inRange_cons (emod_BASE_range _) i2⟩
    rw [mag_cons, i1, mag_cons]
    have := Int.emod_add_ediv (d * x + carry) BASE
    linear_combination this

theorem mulLoop_ne_nil (x : Int) (ds : List Int) (carry : Int) (h : ds ≠ []) :
    mulLoop x ds carry ≠ [] := by
  cases ds with
  | nil => exact absurd rfl h
  | cons d ds => simp [mulLoop]

theorem ofInt64_zero : ofInt64 0 = ⟨[0], true⟩ := by decide

/-- The scalar product by a factor `0 ≤ x`: canonical shape is kept, the flag
is kept, the magnitude is multiplied. -/
theorem mulInt32_nonneg (a : BigInteger) (x : Int) (ha : Canonical a) (hx : 0 ≤ x) :
    Canonical (mulInt32 a x) ∧ mag (mulInt32 a x).digits = mag a.digits * x ∧
      (a.flag = true → (mulInt32 a x).flag = true) := by
  unfold mulInt32
  by_cases h0 : x = 0
  · simp only [h0, decide_True, Bool.true_or, if_true, ofInt64_zero, mul_zero]
    exact ⟨by decide, by decide, fun _ => trivial⟩
  · by_cases hz : a.zero = true
    · simp only [hz, Bool.or_true, if_true, ofInt64_zero]
      have : a.digits = [0] := (zero_iff a).mp hz
      refine ⟨by decide, ?_, fun _ => trivial⟩
      rw [this]; simp [mag]
    · have hz' : a.zero = false := bool_eq_false_of_not hz
      have hxn : ¬ x < 0 := by omega
      simp only [h0, decide_False, hz', Bool.or_self, Bool.false_eq_true, if_false, if_neg hxn]
      obtain ⟨i1, i2⟩ := mulLoop_spec x hx a.digits 0 ha.1.inRange (le_refl _)
      have hok : DigitsOk (trimDigits (mulLoop x a.digits 0)) :=
        digitsOk_trimDigits _ (mulLoop_ne_nil _ _ _ ha.1.1) i2
      have hm : mag (trimDigits (mulLoop x a.digits 0)) = mag a.digits * x := by
        rw [mag_trimDigits, i1]; ring
      refine ⟨⟨hok, ?_⟩, hm, fun h => h⟩
      intro hd
      exfalso
      have hp := mag_pos_of_not_zero ha.1 hz'
      have : mag (trimDigits (mulLoop x a.digits 0)) = 0 := by
        show mag (BigInteger.mk (trimDigits (mulLoop x a.digits 0)) a.flag).digits = 0
        rw [hd]; rfl
      rw [hm] at this
      have hx' : 0 < x := by omega
      have := mul_pos hp hx'
      omega

theorem val_of_flag {a : BigInteger} (h : a.flag = true) : val a = mag a.digits := by
  unfold val; rw [if_pos h]

/-! ### Parity and halving -/

theorem mod2_spec (a : BigInteger) (h : DigitsOk a.digits) :
    a.mod2 = true ↔ mag a.digits % 2 = 1 := by
  unfold mod2 get
  cases hd : a.digits with
  | nil => exact absurd hd h.1
  | cons d ds =>
    have hB : BASE = 100000000 := rfl
    simp only [List.getD_cons_zero, mag_cons, beq_iff_eq, hB]
    omega

end BigInteger

namespace BigInteger

theorem mag_reverse_cons (d : Int) (rest : List Int) :
    mag (d :: rest).reverse = mag rest.reverse + BASE ^ rest.length * d := by
  rw [List.reverse_cons, mag_append, List.length_reverse]
  simp [mag]

theorem inRange_reverse {l : List Int} (h : InRange l) : InRange l.reverse :=
  fun d hd => h d (List.mem_reverse.mp hd)

/-- The halving loop on the digits from the highest down: with a pending
carry `c` into the first digit, the digits written are those of the half. -/
theorem halfRev_spec : ∀ (hs : List Int) (c : Int), (c = 0 ∨ c = 1) → InRange hs →
    mag (halfRev hs (c * BASE)).reverse = (c * BASE ^ hs.length + mag hs.reverse) / 2 ∧
      InRange (halfRev hs (c * BASE)) ∧ (halfRev hs (c * BASE)).length = hs.length := by
  intro hs
  induction hs with
  | nil =>
    intro c hc _
    refine ⟨?_, inRange_nil, rfl⟩
    rcases hc with h | h <;> rw [h] <;> simp [halfRev, mag]
  | cons d rest ih =>
    intro c hc hr
    have hd := hr d (List.mem_cons_self _ _)
    have hd1 : d < 100000000 := hd.2
    have htl : InRange rest := fun e he => hr e (List.mem_cons_of_mem _ he)
    have hB : BASE = 100000000 := rfl
    have hex : (if (d + c * BASE) % 2 = 1 then BASE else 0) = ((d + c * BASE) % 2) * BASE := by
      split_ifs with h
      · rw [h]; ring
      · have : (d + c * BASE) % 2 = 0 := by omega
        rw [this]; ring
    simp only [halfRev]
    rw [hex]
    have hc' : (d + c * BASE) % 2 = 0 ∨ (d + c * BASE) % 2 = 1 := by omega
    obtain ⟨i1, i2, i3⟩ := ih ((d + c * BASE) % 2) hc' htl
    refine ⟨?_, inRange_cons ?_ i2, by simp only [List.length_cons, i3]⟩
    · rw [mag_reverse_cons, i3, i1, mag_reverse_cons, List.length_cons]
      have hdm := Int.emod_add_ediv (d + c * BASE) 2
      have e1 : c * BASE ^ (rest.length + 1) + (mag rest.reverse + BASE ^ rest.length * d) =
          ((d + c * BASE) % 2 * BASE ^ rest.length + mag rest.reverse) +
            (BASE ^ rest.length * ((d + c * BASE) / 2)) * 2 := by
        rw [pow_succ]
        linear_combination (-(BASE ^ rest.length)) * hdm
      rw [e1, Int.add_mul_ediv_right _ _ (by decide)]
    · rw [hB]
      rcases hc with h | h <;> rw [h] <;> omega

/-- Halving keeps the shape of the digit vector and the flag, and halves the
magnitude (rounding down). -/
theorem half_spec (a : BigInteger) (h : DigitsOk a.digits) :
    DigitsOk (half a).digits ∧ mag (half a).digits = mag a.digits / 2 ∧
      (half a).flag = a.flag := by
  obtain ⟨i1, i2, i3⟩ := halfRev_spec a.digits.reverse 0 (Or.inl rfl) (inRange_reverse h.inRange)
  rw [zero_mul] at i1 i2 i3
  rw [zero_mul, zero_add, List.reverse_reverse] at i1
  unfold half
  refine ⟨digitsOk_trimDigits _ ?_ (inRange_reverse i2), ?_, rfl⟩
  · intro hnil
    have : (halfRev a.digits.reverse 0).length = 0 := by
      rw [← List.length_reverse, hnil]; rfl
    rw [i3, List.length_reverse] at this
    exact h.1 (List.length_eq_zero.mp this)
  · show mag (trimDigits (halfRev a.digits.reverse 0).reverse) = mag a.digits / 2
    rw [mag_trimDigits, i1]

theorem canonical_of_flag {a : BigInteger} (h : DigitsOk a.digits) (hf : a.flag = true) :
    Canonical a := ⟨h, fun _ => hf⟩

/-- Halving a value that is not negative. -/
theorem half_nonneg (a : BigInteger) (ha : Canonical a) (hf : a.flag = true) :
    Canonical (half a) ∧ (half a).flag = true ∧ val (half a) = val a / 2 := by
  obtain ⟨i1, i2, i3⟩ := half_spec a ha.1
  have hf' : (half a).flag = true := by rw [i3, hf]
  exact ⟨canonical_of_flag i1 hf', hf', by rw [val_of_flag hf', val_of_flag hf, i2]⟩

/-! ### Division by a small scalar -/

theorem wrap64_id {z : Int} (h0 : -9223372036854775808 ≤ z) (h1 : z < 9223372036854775808) :
    wrap64 z = z := by
  unfold wrap64; omega

theorem wrap32_id {z : Int} (h0 : -2147483648 ≤ z) (h1 : z < 2147483648) : wrap32 z = z := by
  unfold wrap32; omega

/-- The loop of the scalar division on the digits from the highest down, for
a divisor `0 < x ≤ 92233720368` (so that `cur * BASE + digit` fits 64 bits):
the digits written are those of the quotient, for either flag. -/
theorem divLoop_spec (fl : Bool) (x : Int) (hx0 : 0 < x) (hx1 : x ≤ 92233720368) :
    ∀ (hs : List Int) (cur : Int), InRange hs → 0 ≤ cur → cur < x →
    ∃ rem, 0 ≤ rem ∧ rem < x ∧
      cur * BASE ^ hs.length + mag hs.reverse = x * mag (divLoop fl x hs cur).reverse + rem ∧
      InRange (divLoop fl x hs cur) ∧ (divLoop fl x hs cur).length = hs.length := by
  intro hs
  induction hs with
  | nil =>
    intro cur _ h0 h1
    exact ⟨cur, h0, h1, by simp [divLoop, mag], inRange_nil, rfl⟩
  | cons d rest ih =>
    intro cur hr h0 h1
    have hd := hr d (List.mem_cons_self _ _)
    have hd1 : d < 100000000 := hd.2
    have htl : InRange rest := fun e he => hr e (List.mem_cons_of_mem _ he)
    have hB : BASE = 100000000 := rfl
    have hv0 : 0 ≤ cur * BASE + d := by rw [hB]; omega
    have hv1 : cur * BASE + d < x * BASE := by rw [hB]; omega
    have hv2 : cur * BASE + d < 9223372036854775808 := by rw [hB] at hv1 ⊢; omega
    have hw : wrap64 (cur * BASE + d) = cur * BASE + d := wrap64_id (by omega) hv2
    have hq0 : 0 ≤ (cur * BASE + d) / x := Int.ediv_nonneg hv0 (le_of_lt hx0)
    have hq1 : (cur * BASE + d) / x < BASE := Int.ediv_lt_of_lt_mul hx0 (by linarith)
    have hq1' : (cur * BASE + d) / x < 100000000 := hq1
    have hdig : (if fl then wrap64 ((wrap64 (cur * BASE + d)).tdiv x)
        else wrap64 ((wrap64 (-(wrap64 (cur * BASE + d)))).tdiv (wrap64 (-x)))) =
        (cur * BASE + d) / x := by
      rw [hw]
      have hwn : wrap64 (-(cur * BASE + d)) = -(cur * BASE + d) := wrap64_id (by omega) (by omega)
      have hwx : wrap64 (-x) = -x := wrap64_id (by omega) (by omega)
      rw [hwn, hwx, Int.neg_tdiv_neg, Int.tdiv_eq_ediv hv0 (le_of_lt hx0), ite_self]
      exact wrap64_id (by omega) (by omega)
    have hrem : (wrap64 (cur * BASE + d)).tmod x = (cur * BASE + d) % x := by
      rw [hw, Int.tmod_eq_emod hv0 (le_of_lt hx0)]
    simp only [divLoop]
    rw [hdig, hrem]
    obtain ⟨rem, r0, r1, i1, i2, i3⟩ := ih ((cur * BASE + d) % x) htl
      (Int.emod_nonneg _ (by omega)) (Int.emod_lt_of_pos _ hx0)
    refine ⟨rem, r0, r1, ?_, inRange_cons ⟨hq0, hq1⟩ i2, by simp only [List.length_cons, i3]⟩
    rw [mag_reverse_cons, mag_reverse_cons, i3, List.length_cons, pow_succ]
    have hdm := Int.emod_add_ediv (cur * BASE + d) x
    linear_combination i1 - (BASE ^ rest.length) * hdm

/-- Scalar division by `0 < x ≤ 92233720368`: the magnitude is divided
(rounding down), the flag is kept. -/
theorem divInt64_small (a : BigInteger) (x : Int) (ha : DigitsOk a.digits) (hx0 : 0 < x)
    (hx1 : x ≤ 92233720368) :
    ∃ r, divInt64 a x = .ok r ∧ DigitsOk r.digits ∧ mag r.digits = mag a.digits / x ∧
      r.flag = a.flag := by
  unfold divInt64
  have hx : ¬ x = 0 := by omega
  have hxn : ¬ x < 0 := by omega
  rw [if_neg hx]
  by_cases hz : a.zero = true
  · rw [if_pos hz]
    refine ⟨a, rfl, ha, ?_, rfl⟩
    rw [(zero_iff a).mp hz]
    simp [mag]
  · rw [if_neg hz]
    simp only [if_neg hxn]
    obtain ⟨rem, r0, r1, i1, i2, i3⟩ := divLoop_spec a.flag x hx0 hx1 a.digits.reverse 0
      (inRange_reverse ha.inRange) (le_refl _) hx0
    rw [zero_mul, zero_add, List.reverse_reverse] at i1
    refine ⟨_, rfl, digitsOk_trimDigits _ ?_ (inRange_reverse i2), ?_, rfl⟩
    · intro hnil
      have : (divLoop a.flag x a.digits.reverse 0).length = 0 := by
        rw [← List.length_reverse, hnil]; rfl
      rw [i3, List.length_reverse] at this
      exact ha.1 (List.length_eq_zero.mp this)
    · show mag (trimDigits (divLoop a.flag x a.digits.reverse 0).reverse) = mag a.digits / x
      rw [mag_trimDigits, i1]
      rw [Int.add_comm, Int.add_mul_ediv_left _ _ hx, Int.ediv_eq_zero_of_lt r0 r1, zero_add]

end BigInteger

namespace BigInteger

/-! ### Comparison in terms of values -/

theorem lt_iff_val (a b : BigInteger) (ha : Canonical a) (hb : Canonical b) :
    a.lt b = true ↔ val a < val b := by
  unfold lt
  rw [decide_eq_true_iff, compare_eq_sign a b ha hb]
  rcases lt_trichotomy (val a - val b) 0 with h | h | h
  · rw [Int.sign_eq_neg_one_of_neg h]; constructor <;> intro _ <;> omega
  · rw [h]; simp; omega
  · rw [Int.sign_eq_one_of_pos h]; constructor <;> intro _ <;> omega

theorem positive_iff_val (a : BigInteger) (ha : Canonical a) : a.positive = true ↔ 0 < val a := by
  unfold positive
  have h1 := canonical_flag_iff ha
  have h2 := val_eq_zero_iff ha.1
  rw [Bool.and_eq_true, h1, Bool.not_eq_true', ← Bool.not_eq_true, ← h2]
  omega

theorem beq_zero_iff_val (a : BigInteger) (ha : Canonical a) :
    a.beq (ofInt64 0) = true ↔ val a = 0 := by
  unfold beq
  rw [decide_eq_true_iff, compare_eq_sign a _ ha (by decide)]
  have : val (ofInt64 0) = 0 := by decide
  rw [this, sub_zero]
  exact Int.sign_eq_zero_iff_zero

/-! ### Arithmetic of the binary algorithm -/

theorem gcd_half_left (x y : Int) (hx2 : x % 2 = 0) (hy : y % 2 = 1) :
    Int.gcd (x / 2) y = Int.gcd x y := by
  have hxe : x = 2 * (x / 2) := by omega
  have hodd : Odd y.natAbs := by
    rw [Int.natAbs_odd]; exact Int.odd_iff.mpr hy
  have hcop : Nat.Coprime 2 y.natAbs := Nat.coprime_two_left.mpr hodd
  conv_rhs => rw [hxe]
  show _ = Nat.gcd (2 * (x / 2)).natAbs y.natAbs
  rw [Int.natAbs_mul]
  exact (Nat.Coprime.gcd_mul_left_cancel _ hcop).symm

theorem gcd_half_right (x y : Int) (hy2 : y % 2 = 0) (hx : x % 2 = 1) :
    Int.gcd x (y / 2) = Int.gcd x y := by
  rw [Int.gcd_comm, gcd_half_left y x hy2 hx, Int.gcd_comm]

theorem gcd_sub_left (x y : Int) : Int.gcd (x - y) y = Int.gcd x y := by
  apply Nat.dvd_antisymm
  · apply Int.natCast_dvd_natCast.mp
    apply Int.dvd_gcd
    · have h1 : (↑((x - y).gcd y) : Int) ∣ x - y := Int.gcd_dvd_left
      have h2 : (↑((x - y).gcd y) : Int) ∣ y := Int.gcd_dvd_right
      have := dvd_add h1 h2
      simpa using this
    · exact Int.gcd_dvd_right
  · apply Int.natCast_dvd_natCast.mp
    apply Int.dvd_gcd
    · exact dvd_sub Int.gcd_dvd_left Int.gcd_dvd_right
    · exact Int.gcd_dvd_right

theorem mod2_iff_val (a : BigInteger) (ha : Canonical a) (h0 : 0 ≤ val a) :
    a.mod2 = true ↔ val a % 2 = 1 := by
  rw [mod2_spec a ha.1, val_of_flag ((canonical_flag_iff ha).mpr h0)]

theorem half_val (a : BigInteger) (ha : Canonical a) (h0 : 0 ≤ val a) :
    Canonical (half a) ∧ val (half a) = val a / 2 := by
  obtain ⟨i1, _, i3⟩ := half_nonneg a ha ((canonical_flag_iff ha).mpr h0)
  exact ⟨i1, i3⟩

/-- One round of the main loop before the swap: from `x ≥ y > 0`, not both
even, the operands stay canonical and not negative, their sum drops, the
greatest common divisor is kept, and one of them is still odd. -/
theorem gcdStep_spec (x y : BigInteger) (hx : Canonical x) (hy : Canonical y)
    (hy0 : 0 < val y) (hxy : val y ≤ val x) (hodd : val x % 2 = 1 ∨ val y % 2 = 1) :
    Canonical (gcdStep x y).1 ∧ Canonical (gcdStep x y).2 ∧
      0 ≤ val (gcdStep x y).1 ∧ 0 ≤ val (gcdStep x y).2 ∧
      val (gcdStep x y).1 + val (gcdStep x y).2 < val x + val y ∧
      Int.gcd (val (gcdStep x y).1) (val (gcdStep x y).2) = Int.gcd (val x) (val y) ∧
      (val (gcdStep x y).1 % 2 = 1 ∨ val (gcdStep x y).2 % 2 = 1) := by
  have hx0 : 0 ≤ val x := by omega
  have mx := mod2_iff_val x hx hx0
  have my := mod2_iff_val y hy (le_of_lt hy0)
  unfold gcdStep
  by_cases h1 : x.mod2 = true
  · have hxo : val x % 2 = 1 := mx.mp h1
    by_cases h2 : y.mod2 = true
    · have hyo : val y % 2 = 1 := my.mp h2
      simp only [h1, h2, Bool.not_true, Bool.false_eq_true, if_false]
      obtain ⟨c1, c2⟩ := sub_val x y hx hy
      refine ⟨c1, hy, by rw [c2]; omega, le_of_lt hy0, by rw [c2]; omega, ?_, Or.inr hyo⟩
      rw [c2]; exact gcd_sub_left _ _
    · have hye : val y % 2 = 0 := by
        have : ¬ val y % 2 = 1 := fun h => h2 (my.mpr h)
        omega
      simp only [h1, bool_eq_false_of_not h2, Bool.not_true, Bool.not_false, Bool.false_eq_true,
        if_false, if_true]
      obtain ⟨c1, c2⟩ := half_val y hy (le_of_lt hy0)
      refine ⟨hx, c1, hx0, by rw [c2]; omega, by rw [c2]; omega, ?_, Or.inl hxo⟩
      rw [c2]; exact gcd_half_right _ _ hye hxo
  · have hxe : val x % 2 = 0 := by
      have : ¬ val x % 2 = 1 := fun h => h1 (mx.mpr h)
      omega
    have hyo : val y % 2 = 1 := by omega
    simp only [bool_eq_false_of_not h1, Bool.not_false, if_true]
    obtain ⟨c1, c2⟩ := half_val x hx hx0
    refine ⟨c1, hy, by rw [c2]; omega, le_of_lt hy0, by rw [c2]; omega, ?_, Or.inr hyo⟩
    rw [c2]; exact gcd_half_left _ _ hxe hyo

/-- The main loop returns the greatest common divisor once the fuel covers
the sum of the operands, which drops in every round. -/
theorem gcdLoop_spec : ∀ (f : Nat) (x y : BigInteger), Canonical x → Canonical y →
    0 ≤ val y → val y ≤ val x → (val x % 2 = 1 ∨ val y % 2 = 1) → val x + val y ≤ f →
    ∃ g, gcdLoop f x y = .ok g ∧ Canonical g ∧ val g = (Int.gcd (val x) (val y) : Int) := by
  intro f
  induction f with
  | zero =>
    intro x y _ _ hy0 hxy hodd hf
    exfalso
    have : val x = 0 ∧ val y = 0 := by constructor <;> omega
    omega
  | succ f ih =>
    intro x y hx hy hy0 hxy hodd hf
    simp only [gcdLoop]
    by_cases hp : y.positive = true
    · rw [if_pos hp]
      have hyp : 0 < val y := (positive_iff_val y hy).mp hp
      obtain ⟨s1, s2, s3, s4, s5, s6, s7⟩ := gcdStep_spec x y hx hy hyp hxy hodd
      have hlt := lt_iff_val _ _ s1 s2
      by_cases hsw : (gcdStep x y).1.lt (gcdStep x y).2 = true
      · rw [if_pos hsw]
        have hv := hlt.mp hsw
        obtain ⟨g, g1, g2, g3⟩ := ih _ _ s2 s1 s3 (le_of_lt hv) s7.symm (by push_cast at hf ⊢; omega)
        exact ⟨g, g1, g2, by rw [g3, Int.gcd_comm, s6]⟩
      · rw [if_neg hsw]
        have hv : ¬ val (gcdStep x y).1 < val (gcdStep x y).2 := fun h => hsw (hlt.mpr h)
        obtain ⟨g, g1, g2, g3⟩ := ih _ _ s1 s2 s4 (by omega) s7 (by push_cast at hf ⊢; omega)
        exact ⟨g, g1, g2, by rw [g3, s6]⟩
    · rw [if_neg hp]
      have hyz : val y = 0 := by
        have : ¬ 0 < val y := fun h => hp ((positive_iff_val y hy).mpr h)
        omega
      refine ⟨x, rfl, hx, ?_⟩
      rw [hyz, Int.gcd_zero_right, Int.natCast_natAbs, abs_of_nonneg (by omega)]

/-- The stripping loop removes `k` common factors of two and stops with one
operand odd, once the fuel covers the smaller operand. -/
theorem gcdStrip_spec : ∀ (f : Nat) (x y : BigInteger) (t : Int), Canonical x → Canonical y →
    0 ≤ val x → 0 < val y → val y ≤ f →
    ∃ (x1 y1 : BigInteger) (k : Nat), gcdStrip f x y t = .ok (x1, y1, t + k) ∧
      Canonical x1 ∧ Canonical y1 ∧ 0 ≤ val x1 ∧ 0 < val y1 ∧
      val x = 2 ^ k * val x1 ∧ val y = 2 ^ k * val y1 ∧
      (val x1 % 2 = 1 ∨ val y1 % 2 = 1) := by
  intro f
  induction f with
  | zero =>
    intro x y t _ _ _ hy0 hf
    exfalso
    have : val y ≤ 0 := by exact_mod_cast hf
    omega
  | succ f ih =>
    intro x y t hx hy hx0 hy0 hf
    have mx := mod2_iff_val x hx hx0
    have my := mod2_iff_val y hy (le_of_lt hy0)
    simp only [gcdStrip]
    by_cases hb : (!x.mod2 && !y.mod2) = true
    · rw [if_pos hb]
      rw [Bool.and_eq_true, Bool.not_eq_true', Bool.not_eq_true'] at hb
      have hxe : val x % 2 = 0 := by
        have : ¬ val x % 2 = 1 := fun h => by rw [mx.mpr h] at hb; exact absurd hb.1 (by decide)
        omega
      have hye : val y % 2 = 0 := by
        have : ¬ val y % 2 = 1 := fun h => by rw [my.mpr h] at hb; exact absurd hb.2 (by decide)
        omega
      obtain ⟨cx, vx⟩ := half_val x hx hx0
      obtain ⟨cy, vy⟩ := half_val y hy (le_of_lt hy0)
      have hf' : val y ≤ (f : Int) + 1 := by exact_mod_cast hf
      obtain ⟨x1, y1, k, e, c1, c2, p1, p2, q1, q2, od⟩ :=
        ih (half x) (half y) (t + 1) cx cy (by rw [vx]; omega) (by rw [vy]; omega)
          (by rw [vy]; omega)
      refine ⟨x1, y1, k + 1, ?_, c1, c2, p1, p2, ?_, ?_, od⟩
      · rw [e]; congr 3; push_cast; ring
      · rw [pow_succ, mul_assoc, mul_comm 2, ← mul_assoc, ← q1, vx]; omega
      · rw [pow_succ, mul_assoc, mul_comm 2, ← mul_assoc, ← q2, vy]; omega
    · rw [if_neg hb]
      refine ⟨x, y, 0, by simp, hx, hy, hx0, hy0, by simp, by simp, ?_⟩
      by_contra hcon
      apply hb
      rw [Bool.and_eq_true, Bool.not_eq_true', Bool.not_eq_true']
      constructor
      · exact bool_eq_false_of_not (fun h => hcon (Or.inl (mx.mp h)))
      · exact bool_eq_false_of_not (fun h => hcon (Or.inr (my.mp h)))

end BigInteger

namespace BigInteger

theorem BASE_le_two_pow : BASE ≤ 2 ^ 27 := by decide

/-- The body of `gcd` after the swap, for a second operand that is zero. -/
theorem gcd_ordered_zero (F : FFT) (fuel : Nat) (a0 b0 : BigInteger) (hb : Canonical b0)
    (hz : val b0 = 0) :
    (if b0.beq (ofInt64 0) then (.ok a0 : Except Err BigInteger)
      else do
        let st ← gcdStrip fuel a0 b0 0
        let a ← gcdLoop fuel st.1 st.2.1
        let p ← pow F (ofInt64 2) st.2.2
        pure (mul F a p)) = .ok a0 := by
  rw [if_pos ((beq_zero_iff_val b0 hb).mpr hz)]

/-- The body of `gcd` after the swap, for `a0 ≥ b0 > 0`: the three phases
return, and the result is `g1 · 2^k` for the `k` stripped factors of two and
the result `g1` of the main loop. -/
theorem gcd_ordered_pos (F : FFT) (hmul : MulExact F) (hsq : SquareExact F) (a0 b0 : BigInteger)
    (ha : Canonical a0) (hb : Canonical b0) (hb0 : 0 < val b0) (hab : val b0 ≤ val a0)
    (hlen : b0.digits.length < 2 ^ 58) (fuel : Nat) (hf : val a0 + val b0 ≤ fuel) :
    ∃ (x1 y1 : BigInteger) (k : Nat) (g1 p : BigInteger),
      gcdStrip fuel a0 b0 0 = .ok (x1, y1, (k : Int)) ∧
      val a0 = 2 ^ k * val x1 ∧ val b0 = 2 ^ k * val y1 ∧
      (val x1 % 2 = 1 ∨ val y1 % 2 = 1) ∧
      gcdLoop fuel x1 y1 = .ok g1 ∧ val g1 = (Int.gcd (val x1) (val y1) : Int) ∧
      pow F (ofInt64 2) (k : Int) = .ok p ∧ val p = 2 ^ k ∧
      (if b0.beq (ofInt64 0) then (.ok a0 : Except Err BigInteger)
        else do
          let st ← gcdStrip fuel a0 b0 0
          let a ← gcdLoop fuel st.1 st.2.1
          let p ← pow F (ofInt64 2) st.2.2
          pure (mul F a p)) = .ok (mul F g1 p) ∧
      Canonical (mul F g1 p) ∧ val (mul F g1 p) = (Int.gcd (val a0) (val b0) : Int) := by
  have ha0 : 0 ≤ val a0 := by omega
  obtain ⟨x1, y1, k, e, c1, c2, p1, p2, q1, q2, od⟩ :=
    gcdStrip_spec fuel a0 b0 0 ha hb ha0 hb0 (by omega)
  rw [zero_add] at e
  have h2k : (0 : Int) < 2 ^ k := by positivity
  have h2k1 : (1 : Int) ≤ 2 ^ k := by omega
  have hyx : val y1 ≤ val x1 := by
    rw [q1, q2] at hab
    exact le_of_mul_le_mul_left hab h2k
  have hsum : val x1 + val y1 ≤ fuel := by
    have e1 : val x1 ≤ val a0 := by rw [q1]; nlinarith
    have e2 : val y1 ≤ val b0 := by rw [q2]; nlinarith
    omega
  obtain ⟨g1, l1, l2, l3⟩ := gcdLoop_spec fuel x1 y1 c1 c2 (le_of_lt p2) hyx od hsum
  -- the exponent fits the 64 rounds of `pow`
  have hk : k < 2 ^ 64 := by
    have hfl : b0.flag = true := (canonical_flag_iff hb).mpr (le_of_lt hb0)
    have hm : val b0 < BASE ^ b0.digits.length := by
      rw [val_of_flag hfl]; exact mag_lt_pow _ hb.1.inRange
    have hB : BASE ^ b0.digits.length ≤ (2 : Int) ^ (27 * b0.digits.length) := by
      rw [pow_mul]
      exact pow_le_pow_left₀ (by decide) BASE_le_two_pow _
    have h1 : (2 : Int) ^ k ≤ val b0 := by rw [q2]; nlinarith
    have h2 : (2 : Int) ^ k < 2 ^ (27 * b0.digits.length) := by omega
    have h3 : k < 27 * b0.digits.length := (pow_lt_pow_iff_right₀ (by decide)).mp h2
    have h4 : (2 : Nat) ^ 58 = 288230376151711744 := by norm_num
    have h5 : (2 : Nat) ^ 64 = 18446744073709551616 := by norm_num
    omega
  obtain ⟨p, w1, w2, w3⟩ := powLoop_spec F hmul hsq 64 k (ofInt64 2) (ofInt64 1) hk
    (by decide) (by decide)
  have hv2 : val (ofInt64 2) = 2 := by decide
  have hv1 : val (ofInt64 1) = 1 := by decide
  rw [hv2, hv1, one_mul] at w3
  obtain ⟨m1, m2⟩ := hmul g1 p l2 w2
  have hnz : ¬ b0.beq (ofInt64 0) = true := by
    rw [beq_zero_iff_val b0 hb]; omega
  refine ⟨x1, y1, k, g1, p, e, q1, q2, od, l1, l3, w1, w3, ?_, m1, ?_⟩
  · rw [if_neg hnz, e, bind_ok]
    show (gcdLoop fuel x1 y1 >>= fun a => pow F (ofInt64 2) (k : Int) >>= fun p =>
      pure (mul F a p)) = _
    rw [l1, bind_ok]
    have w1' : pow F (ofInt64 2) (k : Int) = .ok p := w1
    rw [w1', bind_ok]
    rfl
  · rw [m2, l3, w3, q1, q2, Int.gcd_mul_left]
    push_cast
    rw [abs_of_pos h2k]
    ring

end BigInteger

namespace BigInteger

/-- Binary GCD on canonical operands.  For canonical `a, b ≥ 0` (whose digit vectors have
fewer than `2^58` entries, so that the count of stripped factors fits the
64-bit `t`), and with exact products, `a.gcd(b)` returns once the fuel covers
`a + b`, and the result is the canonical greatest common divisor; `gcd(a, 0)`
is `a`.  One round of the main loop, entered with `x ≥ y > 0` not both even,
leaves operands that are not negative, in order after the swap, with a
smaller sum, the same greatest common divisor, and not both even.  For
`a ≥ b > 0` the result is `g1 · 2^k`, where the stripping loop removed `k`
common factors of two and `g1` is what the main loop returned. -/
theorem gcd_canonical_spec (F : FFT) (hmul : MulExact F) (hsq : SquareExact F) (a b : BigInteger)
    (ha : Canonical a) (hb : Canonical b) (ha0 : 0 ≤ val a) (hb0 : 0 ≤ val b)
    (hla : a.digits.length < 2 ^ 58) (hlb : b.digits.length < 2 ^ 58) :
    (∃ fuel0 : Nat, ∀ fuel, fuel0 ≤ fuel →
      ∃ g, gcd F fuel a b = .ok g ∧ Canonical g ∧ val g = (Int.gcd (val a) (val b) : Int)) ∧
    (val b = 0 → ∀ fuel, gcd F fuel a b = .ok a) ∧
    (∀ x y : BigInteger, Canonical x → Canonical y → 0 < val y → val y ≤ val x →
      (val x % 2 = 1 ∨ val y % 2 = 1) →
      0 ≤ val (gcdStep x y).1 ∧ 0 ≤ val (gcdStep x y).2 ∧
      val (if (gcdStep x y).1.lt (gcdStep x y).2 then (gcdStep x y).1 else (gcdStep x y).2) ≤
        val (if (gcdStep x y).1.lt (gcdStep x y).2 then (gcdStep x y).2 else (gcdStep x y).1) ∧
      val (gcdStep x y).1 + val (gcdStep x y).2 < val x + val y ∧
      Int.gcd (val (gcdStep x y).1) (val (gcdStep x y).2) = Int.gcd (val x) (val y) ∧
      (val (gcdStep x y).1 % 2 = 1 ∨ val (gcdStep x y).2 % 2 = 1)) ∧
    (0 < val b → val b ≤ val a → ∀ fuel : Nat, val a + val b ≤ fuel →
      ∃ (x1 y1 : BigInteger) (k : Nat) (g1 p : BigInteger),
        gcdStrip fuel a b 0 = .ok (x1, y1, (k : Int)) ∧
        val a = 2 ^ k * val x1 ∧ val b = 2 ^ k * val y1 ∧ (val x1 % 2 = 1 ∨ val y1 % 2 = 1) ∧
        gcdLoop fuel x1 y1 = .ok g1 ∧ val g1 = (Int.gcd (val x1) (val y1) : Int) ∧
        pow F (ofInt64 2) (k : Int) = .ok p ∧ val p = 2 ^ k ∧
        gcd F fuel a b = .ok (mul F g1 p)) := by
  have hlt := lt_iff_val a b ha hb
  refine ⟨⟨(val a + val b).toNat, ?_⟩, ?_, ?_, ?_⟩
  · intro fuel hfuel
    have hf : val a + val b ≤ fuel := by omega
    unfold gcd
    by_cases hsw : a.lt b = true
    · have hv := hlt.mp hsw
      simp only [hsw, if_true]
      rcases lt_or_eq_of_le ha0 with hpos | hzero
      · obtain ⟨x1, y1, k, g1, p, -, -, -, -, -, -, -, -, r1, r2, r3⟩ :=
          gcd_ordered_pos F hmul hsq b a hb ha hpos (le_of_lt hv) hla fuel (by omega)
        exact ⟨_, r1, r2, by rw [r3, Int.gcd_comm]⟩
      · refine ⟨b, gcd_ordered_zero F fuel b a ha hzero.symm, hb, ?_⟩
        rw [← hzero, Int.gcd_zero_left, Int.natCast_natAbs, abs_of_nonneg hb0]
    · have hv : ¬ val a < val b := fun h => hsw (hlt.mpr h)
      simp only [bool_eq_false_of_not hsw, Bool.false_eq_true, if_false]
      rcases lt_or_eq_of_le hb0 with hpos | hzero
      · obtain ⟨x1, y1, k, g1, p, -, -, -, -, -, -, -, -, r1, r2, r3⟩ :=
          gcd_ordered_pos F hmul hsq a b ha hb hpos (by omega) hlb fuel hf
        exact ⟨_, r1, r2, r3⟩
      · refine ⟨a, gcd_ordered_zero F fuel a b hb hzero.symm, ha, ?_⟩
        rw [← hzero, Int.gcd_zero_right, Int.natCast_natAbs, abs_of_nonneg ha0]
  · intro hz fuel
    have hsw : a.lt b = false := bool_eq_false_of_not (fun h => by have := hlt.mp h; omega)
    unfold gcd
    simp only [hsw, Bool.false_eq_true, if_false]
    exact gcd_ordered_zero F fuel a b hb hz
  · intro x y hx hy hy0 hxy hodd
    obtain ⟨s1, s2, s3, s4, s5, s6, s7⟩ := gcdStep_spec x y hx hy hy0 hxy hodd
    refine ⟨s3, s4, ?_, s5, s6, s7⟩
    have hl := lt_iff_val _ _ s1 s2
    by_cases hsw : (gcdStep x y).1.lt (gcdStep x y).2 = true
    · rw [if_pos hsw, if_pos hsw]; exact le_of_lt (hl.mp hsw)
    · rw [if_neg hsw, if_neg hsw]
      have : ¬ val (gcdStep x y).1 < val (gcdStep x y).2 := fun h => hsw (hl.mpr h)
      omega
  · intro hpos hab fuel hf
    have hsw : a.lt b = false := bool_eq_false_of_not (fun h => by have := hlt.mp h; omega)
    obtain ⟨x1, y1, k, g1, p, r1, r2, r3, r4, r5, r6, r7, r8, r9, -, -⟩ :=
      gcd_ordered_pos F hmul hsq a b ha hb hpos hab hlb fuel hf
    refine ⟨x1, y1, k, g1, p, r1, r2, r3, r4, r5, r6, r7, r8, ?_⟩
    unfold gcd
    simp only [hsw, Bool.false_eq_true, if_false]
    exact r9

theorem gcd_canonical_spec_witness :
    MulExact exactFFT ∧ SquareExact exactFFT ∧
    Canonical ⟨[48], true⟩ ∧ Canonical ⟨[0, 18], true⟩ ∧
    0 ≤ val ⟨[48], true⟩ ∧ 0 ≤ val ⟨[0, 18], true⟩ ∧
    (BigInteger.mk [48] true).digits.length < 2 ^ 58 ∧
    (BigInteger.mk [0, 18] true).digits.length < 2 ^ 58 ∧
    ((∃ fuel0 : Nat, ∀ fuel, fuel0 ≤ fuel →
      ∃ g, gcd exactFFT fuel ⟨[48], true⟩ ⟨[0, 18], true⟩ = .ok g ∧ Canonical g ∧
        val g = (Int.gcd (val ⟨[48], true⟩) (val ⟨[0, 18], true⟩) : Int)) ∧
    (val ⟨[0, 18], true⟩ = 0 → ∀ fuel, gcd exactFFT fuel ⟨[48], true⟩ ⟨[0, 18], true⟩ =
      .ok ⟨[48], true⟩) ∧
    (∀ x y : BigInteger, Canonical x → Canonical y → 0 < val y → val y ≤ val x →
      (val x % 2 = 1 ∨ val y % 2 = 1) →
      0 ≤ val (gcdStep x y).1 ∧ 0 ≤ val (gcdStep x y).2 ∧
      val (if (gcdStep x y).1.lt (gcdStep x y).2 then (gcdStep x y).1 else (gcdStep x y).2) ≤
        val (if (gcdStep x y).1.lt (gcdStep x y).2 then (gcdStep x y).2 else (gcdStep x y).1) ∧
      val (gcdStep x y).1 + val (gcdStep x y).2 < val x + val y ∧
      Int.gcd (val (gcdStep x y).1) (val (gcdStep x y).2) = Int.gcd (val x) (val y) ∧
      (val (gcdStep x y).1 % 2 = 1 ∨ val (gcdStep x y).2 % 2 = 1)) ∧
    (0 < val ⟨[0, 18], true⟩ → val ⟨[0, 18], true⟩ ≤ val ⟨[48], true⟩ → ∀ fuel : Nat,
      val ⟨[48], true⟩ + val ⟨[0, 18], true⟩ ≤ fuel →
      ∃ (x1 y1 : BigInteger) (k : Nat) (g1 p : BigInteger),
        gcdStrip fuel ⟨[48], true⟩ ⟨[0, 18], true⟩ 0 = .ok (x1, y1, (k : Int)) ∧
        val ⟨[48], true⟩ = 2 ^ k * val x1 ∧ val ⟨[0, 18], true⟩ = 2 ^ k * val y1 ∧
        (val x1 % 2 = 1 ∨ val y1 % 2 = 1) ∧
        gcdLoop fuel x1 y1 = .ok g1 ∧ val g1 = (Int.gcd (val x1) (val y1) : Int) ∧
        pow exactFFT (ofInt64 2) (k : Int) = .ok p ∧ val p = 2 ^ k ∧
        gcd exactFFT fuel ⟨[48], true⟩ ⟨[0, 18], true⟩ = .ok (mul exactFFT g1 p))) :=
  ⟨mulExact_exactFFT, squareExact_exactFFT, by decide, by decide, by decide, by decide,
    by decide, by decide,
    gcd_canonical_spec exactFFT mulExact_exactFFT squareExact_exactFFT ⟨[48], true⟩ ⟨[0, 18], true⟩
      (by decide) (by decide) (by decide) (by decide) (by decide) (by decide)⟩

end BigInteger

namespace BigInteger

/-! ### Facts used by the schoolbook division -/

theorem add_val (a b : BigInteger) (ha : Canonical a) (hb : Canonical b) :
    Canonical (add a b) ∧ val (add a b) = val a + val b := by
  have hpa := fun h => canonical_neg_mag_pos ha h
  have hpb := fun h => canonical_neg_mag_pos hb h
  obtain ⟨da, fa⟩ := a
  obtain ⟨db, fb⟩ := b
  cases fa <;> cases fb
  · have := neg_addMain ⟨db, true⟩ ⟨da, true⟩ hb.1 ha.1 rfl rfl (hpa rfl)
    simp only [val] at this ⊢
    simp only [Bool.false_eq_true, if_false] at this ⊢
    refine ⟨this.1, ?_⟩
    have h2 := this.2
    simp only [add, negative, subNonneg, abs, Bool.not_false, if_true] at h2 ⊢
    rw [h2]; ring
  · have := subMain_spec ⟨db, true⟩ ⟨da, true⟩ hb.1 ha.1 rfl rfl
    refine ⟨this.1, ?_⟩
    have h2 := this.2.1
    simp only [add, negative, addNonneg, abs, Bool.not_false, Bool.not_true, if_true, if_false,
      Bool.false_eq_true] at h2 ⊢
    rw [h2]; simp only [val, if_true, if_false, Bool.false_eq_true]; ring
  · have := subMain_spec ⟨da, true⟩ ⟨db, true⟩ ha.1 hb.1 rfl rfl
    refine ⟨this.1, ?_⟩
    have h2 := this.2.1
    simp only [add, negative, subNonneg, abs, Bool.not_false, Bool.not_true, if_true, if_false,
      Bool.false_eq_true] at h2 ⊢
    rw [h2]; simp only [val, if_true, if_false, Bool.false_eq_true]; ring
  · have := addMain_pos ⟨da, true⟩ ⟨db, true⟩ ha.1 hb.1 rfl rfl
    refine ⟨this.1, ?_⟩
    have h2 := this.2
    simp only [add, negative, addNonneg, abs, Bool.not_false, Bool.not_true, if_true, if_false,
      Bool.false_eq_true] at h2 ⊢
    rw [h2]; simp only [val, if_true]

/-- The scalar sum with `0 < x < BASE` on a digit vector in canonical shape. -/
theorem addSmallMain_spec (a : BigInteger) (x : Int) (ha : DigitsOk a.digits) (hx0 : 0 < x)
    (hx1 : x < BASE) :
    DigitsOk (addSmallMain a x).digits ∧ mag (addSmallMain a x).digits = mag a.digits + x ∧
      (addSmallMain a x).flag = a.flag := by
  obtain ⟨hne, hr, hlast⟩ := ha
  obtain ⟨ds, fl⟩ := a
  have hx1' : x < 100000000 := hx1
  cases ds with
  | nil => exact absurd rfl hne
  | cons d ds =>
    have hd := hr d (List.mem_cons_self _ _)
    have hd1 : d < 100000000 := hd.2
    have htl : InRange ds := fun e he => hr e (List.mem_cons_of_mem _ he)
    unfold addSmallMain
    simp only [get, List.getD_cons_zero, List.tail_cons]
    split_ifs with hlt
    · refine ⟨⟨List.cons_ne_nil _ _, inRange_cons ⟨by omega, hlt⟩ htl, ?_⟩, ?_, rfl⟩
      · intro hl
        cases ds with
        | nil => simp at hl
        | cons e es =>
          rw [List.getLast?_cons_cons]
          have := hlast (by simp)
          rw [List.getLast?_cons_cons] at this
          exact this
      · simp only [mag_cons]; ring
    · obtain ⟨i1, i2⟩ := incLoop_spec ds htl
      have hlt' : ¬ d + x < 100000000 := hlt
      have hr' : InRange ((d + x - BASE) :: incLoop ds) := by
        refine inRange_cons ?_ i1
        show 0 ≤ d + x - (100000000 : Int) ∧ d + x - (100000000 : Int) < 100000000
        omega
      refine ⟨digitsOk_trimDigits _ (List.cons_ne_nil _ _) hr', ?_, rfl⟩
      show mag (trimDigits ((d + x - BASE) :: incLoop ds)) = mag (d :: ds) + x
      rw [mag_trimDigits, mag_cons, i2, mag_cons]; ring

/-- The scalar sum `a + x` for `a ≥ 0` and a digit `0 ≤ x < BASE`. -/
theorem addInt32_digit (f : Nat) (a : BigInteger) (x : Int) (ha : Canonical a)
    (hf : a.flag = true) (hx0 : 0 ≤ x) (hx1 : x < BASE) :
    ∃ r, addInt32 (f + 1) a x = .ok r ∧ Canonical r ∧ r.flag = true ∧ val r = val a + x := by
  rcases lt_or_eq_of_le hx0 with hpos | hzero
  · rw [addInt32_pos f a x hf hpos]
    obtain ⟨i1, i2, i3⟩ := addSmallMain_spec a x ha.1 hpos hx1
    have hfl : (addSmallMain a x).flag = true := by rw [i3, hf]
    exact ⟨_, rfl, canonical_of_flag i1 hfl, hfl, by rw [val_of_flag hfl, val_of_flag hf, i2]⟩
  · refine ⟨a, ?_, ha, hf, by rw [← hzero]; ring⟩
    rw [← hzero]
    simp [addInt32, addSubInt32]

/-- Dropping the lowest digit: `(d + BASE·M) / (BASE·P) = M / P`. -/
theorem shift_div (d M P : Int) (hd0 : 0 ≤ d) (hd1 : d < BASE) (hP : 0 < P) :
    (d + BASE * M) / (BASE * P) = M / P := by
  have hdm := Int.emod_add_ediv M P
  have hr0 := Int.emod_nonneg M (show P ≠ 0 by omega)
  have hr1 := Int.emod_lt_of_pos M hP
  have e : d + BASE * M = (BASE * (M % P) + d) + (BASE * P) * (M / P) := by
    linear_combination (-BASE) * hdm
  have hBP : BASE * P ≠ 0 := (mul_pos BASE_pos hP).ne.symm
  have hlt : BASE * (M % P) + d < BASE * P := by
    have : BASE * (M % P) ≤ BASE * (P - 1) := mul_le_mul_of_nonneg_left (by omega) (by decide)
    linarith
  rw [e, Int.add_mul_ediv_left _ _ hBP,
    Int.ediv_eq_zero_of_lt (add_nonneg (mul_nonneg (by decide) hr0) hd0) hlt, zero_add]

/-- The two digits at the indices `j + 1` and `j` of a vector with at most
`j + 2` digits are its value divided by `BASE ^ j`. -/
theorem top_two_digits : ∀ (j : Nat) (l : List Int), InRange l → l.length ≤ j + 2 →
    l.getD (j + 1) 0 * BASE + l.getD j 0 = mag l / BASE ^ j := by
  intro j
  induction j with
  | zero =>
    intro l hr hl
    match l, hr, hl with
    | [], _, _ => simp [mag]
    | [a], _, _ => simp [mag]
    | [a, b], _, _ => simp [mag]; ring
    | _ :: _ :: _ :: _, _, hl => simp at hl
  | succ j ih =>
    intro l hr hl
    cases l with
    | nil => simp [mag]
    | cons d tl =>
      have hd := hr d (List.mem_cons_self _ _)
      have htl : InRange tl := fun e he => hr e (List.mem_cons_of_mem _ he)
      simp only [List.getD_cons_succ]
      rw [ih tl htl (by simp at hl; omega), mag_cons, pow_succ, mul_comm (BASE ^ j) BASE,
        shift_div d _ _ hd.1 hd.2 (pow_pos BASE_pos _)]

/-- The last digit of a vector is its value divided by `BASE ^ (length - 1)`. -/
theorem last_digit_eq : ∀ (l : List Int), InRange l → l ≠ [] →
    l.getLastD 0 = mag l / BASE ^ (l.length - 1) := by
  intro l
  induction l with
  | nil => intro _ h; exact absurd rfl h
  | cons d tl ih =>
    intro hr _
    have hd := hr d (List.mem_cons_self _ _)
    have htl : InRange tl := fun e he => hr e (List.mem_cons_of_mem _ he)
    cases tl with
    | nil => simp [mag]
    | cons e es =>
      have := ih htl (List.cons_ne_nil _ _)
      simp only [List.getLastD_cons, List.length_cons, Nat.add_sub_cancel] at this ⊢
      rw [mag_cons, pow_succ, mul_comm (BASE ^ es.length) BASE,
        shift_div d _ _ hd.1 hd.2 (pow_pos BASE_pos _)]
      exact this

theorem back_eq_div (a : BigInteger) (h : DigitsOk a.digits) :
    a.back = mag a.digits / BASE ^ (a.digits.length - 1) :=
  last_digit_eq a.digits h.inRange h.1

/-- The scaling factor brings the top digit of the divisor to at least
`BASE / 2`: for a top digit `1 ≤ v < BASE`, `(BASE / (v + 1)) · v ≥ BASE / 2`. -/
theorem scale_top (v : Int) (h0 : 1 ≤ v) (h1 : v < BASE) : BASE ≤ 2 * (BASE / (v + 1) * v) := by
  have hB : BASE = 100000000 := rfl
  rw [hB] at h1 ⊢
  have hdm := Int.emod_add_ediv 100000000 (v + 1)
  have hs0 := Int.emod_nonneg 100000000 (show v + 1 ≠ 0 by omega)
  have hs1 := Int.emod_lt_of_pos 100000000 (show 0 < v + 1 by omega)
  have ht1 : 1 ≤ (100000000 : Int) / (v + 1) := Int.le_ediv_of_mul_le (by omega) (by omega)
  generalize (100000000 : Int) / (v + 1) = t at hdm ht1 ⊢
  generalize (100000000 : Int) % (v + 1) = s at hdm hs0 hs1
  rcases eq_or_lt_of_le h0 with hv | hv
  · subst hv
    omega
  · rcases eq_or_lt_of_le ht1 with ht | ht
    · subst ht
      omega
    · have h2 : 2 * (v - 1) ≤ t * (v - 1) := mul_le_mul_of_nonneg_right (by omega) (by omega)
      nlinarith

end BigInteger

namespace BigInteger

theorem back_pos {b : BigInteger} (hb : DigitsOk b.digits) (hz : b.zero = false) :
    1 ≤ b.back := by
  obtain ⟨t, ht, ht0⟩ := good_last ⟨hb, hz⟩
  have h0 := (back_range hb).1
  have : b.back = t := by
    unfold back
    rw [List.getLastD_eq_getLast?, ht]; rfl
  omega

/-- The scaling factor `t = BASE / (back + 1)` of the schoolbook branch lies in
`[1, BASE / 2]` and fits the 32-bit parameter it is passed as. -/
theorem scale_range {b : BigInteger} (hb : DigitsOk b.digits) (hz : b.zero = false) :
    wrap32 (BASE.tdiv (b.back + 1)) = BASE / (b.back + 1) ∧ 1 ≤ BASE / (b.back + 1) ∧
      BASE / (b.back + 1) ≤ 50000000 := by
  have h1 := back_pos hb hz
  have h2 : b.back < 100000000 := (back_range hb).2
  have hB : BASE = 100000000 := rfl
  rw [Int.tdiv_eq_ediv (by decide) (by omega), hB]
  have hq1 : 1 ≤ (100000000 : Int) / (b.back + 1) :=
    Int.le_ediv_of_mul_le (by omega) (by omega)
  have hq2 : (100000000 : Int) / (b.back + 1) ≤ 50000000 := by
    have : (100000000 : Int) / (b.back + 1) < 50000001 :=
      Int.ediv_lt_of_lt_mul (by omega) (by omega)
    omega
  exact ⟨wrap32_id (by omega) (by omega), hq1, hq2⟩

theorem digits_length_le {l : List Int} (h : DigitsOk l) {k : Nat} (hm : mag l < BASE ^ k)
    (hk : 1 ≤ k) : l.length ≤ k := by
  by_contra hcon
  have h1 : 1 < l.length := by omega
  have h2 := digitsOk_lower h h1
  have h3 : BASE ^ k ≤ BASE ^ (l.length - 1) :=
    pow_le_pow_right₀ (by decide) (by omega)
  omega

/-- After scaling, the divisor keeps its sign and shape and its top digit is
at least `BASE / 2`. -/
theorem norm_top (b : BigInteger) (hb : DigitsOk b.digits) (hz : b.zero = false)
    (hf : b.flag = true) :
    Canonical (mulInt32 b (BASE / (b.back + 1))) ∧
      (mulInt32 b (BASE / (b.back + 1))).flag = true ∧
      val (mulInt32 b (BASE / (b.back + 1))) = mag b.digits * (BASE / (b.back + 1)) ∧
      BASE ≤ 2 * (mulInt32 b (BASE / (b.back + 1))).back := by
  obtain ⟨-, t1, t2⟩ := scale_range hb hz
  have hv1 := back_pos hb hz
  have hv2 := (back_range hb).2
  have hsc := scale_top b.back hv1 hv2
  have hle : BASE / (b.back + 1) * (b.back + 1) ≤ BASE := Int.ediv_mul_le _ (by omega)
  generalize BASE / (b.back + 1) = t at *
  obtain ⟨c1, c2, c3⟩ := mulInt32_nonneg b t (canonical_of_flag hb hf) (by omega)
  have hfl := c3 hf
  generalize mulInt32 b t = b1 at *
  refine ⟨c1, hfl, by rw [val_of_flag hfl, c2], ?_⟩
  -- the top digit of `b` brackets its value
  have hm0 : 1 ≤ b.digits.length := length_pos_of_digitsOk hb
  have hP0 : (0 : Int) < BASE ^ (b.digits.length - 1) := pow_pos BASE_pos _
  have hbk := back_eq_div b hb
  have hlo : b.back * BASE ^ (b.digits.length - 1) ≤ mag b.digits := by
    rw [hbk]; exact Int.ediv_mul_le _ hP0.ne.symm
  have hhi : mag b.digits < (b.back + 1) * BASE ^ (b.digits.length - 1) := by
    rw [hbk]; exact Int.lt_ediv_add_one_mul_self _ hP0
  have hpow : BASE ^ b.digits.length = BASE * BASE ^ (b.digits.length - 1) := by
    rw [← pow_succ']; congr 1; omega
  have hB : BASE = 100000000 := rfl
  -- bounds on the value of the scaled divisor
  have hlow1 : 50000000 * BASE ^ (b.digits.length - 1) ≤ mag b1.digits := by
    rw [c2]
    have e1 : (t * b.back) * BASE ^ (b.digits.length - 1) ≤ mag b.digits * t := by
      have := mul_le_mul_of_nonneg_left hlo (show (0 : Int) ≤ t by omega)
      linarith
    have e2 : 50000000 * BASE ^ (b.digits.length - 1) ≤
        (t * b.back) * BASE ^ (b.digits.length - 1) :=
      mul_le_mul_of_nonneg_right (by rw [hB] at hsc; omega) hP0.le
    linarith
  have hup1 : mag b1.digits < BASE ^ b.digits.length := by
    rw [c2, hpow]
    have e1 : mag b.digits * t < (b.back + 1) * BASE ^ (b.digits.length - 1) * t :=
      mul_lt_mul_of_pos_right hhi (by omega)
    have e2 : (t * (b.back + 1)) * BASE ^ (b.digits.length - 1) ≤
        BASE * BASE ^ (b.digits.length - 1) :=
      mul_le_mul_of_nonneg_right hle hP0.le
    linarith
  -- hence the scaled divisor has the same number of digits
  have hlen1 : b1.digits.length ≤ b.digits.length := digits_length_le c1.1 hup1 hm0
  have hlen2 : b.digits.length ≤ b1.digits.length := by
    by_contra hcon
    have h1 := mag_lt_pow _ c1.1.inRange
    have h2 : BASE ^ b1.digits.length ≤ BASE ^ (b.digits.length - 1) :=
      pow_le_pow_right₀ (by decide) (by omega)
    have h3 : BASE ^ (b.digits.length - 1) ≤ 50000000 * BASE ^ (b.digits.length - 1) := by
      linarith
    omega
  have hlen : b1.digits.length = b.digits.length := le_antisymm hlen1 hlen2
  have hbk1 := back_eq_div b1 c1.1
  rw [hlen] at hbk1
  have : 50000000 ≤ b1.back := by
    rw [hbk1]; exact Int.le_ediv_of_mul_le hP0 hlow1
  rw [hB]; omega

/-- The arithmetic of the quotient estimate: with `w = V / P ≥ BASE / 2` the top
digit of the divisor `V` and `R < V · BASE` the running remainder, the estimate
`(R / P) / w` is at least the true digit `R / V` and at most `BASE + 1`. -/
theorem estimate_bounds (V R P : Int) (hP : 0 < P) (hV : 0 < V) (hR0 : 0 ≤ R)
    (hR1 : R < V * BASE) (hw : BASE ≤ 2 * (V / P)) :
    R / V ≤ R / P / (V / P) ∧ R / P / (V / P) ≤ BASE + 1 ∧ 0 ≤ R / P / (V / P) := by
  have hB : BASE = 100000000 := rfl
  have hwpos : 0 < V / P := by rw [hB] at hw; omega
  have hVlo : V / P * P ≤ V := Int.ediv_mul_le _ hP.ne.symm
  have hVhi : V < (V / P + 1) * P := Int.lt_ediv_add_one_mul_self _ hP
  have hTlo : R / P * P ≤ R := Int.ediv_mul_le _ hP.ne.symm
  have hThi : R < (R / P + 1) * P := Int.lt_ediv_add_one_mul_self _ hP
  have hQlo : R / V * V ≤ R := Int.ediv_mul_le _ hV.ne.symm
  have hq0 : 0 ≤ R / V := Int.ediv_nonneg hR0 hV.le
  have ht0 : 0 ≤ R / P := Int.ediv_nonneg hR0 hP.le
  generalize V / P = w at *
  generalize R / P = top at *
  generalize R / V = q at *
  refine ⟨?_, ?_, Int.ediv_nonneg ht0 hwpos.le⟩
  · apply Int.le_ediv_of_mul_le hwpos
    have h1 : q * (w * P) ≤ q * V := mul_le_mul_of_nonneg_left hVlo hq0
    have h2 : (q * w) * P < (top + 1) * P := by linarith
    have h3 : q * w < top + 1 := lt_of_mul_lt_mul_right h2 hP.le
    omega
  · have h1 : top * P < (w + 1) * P * BASE := by
      have : V * BASE < (w + 1) * P * BASE := mul_lt_mul_of_pos_right hVhi BASE_pos
      linarith
    have h2 : top * P < ((w + 1) * BASE) * P := by linarith
    have h3 : top < (w + 1) * BASE := lt_of_mul_lt_mul_right h2 hP.le
    have h4 : top < (BASE + 2) * w := by rw [hB] at h3 hw ⊢; linarith
    have h5 : top / w < BASE + 2 := Int.ediv_lt_of_lt_mul hwpos h4
    omega

theorem negative_iff_val (a : BigInteger) (ha : Canonical a) : a.negative = true ↔ val a < 0 := by
  unfold negative
  have := canonical_flag_iff ha
  rw [Bool.not_eq_true', ← Bool.not_eq_true, this]
  omega

/-- The downward adjustment: started from an estimate `d` at least the true
digit `R / V` with `r = R - d·V`, the loop stops at the true digit with the
remainder `R - (R / V)·V`, once the fuel covers `d - R / V`. -/
theorem fixLoop_spec (b : BigInteger) (hb : Canonical b) (hV : 0 < val b) (R : Int) :
    ∀ (f : Nat) (r : BigInteger) (d : Int), Canonical r → val r = R - d * val b →
      R / val b ≤ d → d - R / val b ≤ f →
      ∃ r1, fixLoop b f r d = .ok (r1, R / val b) ∧ Canonical r1 ∧
        val r1 = R - R / val b * val b := by
  have hQlo : R / val b * val b ≤ R := Int.ediv_mul_le _ hV.ne.symm
  have hQhi : R < (R / val b + 1) * val b := Int.lt_ediv_add_one_mul_self _ hV
  intro f
  induction f with
  | zero =>
    intro r d hr hv hd hf
    have hdq : d = R / val b := by
      have : d - R / val b ≤ 0 := by exact_mod_cast hf
      omega
    have hnn : ¬ r.negative = true := by
      rw [negative_iff_val r hr, hv, hdq]; omega
    simp only [fixLoop, if_neg hnn]
    exact ⟨r, by rw [hdq], hr, by rw [hv, hdq]⟩
  | succ f ih =>
    intro r d hr hv hd hf
    simp only [fixLoop]
    by_cases hn : r.negative = true
    · rw [if_pos hn]
      have hneg := (negative_iff_val r hr).mp hn
      have hdq : R / val b < d := by
        rcases lt_or_eq_of_le hd with h | h
        · exact h
        · exfalso; rw [hv, ← h] at hneg; omega
      obtain ⟨c1, c2⟩ := add_val r b hr hb
      exact ih (add r b) (d - 1) c1 (by rw [c2, hv]; ring) (by omega)
        (by push_cast at hf; omega)
    · rw [if_neg hn]
      have hnn : ¬ val r < 0 := fun h => hn ((negative_iff_val r hr).mpr h)
      have hdq : d = R / val b := by
        by_contra hne
        have h1 : R / val b + 1 ≤ d := by omega
        have h2 : (R / val b + 1) * val b ≤ d * val b := mul_le_mul_of_nonneg_right h1 hV.le
        rw [hv] at hnn
        omega
      exact ⟨r, by rw [hdq], hr, by rw [hv, hdq]⟩

end BigInteger

namespace BigInteger

/-- One digit step of the schoolbook division.  With a scaled divisor `b1 > 0`
whose top digit is at least `BASE / 2`, a running remainder `0 ≤ r < b1` and the
next digit `ai`: the new remainder is `r · BASE + ai`, the estimate is at least
the true digit and at most `BASE + 1` (so it passes unchanged through the
32-bit parameter), and the adjusting loop returns the true digit, which lies
in `[0, BASE)`, with a remainder in `[0, b1)`. -/
theorem knuth_step (b1 : BigInteger) (hb : Canonical b1) (hbf : b1.flag = true)
    (hw : BASE ≤ 2 * b1.back) (fuel : Nat) (hfuel : BASE + 2 ≤ fuel)
    (r : BigInteger) (hr : Canonical r) (hr0 : 0 ≤ val r) (hr1 : val r < val b1)
    (ai : Int) (ha0 : 0 ≤ ai) (ha1 : ai < BASE) :
    ∃ r1 r2, addInt32 fuel (mulInt32 r (wrap32 BASE)) (wrap32 ai) = .ok r1 ∧
      val r1 = val r * BASE + ai ∧
      val r1 / val b1 ≤
        (r1.get b1.digits.length * BASE + r1.get (b1.digits.length - 1)).tdiv b1.back ∧
      (r1.get b1.digits.length * BASE + r1.get (b1.digits.length - 1)).tdiv b1.back ≤ BASE + 1 ∧
      wrap32 ((r1.get b1.digits.length * BASE + r1.get (b1.digits.length - 1)).tdiv b1.back) =
        (r1.get b1.digits.length * BASE + r1.get (b1.digits.length - 1)).tdiv b1.back ∧
      fixLoop b1 fuel
        (sub r1 (mulInt32 b1 (wrap32
          ((r1.get b1.digits.length * BASE + r1.get (b1.digits.length - 1)).tdiv b1.back))))
        ((r1.get b1.digits.length * BASE + r1.get (b1.digits.length - 1)).tdiv b1.back) =
        .ok (r2, val r1 / val b1) ∧
      Canonical r2 ∧ 0 ≤ val r2 ∧ val r2 < val b1 ∧
      val r2 = val r1 - val r1 / val b1 * val b1 ∧
      0 ≤ val r1 / val b1 ∧ val r1 / val b1 < BASE := by
  have hB : BASE = 100000000 := rfl
  have hV : 0 < val b1 := by omega
  have hm : 1 ≤ b1.digits.length := length_pos_of_digitsOk hb.1
  have hrf : r.flag = true := (canonical_flag_iff hr).mpr hr0
  have hwB : wrap32 BASE = BASE := by decide
  have hwa : wrap32 ai = ai := wrap32_id (by omega) (by rw [hB] at ha1; omega)
  obtain ⟨f, rfl⟩ : ∃ f, fuel = f + 1 := ⟨fuel - 1, by
    have : (100000002 : Int) ≤ fuel := by rw [hB] at hfuel; exact hfuel
    omega⟩
  obtain ⟨m1, m2, m3⟩ := mulInt32_nonneg r BASE hr (by decide)
  have mfl := m3 hrf
  obtain ⟨r1, e1, c1, f1, v1⟩ := addInt32_digit f (mulInt32 r BASE) ai m1 mfl ha0 ha1
  rw [val_of_flag mfl, m2, ← val_of_flag hrf] at v1
  have hR0 : 0 ≤ val r1 := by
    rw [v1]
    have := mul_nonneg hr0 (show (0 : Int) ≤ BASE by decide)
    linarith
  have hR1 : val r1 < val b1 * BASE := by
    rw [v1]
    have : (val r + 1) * BASE ≤ val b1 * BASE := mul_le_mul_of_nonneg_right (by omega) (by decide)
    linarith
  -- the remainder has at most one digit more than the divisor
  have hVm : val b1 < BASE ^ b1.digits.length := by
    rw [val_of_flag hbf]; exact mag_lt_pow _ hb.1.inRange
  have hlen : r1.digits.length ≤ b1.digits.length + 1 := by
    apply digits_length_le c1.1 _ (by omega)
    rw [← val_of_flag f1, pow_succ]
    have : val b1 * BASE < BASE ^ b1.digits.length * BASE :=
      mul_lt_mul_of_pos_right hVm BASE_pos
    linarith
  have htop : r1.get b1.digits.length * BASE + r1.get (b1.digits.length - 1) =
      val r1 / BASE ^ (b1.digits.length - 1) := by
    have := top_two_digits (b1.digits.length - 1) r1.digits c1.1.inRange (by omega)
    rw [Nat.sub_add_cancel hm] at this
    rw [val_of_flag f1]
    exact this
  have hbk : b1.back = val b1 / BASE ^ (b1.digits.length - 1) := by
    rw [val_of_flag hbf]; exact back_eq_div b1 hb.1
  have hP : (0 : Int) < BASE ^ (b1.digits.length - 1) := pow_pos BASE_pos _
  rw [hbk] at hw
  obtain ⟨b1', b2', b3'⟩ := estimate_bounds (val b1) (val r1) _ hP hV hR0 hR1 hw
  have hwpos : 0 ≤ val b1 / BASE ^ (b1.digits.length - 1) := by
    have := BASE_pos
    omega
  have hest : (r1.get b1.digits.length * BASE + r1.get (b1.digits.length - 1)).tdiv b1.back =
      val r1 / BASE ^ (b1.digits.length - 1) / (val b1 / BASE ^ (b1.digits.length - 1)) := by
    rw [htop, hbk, Int.tdiv_eq_ediv (Int.ediv_nonneg hR0 hP.le) hwpos]
  generalize val r1 / BASE ^ (b1.digits.length - 1) / (val b1 / BASE ^ (b1.digits.length - 1))
    = est at b1' b2' b3' hest
  have hwe : wrap32 est = est := wrap32_id (by omega) (by rw [hB] at b2'; omega)
  obtain ⟨n1, n2, n3⟩ := mulInt32_nonneg b1 est hb b3'
  have nfl := n3 hbf
  obtain ⟨s1, s2⟩ := sub_val r1 (mulInt32 b1 est) c1 n1
  have hq0 : 0 ≤ val r1 / val b1 := Int.ediv_nonneg hR0 hV.le
  obtain ⟨r2, g1, g2, g3⟩ := fixLoop_spec b1 hb hV (val r1) (f + 1) (sub r1 (mulInt32 b1 est)) est
    s1 (by rw [s2, val_of_flag nfl, n2, ← val_of_flag hbf]; ring) b1'
    (by rw [hB] at hfuel b2'; omega)
  have hQlo : val r1 / val b1 * val b1 ≤ val r1 := Int.ediv_mul_le _ hV.ne.symm
  have hQhi : val r1 < (val r1 / val b1 + 1) * val b1 := Int.lt_ediv_add_one_mul_self _ hV
  have hqB : val r1 / val b1 < BASE := Int.ediv_lt_of_lt_mul hV (by linarith)
  refine ⟨r1, r2, by rw [hwB, hwa]; exact e1, v1, ?_, ?_, ?_, ?_, g2, by rw [g3]; omega,
    by rw [g3]; linarith, g3, hq0, hqB⟩
  · rw [hest]; exact b1'
  · rw [hest]; exact b2'
  · rw [hest]; exact hwe
  · rw [hest, hwe]; exact g1

/-- The digit loop of the schoolbook division: the digits written are in
`[0, BASE)` and, read from the highest down, are the quotient of the value
formed by the running remainder and the remaining digits; the loop returns
once the fuel is at least `BASE + 2`. -/
theorem knuthLoop_spec (b1 : BigInteger) (hb : Canonical b1) (hbf : b1.flag = true)
    (hw : BASE ≤ 2 * b1.back) (fuel : Nat) (hfuel : BASE + 2 ≤ fuel) :
    ∀ (ais : List Int) (r : BigInteger), InRange ais → Canonical r → 0 ≤ val r →
      val r < val b1 →
      ∃ qs r1, knuthLoop fuel b1 b1.digits.length ais r = .ok (qs, r1) ∧ InRange qs ∧
        qs.length = ais.length ∧ Canonical r1 ∧ 0 ≤ val r1 ∧ val r1 < val b1 ∧
        val r * BASE ^ ais.length + mag ais.reverse = val b1 * mag qs.reverse + val r1 := by
  intro ais
  induction ais with
  | nil =>
    intro r _ hr hr0 hr1
    exact ⟨[], r, rfl, inRange_nil, rfl, hr, hr0, hr1, by simp [mag]⟩
  | cons ai rest ih =>
    intro r hin hr hr0 hr1
    have ha := hin ai (List.mem_cons_self _ _)
    have htl : InRange rest := fun e he => hin e (List.mem_cons_of_mem _ he)
    obtain ⟨r1, r2, e1, v1, -, -, ew, e2, c2, p0, p1, v2, q0, q1⟩ :=
      knuth_step b1 hb hbf hw fuel hfuel r hr hr0 hr1 ai ha.1 ha.2
    obtain ⟨qs, r3, e3, i1, i2, c3, t0, t1, v3⟩ := ih r2 htl c2 p0 p1
    refine ⟨(val r1 / val b1) :: qs, r3, ?_, inRange_cons ⟨q0, q1⟩ i1,
      by simp only [List.length_cons, i2], c3, t0, t1, ?_⟩
    · simp only [knuthLoop]
      rw [e1, bind_ok, e2, bind_ok]
      show (knuthLoop fuel b1 b1.digits.length rest r2 >>= fun qr =>
        pure (val r1 / val b1 :: qr.1, qr.2)) = _
      rw [e3, bind_ok]
      rfl
    · rw [mag_reverse_cons, mag_reverse_cons, i2, List.length_cons, pow_succ]
      rw [v2] at v3
      linear_combination v3 - (BASE ^ rest.length) * v1

end BigInteger

namespace BigInteger

/-- The schoolbook branch of `divmod`: the quotient and remainder magnitudes
of the two magnitudes, the quotient flag the XNOR of the operand flags, the
remainder flag that of the dividend. -/
theorem divmodBody_schoolbook (F : FFT) (f : Nat) (hf : BASE + 2 ≤ f) (self x : BigInteger)
    (hs : DigitsOk self.digits) (hx : DigitsOk x.digits) (hz : x.zero = false)
    (hbr : min (self.digits.length : Int) (self.digits.length - x.digits.length) ≤
      NEWTON_DIV_LIMIT) :
    ∃ q r, divmodBody F (f + 1) self x = .ok (q, r) ∧ DigitsOk q.digits ∧ DigitsOk r.digits ∧
      mag self.digits = mag q.digits * mag x.digits + mag r.digits ∧
      mag r.digits < mag x.digits ∧
      q.flag = !(xor self.flag x.flag) ∧ r.flag = self.flag := by
  obtain ⟨ht, t1, t2⟩ := scale_range hx hz
  have nt : Canonical (mulInt32 ⟨x.digits, true⟩ (BASE / (x.back + 1))) ∧
      (mulInt32 ⟨x.digits, true⟩ (BASE / (x.back + 1))).flag = true ∧
      val (mulInt32 ⟨x.digits, true⟩ (BASE / (x.back + 1))) =
        mag x.digits * (BASE / (x.back + 1)) ∧
      BASE ≤ 2 * (mulInt32 ⟨x.digits, true⟩ (BASE / (x.back + 1))).back :=
    norm_top ⟨x.digits, true⟩ hx hz rfl
  obtain ⟨nb1, nb2, nb3, nb4⟩ := nt
  have na : Canonical (mulInt32 ⟨self.digits, true⟩ (BASE / (x.back + 1))) ∧
      mag (mulInt32 ⟨self.digits, true⟩ (BASE / (x.back + 1))).digits =
        mag self.digits * (BASE / (x.back + 1)) ∧ _ :=
    mulInt32_nonneg ⟨self.digits, true⟩ (BASE / (x.back + 1)) (canonical_of_flag hs rfl)
      (by omega)
  obtain ⟨na1, na2, -⟩ := na
  have hxpos : 0 < mag x.digits := mag_pos_of_not_zero hx hz
  have hVpos : 0 < val (mulInt32 ⟨x.digits, true⟩ (BASE / (x.back + 1))) := by
    rw [nb3]; exact mul_pos hxpos (by omega)
  have hzero : val (ofInt64 0) = 0 := by decide
  obtain ⟨qs, r1, e1, i1, i2, c1, p0, p1, v1⟩ :=
    knuthLoop_spec _ nb1 nb2 nb4 f hf
      (mulInt32 ⟨self.digits, true⟩ (BASE / (x.back + 1))).digits.reverse (ofInt64 0)
      (inRange_reverse na1.1.inRange) (by decide) (by rw [hzero]) (by rw [hzero]; exact hVpos)
  rw [hzero, zero_mul, zero_add, List.reverse_reverse, na2, nb3] at v1
  obtain ⟨rt, d1, d2, d3, d4⟩ := divInt64_small ⟨r1.digits, self.flag⟩ (BASE / (x.back + 1))
    c1.1 (by omega) (by omega)
  have hr1f : r1.flag = true := (canonical_flag_iff c1).mpr p0
  rw [val_of_flag hr1f] at p0 p1 v1
  rw [nb3] at p1
  have hqne : qs.reverse ≠ [] := by
    intro h
    have h1 : qs.length = 0 := by rw [← List.length_reverse, h]; rfl
    rw [i2, List.length_reverse] at h1
    exact na1.1.1 (List.length_eq_zero.mp h1)
  refine ⟨⟨trimDigits qs.reverse, !(xor self.flag x.flag)⟩, rt, ?_,
    digitsOk_trimDigits _ hqne (inRange_reverse i1), d2, ?_, ?_, rfl, d4⟩
  · simp only [divmodBody, abs]
    rw [if_neg (by simpa using hbr), ht, e1, bind_ok]
    show (divInt64 ⟨r1.digits, self.flag⟩ (BASE / (x.back + 1)) >>= fun rt =>
      pure ((⟨trimDigits qs.reverse, !(xor self.flag x.flag)⟩ : BigInteger), rt)) = _
    rw [d1, bind_ok]
    rfl
  · show mag self.digits = mag (trimDigits qs.reverse) * mag x.digits + mag rt.digits
    rw [mag_trimDigits, d3]
    show _ = _ + mag r1.digits / (BASE / (x.back + 1))
    have hR : mag r1.digits =
        (BASE / (x.back + 1)) * (mag self.digits - mag x.digits * mag qs.reverse) := by
      linear_combination -v1
    rw [hR, Int.mul_ediv_cancel_left _ (by omega)]
    ring
  · rw [d3]
    show mag r1.digits / (BASE / (x.back + 1)) < mag x.digits
    exact Int.ediv_lt_of_lt_mul (by omega) p1

theorem abs_lt_iff (self x : BigInteger) (hs : DigitsOk self.digits) (hx : DigitsOk x.digits) :
    self.abs.lt x.abs = true ↔ mag self.digits < mag x.digits := by
  rw [lt_iff_val _ _ (canonical_of_flag (a := self.abs) hs rfl)
    (canonical_of_flag (a := x.abs) hx rfl)]
  rfl

/-- The schoolbook path of `divmod` for `|self| ≥ |x|`, `x ≠ 0`. -/
theorem divmod_schoolbook (F : FFT) (fuel : Nat) (hf : BASE + 3 ≤ fuel) (self x : BigInteger)
    (hs : DigitsOk self.digits) (hx : DigitsOk x.digits) (hz : x.zero = false)
    (hge : mag x.digits ≤ mag self.digits)
    (hbr : min (self.digits.length : Int) (self.digits.length - x.digits.length) ≤
      NEWTON_DIV_LIMIT) :
    ∃ q r, divmod F fuel self x = .ok (q, r) ∧ DigitsOk q.digits ∧ DigitsOk r.digits ∧
      mag self.digits = mag q.digits * mag x.digits + mag r.digits ∧
      mag r.digits < mag x.digits ∧
      q.flag = !(xor self.flag x.flag) ∧ r.flag = self.flag := by
  obtain ⟨f, rfl⟩ : ∃ f, fuel = f + 1 := ⟨fuel - 1, by
    have : (100000003 : Int) ≤ fuel := hf
    omega⟩
  have hlt : ¬ self.abs.lt x.abs = true := by
    rw [abs_lt_iff self x hs hx]; omega
  unfold divmod divmodWith
  rw [beq_zero_false hx hz, if_neg (by decide), if_neg hlt]
  exact divmodBody_schoolbook F f (by push_cast at hf; omega) self x hs hx hz hbr

end BigInteger

namespace BigInteger

/-- C24: the schoolbook (Knuth D) path of `divmod`.  For digit vectors in
canonical shape, `d ≠ 0`, `|a| ≥ |d|` and `min(n, n - m) ≤ NEWTON_DIV_LIMIT`:
with enough fuel `divmod` returns `(q, r)` with `|a| = |q|·|d| + |r|` and
`|r| < |d|`; the scaled divisor `b1 = |d|·t`, `t = BASE / (d_high + 1)`, has a top
digit of at least `BASE / 2`; and in every step, entered with `0 ≤ r < b1` and
a digit `ai`, the estimate is at least the true digit `r1 / b1` of
`r1 = r·BASE + ai` and at most `BASE + 1` (so within `BASE + 2`, and unchanged
by the 32-bit parameter), and the adjusting loop returns the true digit,
which is in `[0, BASE)`, leaving `0 ≤ r2 < b1`. -/
theorem divmod_knuth_spec (F : FFT) (a d : BigInteger) (ha : DigitsOk a.digits)
    (hd : DigitsOk d.digits) (hz : d.zero = false) (hge : mag d.digits ≤ mag a.digits)
    (hbr : min (a.digits.length : Int) (a.digits.length - d.digits.length) ≤
      NEWTON_DIV_LIMIT) :
    (∃ fuel0 : Nat, ∀ fuel, fuel0 ≤ fuel → ∃ q r, divmod F fuel a d = .ok (q, r) ∧
      DigitsOk q.digits ∧ DigitsOk r.digits ∧
      mag a.digits = mag q.digits * mag d.digits + mag r.digits ∧
      mag r.digits < mag d.digits) ∧
    (∀ b1 : BigInteger, b1 = mulInt32 d.abs (wrap32 (BASE.tdiv (d.back + 1))) →
      val b1 = mag d.digits * (BASE / (d.back + 1)) ∧ BASE ≤ 2 * b1.back ∧
      ∀ (fuel : Nat) (r : BigInteger) (ai : Int), BASE + 2 ≤ fuel → Canonical r →
        0 ≤ val r → val r < val b1 → 0 ≤ ai → ai < BASE →
        ∃ r1 r2, addInt32 fuel (mulInt32 r (wrap32 BASE)) (wrap32 ai) = .ok r1 ∧
          val r1 = val r * BASE + ai ∧
          val r1 / val b1 ≤
            (r1.get b1.digits.length * BASE + r1.get (b1.digits.length - 1)).tdiv b1.back ∧
          (r1.get b1.digits.length * BASE + r1.get (b1.digits.length - 1)).tdiv b1.back ≤
            BASE + 1 ∧
          wrap32 ((r1.get b1.digits.length * BASE + r1.get (b1.digits.length - 1)).tdiv
              b1.back) =
            (r1.get b1.digits.length * BASE + r1.get (b1.digits.length - 1)).tdiv b1.back ∧
          fixLoop b1 fuel
            (sub r1 (mulInt32 b1 (wrap32
              ((r1.get b1.digits.length * BASE + r1.get (b1.digits.length - 1)).tdiv
                b1.back))))
            ((r1.get b1.digits.length * BASE + r1.get (b1.digits.length - 1)).tdiv b1.back) =
            .ok (r2, val r1 / val b1) ∧
          0 ≤ val r2 ∧ val r2 < val b1 ∧ val r2 = val r1 - val r1 / val b1 * val b1 ∧
          0 ≤ val r1 / val b1 ∧ val r1 / val b1 < BASE) := by
  refine ⟨⟨100000003, fun fuel hfuel => ?_⟩, ?_⟩
  · obtain ⟨q, r, e, c1, c2, v1, v2, -, -⟩ :=
      divmod_schoolbook F fuel (by
        have : (100000003 : Int) ≤ fuel := by exact_mod_cast hfuel
        exact this) a d ha hd hz hge hbr
    exact ⟨q, r, e, c1, c2, v1, v2⟩
  · intro b1 hb1
    obtain ⟨ht, -, -⟩ := scale_range hd hz
    rw [ht] at hb1
    obtain ⟨nb1, nb2, nb3, nb4⟩ := norm_top d.abs hd hz rfl
    have hbk : d.abs.back = d.back := rfl
    have hdg : d.abs.digits = d.digits := rfl
    rw [hbk] at nb1 nb2 nb3 nb4
    rw [hdg] at nb3
    rw [← hb1] at nb1 nb2 nb3 nb4
    refine ⟨nb3, nb4, ?_⟩
    intro fuel r ai hfuel hr hr0 hr1 ha0 ha1
    obtain ⟨r1, r2, e1, v1, x1, x2, ew, e2, c2, p0, p1, v2, q0, q1⟩ :=
      knuth_step b1 nb1 nb2 nb4 fuel hfuel r hr hr0 hr1 ai ha0 ha1
    exact ⟨r1, r2, e1, v1, x1, x2, ew, e2, p0, p1, v2, q0, q1⟩

theorem divmod_knuth_spec_witness :
    DigitsOk (BigInteger.mk [5, 4, 3, 2, 1] true).digits ∧
    DigitsOk (BigInteger.mk [7, 3] false).digits ∧
    (BigInteger.mk [7, 3] false).zero = false ∧
    mag (BigInteger.mk [7, 3] false).digits ≤ mag (BigInteger.mk [5, 4, 3, 2, 1] true).digits ∧
    min (((BigInteger.mk [5, 4, 3, 2, 1] true).digits.length : Nat) : Int)
        ((BigInteger.mk [5, 4, 3, 2, 1] true).digits.length -
          (BigInteger.mk [7, 3] false).digits.length) ≤ NEWTON_DIV_LIMIT ∧
    ((∃ fuel0 : Nat, ∀ fuel, fuel0 ≤ fuel →
      ∃ q r, divmod exactFFT fuel ⟨[5, 4, 3, 2, 1], true⟩ ⟨[7, 3], false⟩ = .ok (q, r) ∧
      DigitsOk q.digits ∧ DigitsOk r.digits ∧
      mag (BigInteger.mk [5, 4, 3, 2, 1] true).digits =
        mag q.digits * mag (BigInteger.mk [7, 3] false).digits + mag r.digits ∧
      mag r.digits < mag (BigInteger.mk [7, 3] false).digits) ∧
    (∀ b1 : BigInteger,
      b1 = mulInt32 (BigInteger.mk [7, 3] false).abs
        (wrap32 (BASE.tdiv ((BigInteger.mk [7, 3] false).back + 1))) →
      val b1 = mag (BigInteger.mk [7, 3] false).digits *
        (BASE / ((BigInteger.mk [7, 3] false).back + 1)) ∧ BASE ≤ 2 * b1.back ∧
      ∀ (fuel : Nat) (r : BigInteger) (ai : Int), BASE + 2 ≤ fuel → Canonical r →
        0 ≤ val r → val r < val b1 → 0 ≤ ai → ai < BASE →
        ∃ r1 r2, addInt32 fuel (mulInt32 r (wrap32 BASE)) (wrap32 ai) = .ok r1 ∧
          val r1 = val r * BASE + ai ∧
          val r1 / val b1 ≤
            (r1.get b1.digits.length * BASE + r1.get (b1.digits.length - 1)).tdiv b1.back ∧
          (r1.get b1.digits.length * BASE + r1.get (b1.digits.length - 1)).tdiv b1.back ≤
            BASE + 1 ∧
          wrap32 ((r1.get b1.digits.length * BASE + r1.get (b1.digits.length - 1)).tdiv
              b1.back) =
            (r1.get b1.digits.length * BASE + r1.get (b1.digits.length - 1)).tdiv b1.back ∧
          fixLoop b1 fuel
            (sub r1 (mulInt32 b1 (wrap32
              ((r1.get b1.digits.length * BASE + r1.get (b1.digits.length - 1)).tdiv
                b1.back))))
            ((r1.get b1.digits.length * BASE + r1.get (b1.digits.length - 1)).tdiv b1.back) =
            .ok (r2, val r1 / val b1) ∧
          0 ≤ val r2 ∧ val r2 < val b1 ∧ val r2 = val r1 - val r1 / val b1 * val b1 ∧
          0 ≤ val r1 / val b1 ∧ val r1 / val b1 < BASE)) :=
  ⟨by decide, by decide, by decide, by decide, by decide,
    divmod_knuth_spec exactFFT ⟨[5, 4, 3, 2, 1], true⟩ ⟨[7, 3], false⟩ (by decide) (by decide)
      (by decide) (by decide) (by decide)⟩

end BigInteger

namespace BigInteger

/-! ### The Heron iteration of `sqrt_normal` -/

/-- Division of values that are not negative, on the early return or the
schoolbook path: the quotient is canonical and is the integer quotient. -/
theorem div_nonneg_spec (F : FFT) (fuel : Nat) (hf : BASE + 3 ≤ fuel) (self x : BigInteger)
    (hs : Canonical self) (hx : Canonical x) (hs0 : 0 ≤ val self) (hx0 : 0 < val x)
    (hbr : val x ≤ val self →
      min (self.digits.length : Int) (self.digits.length - x.digits.length) ≤
        NEWTON_DIV_LIMIT) :
    ∃ q, div F fuel self x = .ok q ∧ Canonical q ∧ 0 ≤ val q ∧ val q = val self / val x := by
  have hsf : self.flag = true := (canonical_flag_iff hs).mpr hs0
  have hxf : x.flag = true := (canonical_flag_iff hx).mpr hx0.le
  have hvs := val_of_flag hsf
  have hvx := val_of_flag hxf
  have hz : x.zero = false := by
    cases h : x.zero with
    | false => rfl
    | true => exfalso; have := (val_eq_zero_iff hx.1).mpr h; omega
  by_cases hlt : mag self.digits < mag x.digits
  · refine ⟨ofInt64 0, ?_, by decide, by decide, ?_⟩
    · unfold div divmod divmodWith
      rw [beq_zero_false hx.1 hz, if_neg (by decide),
        if_pos ((abs_lt_iff self x hs.1 hx.1).mpr hlt)]
      rfl
    · rw [hvs, hvx, Int.ediv_eq_zero_of_lt (by rw [← hvs]; exact hs0) hlt]
      decide
  · have hge : mag x.digits ≤ mag self.digits := by omega
    obtain ⟨q, r, e, c1, c2, v1, v2, f1, -⟩ :=
      divmod_schoolbook F fuel hf self x hs.1 hx.1 hz hge (hbr (by rw [hvs, hvx]; exact hge))
    have hqf : q.flag = true := by rw [f1, hsf, hxf]; rfl
    have hr0 : 0 ≤ mag r.digits := mag_nonneg _ c2.inRange.nonneg
    have hq0 : 0 ≤ mag q.digits := mag_nonneg _ c1.inRange.nonneg
    refine ⟨q, ?_, canonical_of_flag c1 hqf, by rw [val_of_flag hqf]; exact hq0, ?_⟩
    · unfold div
      rw [e]; rfl
    · rw [val_of_flag hqf, hvs, hvx, v1, add_comm,
        Int.add_mul_ediv_right _ _ (by omega), Int.ediv_eq_zero_of_lt hr0 v2, zero_add]

/-- The average `(x + a / x) / 2` is never below the integer square root. -/
theorem heron_lower (a s x : Int) (hs : s * s ≤ a) (hx : 0 < x) : s ≤ (x + a / x) / 2 := by
  have h1 : a < x * (a / x) + x := Int.lt_mul_ediv_self_add hx
  apply Int.le_ediv_of_mul_le (by decide)
  by_contra hcon
  have h2 : x + a / x ≤ 2 * s - 1 := by omega
  have h3 : x * (a / x + 1) ≤ x * (2 * s - x) := mul_le_mul_of_nonneg_left (by omega) hx.le
  nlinarith [sq_nonneg (s - x)]

/-- Above the integer square root the average is strictly smaller. -/
theorem heron_upper (a s x : Int) (hs0 : 0 ≤ s) (hs : a < (s + 1) * (s + 1)) (hx : s < x) :
    (x + a / x) / 2 < x := by
  have hx0 : 0 < x := by omega
  have h1 : a < x * x := by nlinarith
  have h2 : a / x < x := Int.ediv_lt_of_lt_mul hx0 h1
  omega

theorem sq_lt_sq_imp (u v : Int) (hv : 0 ≤ v) (h : u * u < v * v) : u < v := by
  by_contra hcon
  have : v * v ≤ u * u := mul_self_le_mul_self hv (by omega)
  omega

/-- In the Heron loop the division never takes the Newton branch: for a
radicand of at most 48 digits, an iterate at least the integer square root has
at least half as many digits as the radicand. -/
theorem heron_branch (a x : BigInteger) (ha : Canonical a) (h1 : 1 ≤ val a)
    (hn : a.digits.length ≤ 48) (hx : Canonical x) (s : Int) (hs0 : 0 ≤ s)
    (hs : val a < (s + 1) * (s + 1)) (hxs : s ≤ val x) :
    min (a.digits.length : Int) (a.digits.length - x.digits.length) ≤ NEWTON_DIV_LIMIT := by
  have haf : a.flag = true := (canonical_flag_iff ha).mpr (by omega)
  have hxf : x.flag = true := (canonical_flag_iff hx).mpr (by omega)
  have hlow : BASE ^ (a.digits.length - 1) ≤ val a := by
    rw [val_of_flag haf]
    by_cases hl : 1 < a.digits.length
    · exact digitsOk_lower ha.1 hl
    · have : a.digits.length - 1 = 0 := by omega
      rw [this, pow_zero, ← val_of_flag haf]; exact h1
  have hk : 2 * ((a.digits.length - 1) / 2) ≤ a.digits.length - 1 := by omega
  have hpow : BASE ^ ((a.digits.length - 1) / 2) * BASE ^ ((a.digits.length - 1) / 2) ≤
      BASE ^ (a.digits.length - 1) := by
    rw [← pow_add]
    exact pow_le_pow_right₀ (by decide) (by omega)
  have hlt : BASE ^ ((a.digits.length - 1) / 2) < s + 1 :=
    sq_lt_sq_imp _ _ (by omega) (by omega)
  have hxm : val x < BASE ^ x.digits.length := by
    rw [val_of_flag hxf]; exact mag_lt_pow _ hx.1.inRange
  have hlt2 : BASE ^ ((a.digits.length - 1) / 2) < BASE ^ x.digits.length := by omega
  have hkm : (a.digits.length - 1) / 2 < x.digits.length :=
    (pow_lt_pow_iff_right₀ (by decide)).mp hlt2
  have hN : NEWTON_DIV_LIMIT = 32 := rfl
  rw [hN]
  have : (a.digits.length : Int) - x.digits.length ≤ 32 := by omega
  exact le_trans (min_le_right _ _) this

/-- One Heron step from an iterate `x ≥ s ≥ 1`: the division returns and the
next iterate is `(x + a / x) / 2`. -/
theorem heron_next (F : FFT) (fuel : Nat) (hf : BASE + 3 ≤ fuel) (a x : BigInteger)
    (ha : Canonical a) (h1 : 1 ≤ val a) (hn : a.digits.length ≤ 48) (hx : Canonical x)
    (s : Int) (hs1 : 1 ≤ s) (hs : val a < (s + 1) * (s + 1)) (hxs : s ≤ val x) :
    ∃ q, div F fuel a x = .ok q ∧ val q = val a / val x ∧ Canonical (half (add x q)) ∧
      val (half (add x q)) = (val x + val a / val x) / 2 := by
  obtain ⟨q, e, c1, p1, v1⟩ := div_nonneg_spec F fuel hf a x ha hx (by omega) (by omega)
    (fun _ => heron_branch a x ha h1 hn hx s (by omega) hs hxs)
  obtain ⟨c2, v2⟩ := add_val x q hx c1
  obtain ⟨c3, v3⟩ := half_val (add x q) c2 (by rw [v2]; omega)
  exact ⟨q, e, v1, c3, by rw [v3, v2, v1]⟩

/-- The Heron loop returns the integer square root `s` once the fuel covers
`x0 - s`: the stored iterate `x0` stays at least `s` and drops in every round. -/
theorem heronLoop_spec (F : FFT) (fuel : Nat) (hf : BASE + 3 ≤ fuel) (a : BigInteger)
    (ha : Canonical a) (h1 : 1 ≤ val a) (hn : a.digits.length ≤ 48)
    (s : Int) (hs1 : 1 ≤ s) (hs2 : s * s ≤ val a) (hs : val a < (s + 1) * (s + 1)) :
    ∀ (f : Nat) (x x0 : BigInteger), Canonical x → Canonical x0 → s ≤ val x0 →
      val x = (val x0 + val a / val x0) / 2 → val x0 - s ≤ f →
      ∃ r, heronLoop F fuel a f x x0 = .ok r ∧ Canonical r ∧ val r = s := by
  intro f
  induction f with
  | zero =>
    intro x x0 hx hx0 hle hv hm
    have hx0s : val x0 = s := by
      have : val x0 - s ≤ 0 := by exact_mod_cast hm
      omega
    have hlow := heron_lower (val a) s (val x0) hs2 (by omega)
    have hnl : ¬ x.lt x0 = true := by
      rw [lt_iff_val x x0 hx hx0, hv]; omega
    simp only [heronLoop, if_neg hnl]
    exact ⟨x0, rfl, hx0, hx0s⟩
  | succ f ih =>
    intro x x0 hx hx0 hle hv hm
    have hlow := heron_lower (val a) s (val x0) hs2 (by omega)
    simp only [heronLoop]
    by_cases hl : x.lt x0 = true
    · rw [if_pos hl]
      have hlt := (lt_iff_val x x0 hx hx0).mp hl
      obtain ⟨q, e, -, c3, v3⟩ := heron_next F fuel hf a x ha h1 hn hx s hs1 hs
        (by rw [hv]; exact hlow)
      rw [e, bind_ok]
      exact ih (half (add x q)) x c3 hx (by rw [hv]; exact hlow) v3
        (by push_cast at hm; omega)
    · rw [if_neg hl]
      have hge : ¬ val x < val x0 := fun h => hl ((lt_iff_val x x0 hx hx0).mpr h)
      have hx0s : val x0 = s := by
        by_contra hne
        have := heron_upper (val a) s (val x0) (by omega) hs (by omega)
        omega
      exact ⟨x0, rfl, hx0, hx0s⟩

end BigInteger

namespace BigInteger

/-- The starting value of `sqrt_normal`: `BASE ^ (k + 1)` for `k = (n + 2) >> 1`. -/
theorem heron_start (n : Nat) :
    Canonical ((ofInt64 BASE)._move_l (((n : Int) + 2) / 2)) ∧
      val ((ofInt64 BASE)._move_l (((n : Int) + 2) / 2)) = BASE ^ ((n + 2) / 2 + 1) := by
  have hd : (ofInt64 BASE).digits = [0, 1] := by decide
  have hk : (((n : Int) + 2) / 2).toNat = (n + 2) / 2 := by omega
  unfold _move_l ofVec
  rw [hd, hk]
  have hr : InRange (List.replicate ((n + 2) / 2) 0 ++ [0, 1]) := by
    intro d hd
    rcases List.mem_append.mp hd with h | h
    · rw [List.eq_of_mem_replicate h]; decide
    · simp only [List.mem_cons, List.mem_singleton, List.not_mem_nil, or_false] at h
      rcases h with h | h <;> rw [h] <;> decide
  have hok := digitsOk_trimDigits _ (by simp) hr
  refine ⟨canonical_of_flag hok rfl, ?_⟩
  rw [val_of_flag rfl]
  show mag (trimDigits (List.replicate ((n + 2) / 2) 0 ++ [0, 1])) = _
  rw [mag_trimDigits, mag_append, mag_replicate_zero, List.length_replicate, pow_succ]
  simp [mag]

/-- The integer square root as a natural-number function, in integer terms. -/
theorem nat_sqrt_spec (v : Int) (hv : 1 ≤ v) :
    (1 : Int) ≤ Nat.sqrt v.toNat ∧ (Nat.sqrt v.toNat : Int) * Nat.sqrt v.toNat ≤ v ∧
      v < ((Nat.sqrt v.toNat : Int) + 1) * ((Nat.sqrt v.toNat : Int) + 1) := by
  have h1 : 0 < Nat.sqrt v.toNat := Nat.sqrt_pos.mpr (by omega)
  have h2 := Nat.sqrt_le v.toNat
  have h3 := Nat.lt_succ_sqrt v.toNat
  have hv' : ((v.toNat : Nat) : Int) = v := Int.toNat_of_nonneg (by omega)
  refine ⟨by exact_mod_cast h1, ?_, ?_⟩
  · rw [← hv']; exact_mod_cast h2
  · rw [← hv']; exact_mod_cast h3

/-- The Heron square root of a radicand `1 ≤ a` of at most 48 digits: with
enough fuel `sqrt_normal` returns the integer square root. -/
theorem sqrt_normal_spec (F : FFT) (a : BigInteger) (ha : Canonical a) (h1 : 1 ≤ val a)
    (hn : a.digits.length ≤ 48) :
    ∃ fuel0 : Nat, ∀ fuel, fuel0 ≤ fuel → ∃ s, sqrt_normal F fuel a = .ok s ∧ Canonical s ∧
      val s = (Nat.sqrt (val a).toNat : Int) := by
  obtain ⟨s1, s2, s3⟩ := nat_sqrt_spec (val a) h1
  obtain ⟨c0, v0⟩ := heron_start a.digits.length
  have haf : a.flag = true := (canonical_flag_iff ha).mpr (by omega)
  -- the starting value exceeds the square root
  have hx0 : (Nat.sqrt (val a).toNat : Int) <
      val ((ofInt64 BASE)._move_l (((a.digits.length : Int) + 2) / 2)) := by
    apply sq_lt_sq_imp _ _ (by rw [v0]; exact (pow_pos BASE_pos _).le)
    have hlt : val a < BASE ^ a.digits.length := by
      rw [val_of_flag haf]; exact mag_lt_pow _ ha.1.inRange
    have hle : BASE ^ a.digits.length ≤
        BASE ^ ((a.digits.length + 2) / 2 + 1) * BASE ^ ((a.digits.length + 2) / 2 + 1) := by
      rw [← pow_add]
      exact pow_le_pow_right₀ (by decide) (by omega)
    rw [v0]
    omega
  refine ⟨max 100000003 (val ((ofInt64 BASE)._move_l
    (((a.digits.length : Int) + 2) / 2))).toNat, fun fuel hfuel => ?_⟩
  have hf : BASE + 3 ≤ fuel := by
    have : 100000003 ≤ fuel := le_trans (le_max_left _ _) hfuel
    have hB : BASE = 100000000 := rfl
    rw [hB]; omega
  have hm : val ((ofInt64 BASE)._move_l (((a.digits.length : Int) + 2) / 2)) -
      (Nat.sqrt (val a).toNat : Int) ≤ fuel := by
    have : (val ((ofInt64 BASE)._move_l (((a.digits.length : Int) + 2) / 2))).toNat ≤ fuel :=
      le_trans (le_max_right _ _) hfuel
    omega
  obtain ⟨q, e, -, c3, v3⟩ := heron_next F fuel hf a _ ha h1 hn c0 _ s1 s3 hx0.le
  obtain ⟨r, e2, c4, v4⟩ := heronLoop_spec F fuel hf a ha h1 hn _ s1 s2 s3 fuel _ _ c3 c0
    hx0.le v3 hm
  refine ⟨r, ?_, c4, v4⟩
  unfold sqrt_normal
  simp only []
  rw [e, bind_ok]
  exact e2

end BigInteger

namespace BigInteger

theorem sqrt_eq_normal (F : FFT) (fuel : Nat) (a : BigInteger) (hf : a.flag = true)
    (hn : (a.digits.length : Int) ≤ NEWTON_SQRT_LIMIT) :
    sqrt F fuel a = sqrt_normal F fuel a := by
  unfold sqrt negative
  rw [hf, if_neg (by decide), if_pos hn]

/-- The square root of `2^1024`, computed by `pow` and `sqrt` with exact
products, is `2^512`. -/
theorem sqrt_two_pow_1024 :
    ∃ p q, pow exactFFT (ofInt64 2) 1024 = .ok p ∧ pow exactFFT (ofInt64 2) 512 = .ok q ∧
      ∃ fuel0 : Nat, ∀ fuel, fuel0 ≤ fuel → sqrt exactFFT fuel p = .ok q := by
  have hv2 : val (ofInt64 2) = 2 := by decide
  have hv1 : val (ofInt64 1) = 1 := by decide
  obtain ⟨p, p1, p2, p3⟩ := powLoop_spec exactFFT mulExact_exactFFT squareExact_exactFFT 64 1024
    (ofInt64 2) (ofInt64 1) (by norm_num) (by decide) (by decide)
  obtain ⟨q, q1, q2, q3⟩ := powLoop_spec exactFFT mulExact_exactFFT squareExact_exactFFT 64 512
    (ofInt64 2) (ofInt64 1) (by norm_num) (by decide) (by decide)
  rw [hv2, hv1, one_mul] at p3 q3
  have hp0 : (1 : Int) ≤ val p := by rw [p3]; norm_num
  have hpf : p.flag = true := (canonical_flag_iff p2).mpr (by omega)
  have hlen : p.digits.length ≤ 48 := by
    apply digits_length_le p2.1 _ (by decide)
    rw [← val_of_flag hpf, p3]
    have hB : BASE = 100000000 := rfl
    rw [hB]; norm_num
  have hn : (p.digits.length : Int) ≤ NEWTON_SQRT_LIMIT := by
    have : NEWTON_SQRT_LIMIT = 48 := rfl
    rw [this]; exact_mod_cast hlen
  obtain ⟨fuel0, hfuel⟩ := sqrt_normal_spec exactFFT p p2 hp0 hlen
  obtain ⟨s1, s2, s3⟩ := nat_sqrt_spec (val p) hp0
  refine ⟨p, q, p1, q1, fuel0, fun fuel hf => ?_⟩
  obtain ⟨s, e, c, v⟩ := hfuel fuel hf
  rw [sqrt_eq_normal exactFFT fuel p hpf hn, e]
  congr 1
  apply canonical_val_inj c q2
  rw [v, q3]
  generalize (Nat.sqrt (val p).toNat : Int) = r at s1 s2 s3 ⊢
  have hsq : (2 : Int) ^ 1024 = 2 ^ 512 * 2 ^ 512 := by norm_num
  rw [p3, hsq] at s2 s3
  have h512 : (0 : Int) ≤ 2 ^ 512 := by positivity
  generalize (2 : Int) ^ 512 = w at s2 s3 h512 ⊢
  have a1 : r < w + 1 := sq_lt_sq_imp _ _ (by omega) (by nlinarith)
  have a2 : w < r + 1 := sq_lt_sq_imp _ _ (by omega) s3
  omega

/-- C25: the Heron square root.  For a canonical `a ≥ 1` of at most
`NEWTON_SQRT_LIMIT = 48` digits: the starting value `x0` of `sqrt_normal`
exceeds the square root (`a < x0²`); from every iterate `x > 0` above the
root (`a < x²`) the division `a / x` returns (no division by zero), and the
next iterate `(x + a / x) / 2` is strictly smaller and still not below the
integer root; with enough fuel `sqrt` returns through `sqrt_normal` the
canonical `s` with `s² ≤ a < (s + 1)²`; and `2.pow(1024).sqrt()` is
`2.pow(512)` when products are exact. -/
theorem sqrt_heron_spec (F : FFT) (a : BigInteger) (ha : Canonical a) (h1 : 1 ≤ val a)
    (hn : (a.digits.length : Int) ≤ NEWTON_SQRT_LIMIT) :
    (val a < val ((ofInt64 BASE)._move_l (((a.digits.length : Int) + 2) / 2)) *
      val ((ofInt64 BASE)._move_l (((a.digits.length : Int) + 2) / 2))) ∧
    (∀ (fuel : Nat) (x : BigInteger), BASE + 3 ≤ fuel → Canonical x → 0 < val x →
      val a < val x * val x →
      ∃ q, div F fuel a x = .ok q ∧ val q = val a / val x ∧
        val (half (add x q)) = (val x + val a / val x) / 2 ∧
        val (half (add x q)) < val x ∧
        val a < (val (half (add x q)) + 1) * (val (half (add x q)) + 1)) ∧
    (∃ fuel0 : Nat, ∀ fuel, fuel0 ≤ fuel →
      ∃ s, sqrt F fuel a = .ok s ∧ sqrt_normal F fuel a = .ok s ∧ Canonical s ∧
        0 ≤ val s ∧ val s * val s ≤ val a ∧ val a < (val s + 1) * (val s + 1) ∧
        val s = (Nat.sqrt (val a).toNat : Int)) ∧
    (∃ p q, pow exactFFT (ofInt64 2) 1024 = .ok p ∧ pow exactFFT (ofInt64 2) 512 = .ok q ∧
      ∃ fuel0 : Nat, ∀ fuel, fuel0 ≤ fuel → sqrt exactFFT fuel p = .ok q) := by
  have hlen : a.digits.length ≤ 48 := by
    have : NEWTON_SQRT_LIMIT = 48 := rfl
    rw [this] at hn; exact_mod_cast hn
  have haf : a.flag = true := (canonical_flag_iff ha).mpr (by omega)
  obtain ⟨s1, s2, s3⟩ := nat_sqrt_spec (val a) h1
  refine ⟨?_, ?_, ?_, sqrt_two_pow_1024⟩
  · obtain ⟨-, v0⟩ := heron_start a.digits.length
    have hlt : val a < BASE ^ a.digits.length := by
      rw [val_of_flag haf]; exact mag_lt_pow _ ha.1.inRange
    have hle : BASE ^ a.digits.length ≤
        BASE ^ ((a.digits.length + 2) / 2 + 1) * BASE ^ ((a.digits.length + 2) / 2 + 1) := by
      rw [← pow_add]
      exact pow_le_pow_right₀ (by decide) (by omega)
    rw [v0]
    omega
  · intro fuel x hf hx hx0 hax
    have hsx : (Nat.sqrt (val a).toNat : Int) < val x :=
      sq_lt_sq_imp _ _ hx0.le (by omega)
    obtain ⟨q, e, vq, -, v3⟩ := heron_next F fuel hf a x ha h1 hlen hx _ s1 s3 hsx.le
    have hlow := heron_lower (val a) _ (val x) s2 hx0
    have hup := heron_upper (val a) _ (val x) (by omega) s3 hsx
    refine ⟨q, e, vq, v3, by rw [v3]; exact hup, ?_⟩
    rw [v3]
    have : ((Nat.sqrt (val a).toNat : Int) + 1) * ((Nat.sqrt (val a).toNat : Int) + 1) ≤
        ((val x + val a / val x) / 2 + 1) * ((val x + val a / val x) / 2 + 1) :=
      mul_self_le_mul_self (by omega) (by omega)
    omega
  · obtain ⟨fuel0, hfuel⟩ := sqrt_normal_spec F a ha h1 hlen
    refine ⟨fuel0, fun fuel hf => ?_⟩
    obtain ⟨s, e, c, v⟩ := hfuel fuel hf
    refine ⟨s, by rw [sqrt_eq_normal F fuel a haf hn, e], e, c, by rw [v]; omega,
      by rw [v]; exact s2, by rw [v]; exact s3, v⟩

theorem sqrt_heron_spec_witness :
    Canonical ⟨[0, 0, 2], true⟩ ∧ 1 ≤ val ⟨[0, 0, 2], true⟩ ∧
    (((BigInteger.mk [0, 0, 2] true).digits.length : Nat) : Int) ≤ NEWTON_SQRT_LIMIT ∧
    ((val ⟨[0, 0, 2], true⟩ <
      val ((ofInt64 BASE)._move_l
        ((((BigInteger.mk [0, 0, 2] true).digits.length : Nat) + 2 : Int) / 2)) *
      val ((ofInt64 BASE)._move_l
        ((((BigInteger.mk [0, 0, 2] true).digits.length : Nat) + 2 : Int) / 2))) ∧
    (∀ (fuel : Nat) (x : BigInteger), BASE + 3 ≤ fuel → Canonical x → 0 < val x →
      val ⟨[0, 0, 2], true⟩ < val x * val x →
      ∃ q, div exactFFT fuel ⟨[0, 0, 2], true⟩ x = .ok q ∧
        val q = val ⟨[0, 0, 2], true⟩ / val x ∧
        val (half (add x q)) = (val x + val ⟨[0, 0, 2], true⟩ / val x) / 2 ∧
        val (half (add x q)) < val x ∧
        val ⟨[0, 0, 2], true⟩ < (val (half (add x q)) + 1) * (val (half (add x q)) + 1)) ∧
    (∃ fuel0 : Nat, ∀ fuel, fuel0 ≤ fuel →
      ∃ s, sqrt exactFFT fuel ⟨[0, 0, 2], true⟩ = .ok s ∧
        sqrt_normal exactFFT fuel ⟨[0, 0, 2], true⟩ = .ok s ∧ Canonical s ∧
        0 ≤ val s ∧ val s * val s ≤ val ⟨[0, 0, 2], true⟩ ∧
        val ⟨[0, 0, 2], true⟩ < (val s + 1) * (val s + 1) ∧
        val s = (Nat.sqrt (val ⟨[0, 0, 2], true⟩).toNat : Int)) ∧
    (∃ p q, pow exactFFT (ofInt64 2) 1024 = .ok p ∧ pow exactFFT (ofInt64 2) 512 = .ok q ∧
      ∃ fuel0 : Nat, ∀ fuel, fuel0 ≤ fuel → sqrt exactFFT fuel p = .ok q)) :=
  ⟨by decide, by decide, by decide,
    sqrt_heron_spec exactFFT ⟨[0, 0, 2], true⟩ (by decide) (by decide) (by decide)⟩

end BigInteger

namespace BigInteger

/-! ### Scalar multiplication by any factor above `-2^31`, and the factorial -/

/-- The scalar product is exact for every 32-bit factor other than `-2^31`. -/
theorem mulInt32_spec (a : BigInteger) (x : Int) (ha : Canonical a) (hx0 : -2147483648 < x)
    (hx1 : x < 2147483648) :
    Canonical (mulInt32 a x) ∧ val (mulInt32 a x) = val a * x := by
  by_cases h0 : x = 0
  · subst h0
    have : mulInt32 a 0 = ⟨[0], true⟩ := by simp [mulInt32, ofInt64_zero]
    rw [this, mul_zero]
    exact ⟨by decide, by decide⟩
  by_cases hz : a.zero = true
  · have : mulInt32 a x = ⟨[0], true⟩ := by simp [mulInt32, hz, ofInt64_zero]
    rw [this, val_of_zero hz, zero_mul]
    exact ⟨by decide, by decide⟩
  have hz' : a.zero = false := bool_eq_false_of_not hz
  have hp := mag_pos_of_not_zero ha.1 hz'
  have key : ∀ y : Int, 0 < y → ∀ fl : Bool,
      Canonical ⟨trimDigits (mulLoop y a.digits 0), fl⟩ ∧
        mag (trimDigits (mulLoop y a.digits 0)) = mag a.digits * y := by
    intro y hy fl
    obtain ⟨i1, i2⟩ := mulLoop_spec y hy.le a.digits 0 ha.1.inRange (le_refl _)
    have hm : mag (trimDigits (mulLoop y a.digits 0)) = mag a.digits * y := by
      rw [mag_trimDigits, i1]; ring
    refine ⟨⟨digitsOk_trimDigits _ (mulLoop_ne_nil _ _ _ ha.1.1) i2, ?_⟩, hm⟩
    intro hd
    exfalso
    have h : mag (trimDigits (mulLoop y a.digits 0)) = 0 := by
      show mag (BigInteger.mk (trimDigits (mulLoop y a.digits 0)) fl).digits = 0
      rw [hd]; rfl
    rw [hm] at h
    have := mul_pos hp hy
    omega
  unfold mulInt32
  simp only [h0, decide_False, hz', Bool.or_self, Bool.false_eq_true, if_false]
  by_cases hneg : x < 0
  · simp only [if_pos hneg]
    have hw : wrap32 (-x) = -x := wrap32_id (by omega) (by omega)
    rw [hw]
    obtain ⟨k1, k2⟩ := key (-x) (by omega) (!a.flag)
    refine ⟨k1, ?_⟩
    unfold val
    simp only [k2]
    cases a.flag <;> simp
  · simp only [if_neg hneg]
    obtain ⟨k1, k2⟩ := key x (by omega) a.flag
    refine ⟨k1, ?_⟩
    unfold val
    simp only [k2]
    cases a.flag <;> simp

theorem factorialLoop_spec (n : Int) (hn : n < 2147483647) :
    ∀ (f k : Nat) (res : BigInteger), Canonical res → val res = (k.factorial : Int) → 1 ≤ k →
      (k : Int) ≤ n → n - k ≤ f →
      ∃ r, factorialLoop f ((k : Int) + 1) n res = .ok r ∧ Canonical r ∧
        val r = (n.toNat.factorial : Int) := by
  intro f
  induction f with
  | zero =>
    intro k res hc hv hk hkn hf
    have hkn' : (k : Int) = n := by
      have : n - k ≤ 0 := by exact_mod_cast hf
      omega
    have : ¬ (k : Int) + 1 ≤ n := by omega
    simp only [factorialLoop, if_neg this]
    refine ⟨res, rfl, hc, ?_⟩
    rw [hv, ← hkn', Int.toNat_natCast]
  | succ f ih =>
    intro k res hc hv hk hkn hf
    simp only [factorialLoop]
    by_cases hle : (k : Int) + 1 ≤ n
    · rw [if_pos hle]
      have hw : wrap32 ((k : Int) + 1 + 1) = ((k + 1 : Nat) : Int) + 1 := by
        rw [wrap32_id (by omega) (by omega)]; push_cast; ring
      obtain ⟨m1, m2⟩ := mulInt32_spec res ((k : Int) + 1) hc (by omega) (by omega)
      rw [hw]
      apply ih (k + 1) _ m1 _ (by omega) (by push_cast; omega) (by push_cast at hf ⊢; omega)
      rw [m2, hv, Nat.factorial_succ]
      push_cast; ring
    · rw [if_neg hle]
      have hkn' : (k : Int) = n := by omega
      refine ⟨res, rfl, hc, ?_⟩
      rw [hv, ← hkn', Int.toNat_natCast]

/-- The factorial never passes the factor `-2^31` to the scalar product: for
`0 ≤ n < 2^31 - 1` and enough fuel it returns the canonical `n!`. -/
theorem factorial_spec (n : Int) (h0 : 0 ≤ n) (hn : n < 2147483647) (fuel : Nat)
    (hf : n ≤ fuel) :
    ∃ r, factorial fuel n = .ok r ∧ Canonical r ∧ val r = (n.toNat.factorial : Int) := by
  unfold factorial
  rcases lt_or_eq_of_le h0 with hpos | hzero
  · have := factorialLoop_spec n hn fuel 1 (ofInt64 1) (by decide) (by decide) (le_refl _)
      (by push_cast; omega) (by push_cast; omega)
    simpa using this
  · subst hzero
    refine ⟨ofInt64 1, ?_, by decide, by decide⟩
    cases fuel <;> simp [factorialLoop]

end BigInteger

namespace BigInteger

/-! ### Zero with the flag cleared -/

/-- C9 (fails on the code): `sqrt` and `root(2)` raise `NegativeRadicandError`
on `-(BigInteger(0))`, the digits `[0]` with the flag cleared, whose value is
zero and not negative: both test `negative()`, which reads the flag only. -/
theorem sqrt_negative_zero_raises :
    neg (ofInt64 0) = ⟨[0], false⟩ ∧ val ⟨[0], false⟩ = 0 ∧ ¬ (val ⟨[0], false⟩ < 0) ∧
    (∀ (F : FFT) (fuel : Nat), sqrt F fuel ⟨[0], false⟩ = .error .negativeRadicand) ∧
    (∀ (F : FFT) (fuel : Nat), root F fuel ⟨[0], false⟩ 2 = .error .negativeRadicand) ∧
    ¬ ((2 : Int) ≤ 0 ∨ ((2 : Int) % 2 = 0 ∧ val ⟨[0], false⟩ < 0)) := by
  refine ⟨by decide, by decide, by decide, fun _ _ => rfl, fun _ _ => rfl, by decide⟩

theorem gcdStrip_zero_diverges : ∀ (f : Nat) (t : Int),
    gcdStrip f ⟨[0], true⟩ ⟨[0], false⟩ t = .error .outOfFuel := by
  have h1 : (BigInteger.mk [0] true).mod2 = false := by decide
  have h2 : (BigInteger.mk [0] false).mod2 = false := by decide
  have h3 : half ⟨[0], true⟩ = ⟨[0], true⟩ := by decide
  have h4 : half ⟨[0], false⟩ = ⟨[0], false⟩ := by decide
  intro f
  induction f with
  | zero => intro t; simp [gcdStrip, h1, h2]
  | succ f ih =>
    intro t
    simp only [gcdStrip, h1, h2, Bool.not_false, Bool.and_self, if_true, h3, h4]
    exact ih (t + 1)

/-- C26 (fails on the code): `gcd(0, -(BigInteger(0)))` never returns.  The
second operand has the digits `[0]` with the flag cleared, so its value is
zero, but `b == 0` is false for it (`compare` answers `-1`); both operands are
even and stay so under `half()`, and the stripping loop runs without end. -/
theorem gcd_negative_zero_diverges :
    neg (ofInt64 0) = ⟨[0], false⟩ ∧ 0 ≤ val ⟨[0], true⟩ ∧ 0 ≤ val ⟨[0], false⟩ ∧
    (BigInteger.mk [0] false).beq (ofInt64 0) = false ∧
    (BigInteger.mk [0] false).compare (ofInt64 0) = -1 ∧
    (∀ (F : FFT) (fuel : Nat), gcd F fuel ⟨[0], true⟩ ⟨[0], false⟩ = .error .outOfFuel) := by
  refine ⟨by decide, by decide, by decide, by decide, by decide, fun F fuel => ?_⟩
  have hlt : (BigInteger.mk [0] true).lt ⟨[0], false⟩ = false := by decide
  have hbeq : (BigInteger.mk [0] false).beq (ofInt64 0) = false := by decide
  unfold gcd
  simp only [hlt, Bool.false_eq_true, if_false, hbeq]
  rw [gcdStrip_zero_diverges, bind_error]

end BigInteger
